import Mathlib

/-!
Reed–Solomon codec over GF(2^M): shallow embedding and verification.

The development embeds three source files:

* `tablesgenerator.cc` (namespace `TablesGenerator`): the walk `next`, and `generate`,
  which fills the `log`, `exp` and `Artin_Schreier_imap` tables;
* `galoisfield.hh` (namespace `GF`): the table driven field operations on values and
  log-indices;
* `reedsolomon.hh` (namespace `ReedSolomon`): the constructor (generator polynomial),
  `encode`, `compute_syndromes`, `correct` and `decode`.

Conventions of the embedding.

* `TYPE` is an unsigned integer of `w` bits; a conversion to `TYPE` is `toTYPE w`, that is
  `% 2 ^ w`.  C++ `int` arithmetic is modelled on `Nat`; a difference that may be negative
  before it is converted to `TYPE` is written `(x + 2 ^ w - y) % 2 ^ w`.
* A function that can hit a failing `assert`, read or write outside an array, or read a cell
  that was never written returns `none`.
* `for` loops are folds in the `Option` monad over the list of values of the loop variable.
* Arrays are lists; a local array that the source declares without initialising it is a list
  of `Option` cells, `none` being a cell not yet written.
-/

/-! ## Loops and arrays -/

/-- The loop `for (i = lo; i < hi; ++i) s = body i s`, stopping at the first failure. -/
def forUp {σ : Type} (lo hi : Nat) (body : Nat → σ → Option σ) (s : σ) : Option σ :=
  (List.range' lo (hi - lo)).foldlM (fun s i => body i s) s

/-- The loop `for (j = hi; j > lo; --j) s = body j s`: the loop variable takes the values
`hi, hi - 1, ..., lo + 1`. -/
def forDown {σ : Type} (hi lo : Nat) (body : Nat → σ → Option σ) (s : σ) : Option σ :=
  (List.range' (lo + 1) (hi - lo)).reverse.foldlM (fun s j => body j s) s

/-- The loop `for (j = hi; j >= lo; --j) s = body j s` over `int j`: the loop variable takes the
values `hi, hi - 1, ..., lo`. -/
def forDownTo {σ : Type} (hi lo : Nat) (body : Nat → σ → Option σ) (s : σ) : Option σ :=
  (List.range' lo (hi + 1 - lo)).reverse.foldlM (fun s j => body j s) s

/-- The loop `for (x = 2; x < hi; x += 2) s = body x s`. -/
def forEven {σ : Type} (hi : Nat) (body : Nat → σ → Option σ) (s : σ) : Option σ :=
  ((List.range ((hi - 1) / 2)).map (fun k => 2 * k + 2)).foldlM (fun s x => body x s) s

/-- The array write `xs[i] = v`; `none` when `i` is outside the array. -/
def store {α : Type} (xs : List α) (i : Nat) (v : α) : Option (List α) :=
  if i < xs.length then some (xs.set i v) else none

/-- The array read `xs[i]` from an array of cells; `none` when `i` is outside the array or the
cell was never written. -/
def load (xs : List (Option Nat)) (i : Nat) : Option Nat :=
  (xs[i]?).join

/-- The array read `xs[i]`; `none` when `i` is outside the array. -/
def rd (xs : List Nat) (i : Nat) : Option Nat := xs[i]?

/-- The contents of an array of cells once every cell has been written. -/
def freeze : List (Option Nat) → Option (List Nat)
  | [] => some []
  | c :: cs => c.bind (fun v => (freeze cs).map (fun vs => v :: vs))

/-- Conversion of a non-negative `int` to the unsigned `w`-bit `TYPE`. -/
def toTYPE (w x : Nat) : Nat := x % 2 ^ w

/-! ## `galoisfield.hh`, part one: the tables -/

namespace GF

/-- The generated `struct Tables<M, POLY, TYPE>`: the three constant tables behind
`Tables::log`, `Tables::exp` and `Tables::Artin_Schreier_imap`. -/
structure Tables where
  log : List Nat
  exp : List Nat
  Artin_Schreier_imap : List Nat
deriving DecidableEq

/-- `static const int Q = 1 << M`. -/
def Q (M : Nat) : Nat := 1 <<< M

/-- `static const int N = Q - 1`. -/
def N (M : Nat) : Nat := Q M - 1

/-- The two `static_assert`s shared by `Value`, `Index` and `TablesGenerator`:
`M <= 8 * sizeof(TYPE)` and `Q == (POLY & ~N)`. -/
def staticAsserts (M POLY w : Nat) : Bool :=
  decide (M ≤ w) && ((POLY >>> M) <<< M == Q M)

end GF

/-! ## `tablesgenerator.cc` -/

namespace TablesGenerator

open GF

/-- `next(a)`: `a & (TYPE)(Q >> 1) ? (a << 1) ^ (TYPE)POLY : a << 1`, returned as `TYPE`. -/
def next (M POLY w a : Nat) : Nat :=
  if a &&& toTYPE w (Q M >>> 1) ≠ 0 then toTYPE w ((a <<< 1) ^^^ toTYPE w POLY)
  else toTYPE w (a <<< 1)

/-- The body of the first loop of `generate`, `log[exp[i] = a] = i`, with the step
`a = next(a)` of the loop header.  The state is `(log, exp, a)`. -/
def logExpStep (M POLY w i : Nat) (s : List (Option Nat) × List (Option Nat) × Nat) :
    Option (List (Option Nat) × List (Option Nat) × Nat) := do
  let exp2 ← store s.2.1 i (some s.2.2)
  let log2 ← store s.1 s.2.2 (some (toTYPE w i))
  pure (log2, exp2, next M POLY w s.2.2)

/-- The first loop of `generate`, with the two stores before it:
`log[exp[N] = 0] = N; for (i = 0; i < N; ++i, a = next(a)) log[exp[i] = a] = i;`.
The result is `(log, exp, a)` with the final `a`. -/
def fillLogExp (M POLY w : Nat) : Option (List (Option Nat) × List (Option Nat) × Nat) := do
  let log0 : List (Option Nat) := List.replicate (Q M) none
  let exp0 : List (Option Nat) := List.replicate (Q M) none
  let exp1 ← store exp0 (N M) (some (toTYPE w 0))
  let log1 ← store log0 (toTYPE w 0) (some (toTYPE w (N M)))
  forUp 0 (N M) (logExpStep M POLY w) (log1, exp1, toTYPE w 1)

/-- The first part of `generate`, up to the tables `log` and `exp` it prints: the
`static_assert`s, the first loop, `assert(1 == a)`, and the two arrays with every cell written
(`print` reads all `Q` cells of each).  `none` when an assertion fails, an array is accessed
out of bounds or a cell that `print` reads was never written. -/
def generateLogExp (M POLY w : Nat) : Option (List Nat × List Nat) := do
  if staticAsserts M POLY w = false then none else
  let s ← fillLogExp M POLY w
  if s.2.2 ≠ 1 then none else
  let logT ← freeze s.1
  let expT ← freeze s.2.1
  pure (logT, expT)

/-- The body of the second loop of `generate`:
`xxx = exp[(2*log[x])%N]^x; assert(xxx); assert(!Artin_Schreier_imap[xxx]);
Artin_Schreier_imap[xxx] = x;`. -/
def artinSchreierStep (M w : Nat) (log exp : List Nat) (x : Nat) (imap : List Nat) :
    Option (List Nat) := do
  let l ← rd log x
  let e ← rd exp ((2 * l) % N M)
  let xxx := e ^^^ x
  if xxx = 0 then none else
  let old ← rd imap xxx
  if old ≠ 0 then none else
  store imap xxx (toTYPE w x)

/-- The second part of `generate`: the array `Artin_Schreier_imap[N]` is zeroed and then
filled by `for (x = 2; x < N; x += 2)`. -/
def fillArtinSchreier (M w : Nat) (log exp : List Nat) : Option (List Nat) :=
  forEven (N M) (artinSchreierStep M w log exp) (List.replicate (N M) 0)

/-- `generate`: the three tables it prints, or `none` when a `static_assert` or an `assert`
fails, an array is accessed out of bounds or a cell is read that was never written. -/
def generate (M POLY w : Nat) : Option Tables := do
  let le ← generateLogExp M POLY w
  let imap ← fillArtinSchreier M w le.1 le.2
  pure ⟨le.1, le.2, imap⟩

end TablesGenerator

/-! ## `galoisfield.hh`, part two: the operations -/

namespace GF

/-- `Index::modulus()`: `N` returned as `TYPE`. -/
def modulus (M w : Nat) : Nat := toTYPE w (N M)

/-- `index(a)`: `Tables::log(a.v)`. -/
def index (T : Tables) (a : Nat) : Option Nat := rd T.log a

/-- `value(a)`: `assert(a.i != a.modulus())`, then `Tables::exp(a.i)`. -/
def value (M w : Nat) (T : Tables) (i : Nat) : Option Nat :=
  if i = modulus M w then none else rd T.exp i

/-- `operator + (Value, Value)`. -/
def add (a b : Nat) : Nat := a ^^^ b

/-- `operator * (Index, Index)`. -/
def mulII (M w a b : Nat) : Option Nat :=
  if a = modulus M w then none else
  if b = modulus M w then none else
  let tmp := toTYPE w (a + b)
  some (if modulus M w - a ≤ b then toTYPE w (tmp + 2 ^ w - modulus M w) else tmp)

/-- `operator * (Value, Value)`. -/
def mulVV (M w : Nat) (T : Tables) (a b : Nat) : Option Nat :=
  if a = 0 ∨ b = 0 then some 0 else do
    let ia ← index T a
    let ib ← index T b
    let i ← mulII M w ia ib
    value M w T i

/-- `rcp(a)`: `assert(a.v)`, then `value(Index(a.modulus() - index(a).i))`.  The source calls
`modulus()` on the `Value` `a`, which has no such member; it is read as `Index::modulus()`. -/
def rcp (M w : Nat) (T : Tables) (a : Nat) : Option Nat :=
  if a = 0 then none else do
    let ia ← index T a
    value M w T (toTYPE w (modulus M w - ia))

/-- `operator / (Index, Index)`. -/
def divII (M w a b : Nat) : Option Nat :=
  if a = modulus M w then none else
  if b = modulus M w then none else
  let tmp := toTYPE w (a + 2 ^ w - b)
  some (if a < b then toTYPE w (tmp + modulus M w) else tmp)

/-- `operator / (Value, Value)`. -/
def divVV (M w : Nat) (T : Tables) (a b : Nat) : Option Nat :=
  if b = 0 then none else
  if a = 0 then some 0 else do
    let ia ← index T a
    let ib ← index T b
    let i ← divII M w ia ib
    value M w T i

/-- `operator / (Index, Value)`. -/
def divIV (M w : Nat) (T : Tables) (a b : Nat) : Option Nat :=
  if a = modulus M w then none else
  if b = 0 then none else do
    let ib ← index T b
    let i ← divII M w a ib
    value M w T i

/-- `operator / (Value, Index)`. -/
def divVI (M w : Nat) (T : Tables) (a b : Nat) : Option Nat :=
  if b = modulus M w then none else
  if a = 0 then some 0 else do
    let ia ← index T a
    let i ← divII M w ia b
    value M w T i

/-- `operator * (Index, Value)`. -/
def mulIV (M w : Nat) (T : Tables) (a b : Nat) : Option Nat :=
  if a = modulus M w then none else
  if b = 0 then some 0 else do
    let ib ← index T b
    let i ← mulII M w a ib
    value M w T i

/-- `operator * (Value, Index)`. -/
def mulVI (M w : Nat) (T : Tables) (a b : Nat) : Option Nat :=
  if b = modulus M w then none else
  if a = 0 then some 0 else do
    let ia ← index T a
    let i ← mulII M w ia b
    value M w T i

/-- `fma(Index, Index, Value)`. -/
def fmaIIV (M w : Nat) (T : Tables) (a b c : Nat) : Option Nat :=
  if a = modulus M w then none else
  if b = modulus M w then none else do
    let i ← mulII M w a b
    let v ← value M w T i
    pure (add v c)

/-- `fma(Index, Value, Value)`. -/
def fmaIVV (M w : Nat) (T : Tables) (a b c : Nat) : Option Nat :=
  if a = modulus M w then none else
  if b = 0 then some c else do
    let ib ← index T b
    let i ← mulII M w a ib
    let v ← value M w T i
    pure (add v c)

/-- `fma(Value, Index, Value)`. -/
def fmaVIV (M w : Nat) (T : Tables) (a b c : Nat) : Option Nat :=
  if b = modulus M w then none else
  if a = 0 then some c else do
    let ia ← index T a
    let i ← mulII M w ia b
    let v ← value M w T i
    pure (add v c)

/-- `fma(Value, Value, Value)`. -/
def fmaVVV (M w : Nat) (T : Tables) (a b c : Nat) : Option Nat :=
  if a = 0 ∨ b = 0 then some c else do
    let ia ← index T a
    let ib ← index T b
    let i ← mulII M w ia ib
    let v ← value M w T i
    pure (add v c)

/-- `Value::operator *= (Index)`: `assert(a.i != a.modulus())`, then `*this * a`. -/
def mulAssignVI (M w : Nat) (T : Tables) (v a : Nat) : Option Nat :=
  if a = modulus M w then none else mulVI M w T v a

/-- `Index::operator *= (Index)`: `assert(a.i != a.modulus())`, then `*this * a`. -/
def mulAssignII (M w i a : Nat) : Option Nat :=
  if a = modulus M w then none else mulII M w i a

/-- Modelled from the spec: the function `Artin_Schreier_imap(Value)` that `correct` calls is
defined in none of the embedded files; it is read as the spec's `as_imap(K)`, the lookup in the
generated `Tables::Artin_Schreier_imap`, which `print` emits as `return table[a]` on a table of
`N` entries.  `none` when `a` is not an index of the table. -/
def Artin_Schreier_imap (T : Tables) (a : Nat) : Option Nat :=
  rd T.Artin_Schreier_imap a

end GF

/-! ## `reedsolomon.hh` -/

namespace ReedSolomon

open GF

/-- `static const int K = N - NR`. -/
def K (M NR : Nat) : Nat := N M - NR

/-- The body of the inner loop of the constructor: `tmp[j] = fma(root, tmp[j], tmp[j-1])`. -/
def generatorInner (M w : Nat) (T : Tables) (root j : Nat) (tmp : List (Option Nat)) :
    Option (List (Option Nat)) := do
  let tj ← load tmp j
  let tj1 ← load tmp (j - 1)
  let v ← fmaIVV M w T root tj tj1
  store tmp j (some v)

/-- The body of the outer loop of the constructor, on the state `(tmp, root)`:
`tmp[i] = 1; for (j = i; j > 0; --j) ...; tmp[0] *= root; root *= pe;`. -/
def generatorOuter (M w : Nat) (T : Tables) (i : Nat) (s : List (Option Nat) × Nat) :
    Option (List (Option Nat) × Nat) := do
  let pe := toTYPE w 1
  let t0 ← store s.1 i (some (toTYPE w 1))
  let t1 ← forDown i 0 (generatorInner M w T s.2) t0
  let a0 ← load t1 0
  let v0 ← mulAssignVI M w T a0 s.2
  let t2 ← store t1 0 (some v0)
  let root1 ← mulAssignII M w s.2 pe
  pure (t2, root1)

/-- The body of the last loop of the constructor: `generator[i] = index(tmp[i])`. -/
def generatorIndex (T : Tables) (tmp : List (Option Nat)) (i : Nat) (gen : List Nat) :
    Option (List Nat) := do
  let ti ← load tmp i
  let gi ← index T ti
  store gen i gi

/-- The constructor `ReedSolomon()`: the array `generator[NR+1]` of log-indices.  The local
array `tmp` starts uninitialised, `root` as `IndexType(FCR)`. -/
def generator (M w : Nat) (T : Tables) (NR FCR : Nat) : Option (List Nat) := do
  let tmp0 : List (Option Nat) := List.replicate (NR + 1) none
  let s ← forUp 0 NR (generatorOuter M w T) (tmp0, toTYPE w FCR)
  let tmp2 ← store s.1 NR (some (toTYPE w 1))
  forUp 0 (NR + 1) (generatorIndex T tmp2) (List.replicate (NR + 1) 0)

/-- The body of the first loop of `encode`: `code[K+i] = ValueType(0)`. -/
def encodeClear (M w NR i : Nat) (code : List Nat) : Option (List Nat) :=
  store code (K M NR + i) (toTYPE w 0)

/-- The body of the inner loop of `encode` when the feedback is not zero:
`code[K+j-1] = fma(fb, generator[NR-j], code[K+j])`. -/
def encodeFeed (M w : Nat) (T : Tables) (NR : Nat) (gen : List Nat) (fb j : Nat)
    (code : List Nat) : Option (List Nat) := do
  let g ← rd gen (NR - j)
  let cj ← rd code (K M NR + j)
  let v ← fmaIIV M w T fb g cj
  store code (K M NR + j - 1) v

/-- The body of the inner loop of `encode` when the feedback is zero:
`code[K+j-1] = code[K+j]`. -/
def encodeShift (M NR j : Nat) (code : List Nat) : Option (List Nat) := do
  let cj ← rd code (K M NR + j)
  store code (K M NR + j - 1) cj

/-- The body of the main loop of `encode`. -/
def encodeStep (M w : Nat) (T : Tables) (NR : Nat) (gen : List Nat) (i : Nat)
    (code : List Nat) : Option (List Nat) := do
  let ci ← rd code i
  let cK ← rd code (K M NR)
  let feedback := add ci cK
  if feedback ≠ 0 then do
    let fb ← index T feedback
    let c1 ← forUp 1 NR (encodeFeed M w T NR gen fb) code
    let g0 ← rd gen 0
    let i0 ← mulII M w g0 fb
    let v0 ← value M w T i0
    store c1 (N M - 1) v0
  else do
    let c1 ← forUp 1 NR (encodeShift M NR) code
    store c1 (N M - 1) (toTYPE w 0)

/-- `encode(ValueType *code)`, on a buffer `code` and the array `gen` built by the
constructor. -/
def encode (M w : Nat) (T : Tables) (NR : Nat) (gen code : List Nat) : Option (List Nat) := do
  let code1 ← forUp 0 NR (encodeClear M w NR) code
  forUp 0 (K M NR) (encodeStep M w T NR gen) code1

/-- The body of the first loop of `compute_syndromes`: `syndromes[i] = code[0]`. -/
def syndromeInit (code : List Nat) (i : Nat) (syndromes : List Nat) : Option (List Nat) := do
  let c0 ← rd code 0
  store syndromes i c0

/-- The body of the inner loop of `compute_syndromes`, on the state `(syndromes, root)`:
`syndromes[i] = fma(root, syndromes[i], code[j]); root *= pe;`. -/
def syndromeInner (M w : Nat) (T : Tables) (code : List Nat) (j i : Nat)
    (st : List Nat × Nat) : Option (List Nat × Nat) := do
  let pe := toTYPE w 1
  let si ← rd st.1 i
  let cj ← rd code j
  let v ← fmaIVV M w T st.2 si cj
  let s2 ← store st.1 i v
  let root1 ← mulAssignII M w st.2 pe
  pure (s2, root1)

/-- The body of the outer loop of `compute_syndromes`: `root` restarts as `IndexType(FCR)`. -/
def syndromeOuter (M w : Nat) (T : Tables) (NR FCR : Nat) (code : List Nat) (j : Nat)
    (syndromes : List Nat) : Option (List Nat) := do
  let st ← forUp 0 NR (syndromeInner M w T code j) (syndromes, toTYPE w FCR)
  pure st.1

/-- The body of the last loop of `compute_syndromes`: `nonzero += !!syndromes[i]`. -/
def syndromeCount (syndromes : List Nat) (i : Nat) (nonzero : Nat) : Option Nat := do
  let si ← rd syndromes i
  pure (nonzero + (if si ≠ 0 then 1 else 0))

/-- `compute_syndromes(ValueType *code, ValueType *syndromes)`.  The result is
`(code, syndromes, nonzero)`: the buffer `code` as the call leaves it, the `NR` cells the call
writes to `syndromes` (the first loop overwrites all of them, so what the caller's array held
before is not an input), and the value returned. -/
def compute_syndromes (M w : Nat) (T : Tables) (NR FCR : Nat) (code : List Nat) :
    Option (List Nat × List Nat × Nat) := do
  let syn0 ← forUp 0 NR (syndromeInit code) (List.replicate NR 0)
  let syn1 ← forUp 1 (N M) (syndromeOuter M w T NR FCR code) syn0
  let nonzero ← forUp 0 NR (syndromeCount syn1) 0
  pure (code, syn1, nonzero)

/-- The body of the inner loop that seeds the locator from the erasures:
`locator[j+1] += tmp * locator[j]`, with `operator * (Index, Value)`. -/
def locatorSeedInner (M w : Nat) (T : Tables) (tmp j : Nat) (locator : List Nat) :
    Option (List Nat) := do
  let lj ← rd locator j
  let p ← mulIV M w T tmp lj
  let lj1 ← rd locator (j + 1)
  store locator (j + 1) (add lj1 p)

/-- The body of the outer loop that seeds the locator from the erasures:
`IndexType tmp(IndexType(N-1) / erasures[i]); for (j = i; j >= 0; --j) ...`. -/
def locatorSeedOuter (M w : Nat) (T : Tables) (erasures : List Nat) (i : Nat)
    (locator : List Nat) : Option (List Nat) := do
  let ei ← rd erasures i
  let tmp ← divII M w (toTYPE w (N M - 1)) ei
  forDownTo i 0 (locatorSeedInner M w T tmp) locator

/-- The locator that `correct` hands to Berlekamp–Massey: `locator[0] = 1`, the other `NR`
cells zero, then the factors `1 - x α^(N-1-erasures[i])` of the erasures. -/
def locatorSeed (M w : Nat) (T : Tables) (NR : Nat) (erasures : List Nat)
    (erasures_count : Nat) : Option (List Nat) := do
  let locator0 : List Nat := toTYPE w 1 :: List.replicate NR (toTYPE w 0)
  let locator1 ← if erasures_count ≠ 0 then do
      let e0 ← rd erasures 0
      let i0 ← divII M w (toTYPE w (N M - 1)) e0
      let v ← value M w T i0
      store locator0 1 v
    else pure locator0
  forUp 1 erasures_count (locatorSeedOuter M w T erasures) locator1

/-- The loop `while (!locator[locator_degree]) if (--locator_degree < 0) return -1;` from the
degree `d`: `some (some d')` is the trimmed degree `d'`, `some none` stands for `return -1`. -/
def trimDegree (locator : List Nat) : Nat → Option (Option Nat)
  | 0 => do
    let v ← rd locator 0
    if v ≠ 0 then pure (some 0) else pure none
  | d + 1 => do
    let v ← rd locator (d + 1)
    if v ≠ 0 then pure (some (d + 1)) else trimDegree locator d

/-- The branch `locator_degree == 1` of `correct`: the array `locations`. -/
def locationsDegree1 (M w : Nat) (T : Tables) (locator : List Nat) : Option (List Nat) := do
  let l0 ← rd locator 0
  let l1 ← rd locator 1
  let i0 ← index T l0
  let i1 ← index T l1
  let q ← divII M w i0 i1
  let loc ← divII M w q (toTYPE w 1)
  pure [loc]

/-- The branch `locator_degree == 2` of `correct`: `some (some locations)`, or `some none` for
`return -1`. -/
def locationsDegree2 (M w : Nat) (T : Tables) (locator : List Nat) :
    Option (Option (List Nat)) := do
  let l0 ← rd locator 0
  let l1 ← rd locator 1
  if l1 = 0 ∨ l0 = 0 then pure none else
  let a ← rd locator 2
  let b := l1
  let c := l0
  let ba ← divVV M w T b a
  let ac ← mulVV M w T a c
  let bb ← mulVV M w T b b
  let k ← divVV M w T ac bb
  let R ← Artin_Schreier_imap T k
  if R = 0 then pure none else
  let baR ← mulVV M w T ba R
  let i1 ← index T baR
  let loc0 ← divII M w i1 (toTYPE w 1)
  let i2 ← index T (add baR ba)
  let loc1 ← divII M w i2 (toTYPE w 1)
  pure (some [loc0, loc1])

/-- The body of the loop `code[(int)locations[i]] += magnitudes[i]`. -/
def applyMagnitude (locations magnitudes : List Nat) (i : Nat) (code : List Nat) :
    Option (List Nat) := do
  let loc ← rd locations i
  let mag ← rd magnitudes i
  let c ← rd code loc
  store code loc (add c mag)

/-- The body of the last loop of `correct`: `corrections_count += !!magnitudes[i]`. -/
def magnitudeCount (magnitudes : List Nat) (i : Nat) (corrections_count : Nat) : Option Nat := do
  let mi ← rd magnitudes i
  pure (corrections_count + (if mi ≠ 0 then 1 else 0))

/-- `correct(ValueType *code, ValueType *syndromes, IndexType *erasures, int erasures_count)`.
The three algorithms of headers that the repository does not hold are parameters:
`BerlekampMassey::algorithm(syndromes, locator, erasures_count)` returns the locator array as
it leaves it and the degree; `Chien::search(locator, locator_degree, locations)` returns the
array `locations` and the count; `Forney::algorithm(...)` returns the arrays `evaluator` and
`magnitudes` and the evaluator degree.  The result is the buffer and the value returned.
`Value` has no `operator ==`, so `assert(locator[0] == ValueType(1))` compares the two values
after `operator bool`.  A negative degree from Berlekamp–Massey makes the `while` loop read
before the array. -/
def correct (M w : Nat) (T : Tables) (NR : Nat)
    (BerlekampMassey : List Nat → List Nat → Int → Option (List Nat × Int))
    (Chien : List Nat → Nat → Option (List Nat × Int))
    (Forney : List Nat → List Nat → List Nat → Int → Option (List Nat × List Nat × Int))
    (code syndromes erasures : List Nat) (erasures_count : Int) : Option (List Nat × Int) :=
  if ¬ (0 ≤ erasures_count ∧ erasures_count ≤ (NR : Int)) then none else do
    let locator0 ← locatorSeed M w T NR erasures erasures_count.toNat
    let bm ← BerlekampMassey syndromes locator0 erasures_count
    let locator := bm.1
    let locator_degree := bm.2
    if locator_degree = 0 then none else
    if ¬ (locator_degree ≤ (NR : Int)) then none else
    let l0 ← rd locator 0
    if decide (l0 ≠ 0) ≠ decide (toTYPE w 1 ≠ 0) then none else
    if locator_degree < 0 then none else
    let trimmed ← trimDegree locator locator_degree.toNat
    match trimmed with
    | none => pure (code, -1)
    | some degree =>
      let found ← (
        if degree = 1 then do
          let locations ← locationsDegree1 M w T locator
          pure (some (locations, (1 : Int)))
        else if degree = 2 then do
          let r ← locationsDegree2 M w T locator
          pure (r.map (fun locations => (locations, (2 : Int))))
        else do
          let r ← Chien locator degree
          if r.2 < (degree : Int) then pure none else pure (some r))
      match found with
      | none => pure (code, -1)
      | some (locations, count) =>
        let fy ← Forney syndromes locator locations count
        let magnitudes := fy.2.1
        let code1 ← forUp 0 count.toNat (applyMagnitude locations magnitudes) code
        let corrections ← forUp 0 count.toNat (magnitudeCount magnitudes) 0
        pure (code1, (corrections : Int))

/-- `decode(ValueType *code, IndexType *erasures, int erasures_count)`, with the member
function `correct` it calls passed as `correct`.  The result is the buffer and the value
returned. -/
def decode (M w : Nat) (T : Tables) (NR FCR : Nat)
    (correct : List Nat → List Nat → List Nat → Int → Option (List Nat × Int))
    (code erasures : List Nat) (erasures_count : Int) : Option (List Nat × Int) :=
  if ¬ (0 ≤ erasures_count ∧ erasures_count ≤ (NR : Int)) then none else do
    let r ← compute_syndromes M w T NR FCR code
    if r.2.2 ≠ 0 then correct r.1 r.2.1 erasures erasures_count
    else pure (r.1, 0)

end ReedSolomon

/-! ## Loop rules -/

theorem forUp_self {σ : Type} (lo : Nat) (body : Nat → σ → Option σ) (s : σ) :
    forUp lo lo body s = some s := by
  simp [forUp]

theorem forUp_succ {σ : Type} {lo hi : Nat} (h : lo ≤ hi) (body : Nat → σ → Option σ) (s : σ) :
    forUp lo (hi + 1) body s = (forUp lo hi body s).bind (body hi) := by
  unfold forUp
  have e : hi + 1 - lo = (hi - lo) + 1 := by omega
  rw [e, List.range'_concat, List.foldlM_append]
  have e2 : lo + 1 * (hi - lo) = hi := by omega
  have e3 : lo + (hi - lo) = hi := by omega
  simp [e2, e3]

/-- Invariant rule for an ascending loop: an invariant that holds on entry and that every
iteration both preserves and completes without failure holds on exit, and the loop returns. -/
theorem forUp_inv {σ : Type} {lo hi : Nat} (h : lo ≤ hi) (body : Nat → σ → Option σ)
    (P : Nat → σ → Prop) (s : σ) (h0 : P lo s)
    (hstep : ∀ i s, lo ≤ i → i < hi → P i s → ∃ s', body i s = some s' ∧ P (i + 1) s') :
    ∃ s', forUp lo hi body s = some s' ∧ P hi s' := by
  induction hi with
  | zero =>
    have : lo = 0 := by omega
    subst this
    exact ⟨s, forUp_self _ _ _, h0⟩
  | succ n ih =>
    rcases Nat.eq_or_lt_of_le h with e | hlt
    · rw [e]; exact ⟨s, forUp_self _ _ _, e ▸ h0⟩
    · have hle : lo ≤ n := by omega
      obtain ⟨s1, hs1, hP1⟩ := ih hle (fun i s hi1 hi2 hp => hstep i s hi1 (by omega) hp)
      obtain ⟨s2, hs2, hP2⟩ := hstep n s1 hle (by omega) hP1
      exact ⟨s2, by rw [forUp_succ hle, hs1]; exact hs2, hP2⟩

theorem forDown_self {σ : Type} (lo : Nat) (body : Nat → σ → Option σ) (s : σ) :
    forDown lo lo body s = some s := by
  simp [forDown]

theorem forDown_succ {σ : Type} {hi lo : Nat} (h : lo ≤ hi) (body : Nat → σ → Option σ) (s : σ) :
    forDown (hi + 1) lo body s = (body (hi + 1) s).bind (forDown hi lo body) := by
  unfold forDown
  have e : hi + 1 - lo = (hi - lo) + 1 := by omega
  rw [e, List.range'_concat, List.reverse_append]
  have e2 : lo + 1 + 1 * (hi - lo) = hi + 1 := by omega
  have e3 : lo + 1 + (hi - lo) = hi + 1 := by omega
  simp [e2, e3]

/-- Invariant rule for a descending loop: `P j s` is the invariant before the iteration with
loop variable `j`, and `P lo s` holds on exit. -/
theorem forDown_inv {σ : Type} {hi lo : Nat} (h : lo ≤ hi) (body : Nat → σ → Option σ)
    (P : Nat → σ → Prop) (s : σ) (h0 : P hi s)
    (hstep : ∀ j s, lo < j → j ≤ hi → P j s → ∃ s', body j s = some s' ∧ P (j - 1) s') :
    ∃ s', forDown hi lo body s = some s' ∧ P lo s' := by
  induction hi generalizing s with
  | zero =>
    have : lo = 0 := by omega
    subst this
    exact ⟨s, forDown_self _ _ _, h0⟩
  | succ n ih =>
    rcases Nat.eq_or_lt_of_le h with e | hlt
    · rw [← e]; exact ⟨s, forDown_self _ _ _, e ▸ h0⟩
    · have hle : lo ≤ n := by omega
      obtain ⟨s1, hs1, hP1⟩ := hstep (n + 1) s hlt (le_refl _) h0
      obtain ⟨s2, hs2, hP2⟩ := ih hle s1 hP1 (fun j s hj1 hj2 hp => hstep j s hj1 (by omega) hp)
      exact ⟨s2, by rw [forDown_succ hle, hs1]; exact hs2, hP2⟩

/-- Invariant rule for the loop over the even numbers `2, 4, ...` below `hi`: `P k s` is the
invariant before the iteration with `x = 2 * k + 2`. -/
theorem forEven_inv {σ : Type} (hi : Nat) (body : Nat → σ → Option σ)
    (P : Nat → σ → Prop) (s : σ) (h0 : P 0 s)
    (hstep : ∀ k s, 2 * k + 2 < hi → P k s → ∃ s', body (2 * k + 2) s = some s' ∧ P (k + 1) s') :
    ∃ s', forEven hi body s = some s' ∧ P ((hi - 1) / 2) s' := by
  unfold forEven
  have key : ∀ n, n ≤ (hi - 1) / 2 → ∃ s',
      ((List.range n).map (fun k => 2 * k + 2)).foldlM (fun s x => body x s) s = some s' ∧
        P n s' := by
    intro n
    induction n with
    | zero => intro _; exact ⟨s, by simp, h0⟩
    | succ n ih =>
      intro hn
      obtain ⟨s1, hs1, hP1⟩ := ih (by omega)
      obtain ⟨s2, hs2, hP2⟩ := hstep n s1 (by omega) hP1
      refine ⟨s2, ?_, hP2⟩
      rw [List.range_succ, List.map_append, List.foldlM_append, hs1]
      simpa using hs2
  exact key _ (le_refl _)

/-! ## Arrays -/

theorem store_eq_some {α : Type} {xs : List α} {i : Nat} (v : α) (h : i < xs.length) :
    store xs i v = some (xs.set i v) := by
  simp [store, h]

theorem rd_eq_some {xs : List Nat} {i : Nat} (h : i < xs.length) :
    rd xs i = some xs[i] := by
  simp [rd, h]

theorem freeze_map_some (vs : List Nat) : freeze (vs.map some) = some vs := by
  induction vs with
  | nil => rfl
  | cons v vs ih => simp [freeze, ih]

theorem toTYPE_of_lt {w x : Nat} (h : x < 2 ^ w) : toTYPE w x = x :=
  Nat.mod_eq_of_lt h

namespace GF

/-- The conditions on the template parameters under which the field is set up: the two
`static_assert`s, and a field degree of at least one. -/
structure Params (M POLY w : Nat) : Prop where
  one_le : 1 ≤ M
  le_w : M ≤ w
  poly : POLY >>> M = 1

theorem Q_eq (M : Nat) : Q M = 2 ^ M := by
  simp [Q, Nat.shiftLeft_eq]

theorem Q_pos (M : Nat) : 0 < Q M := by
  rw [Q_eq]; exact Nat.two_pow_pos M

theorem N_lt_Q (M : Nat) : N M < Q M := by
  have := Q_pos M
  unfold N; omega

theorem N_succ (M : Nat) : N M + 1 = Q M := by
  have := Q_pos M
  unfold N; omega

theorem params_of_staticAsserts {M POLY w : Nat} (hM : 1 ≤ M)
    (h : staticAsserts M POLY w = true) : Params M POLY w := by
  simp only [staticAsserts, Bool.and_eq_true, decide_eq_true_eq, beq_iff_eq] at h
  refine ⟨hM, h.1, ?_⟩
  have h2 := h.2
  rw [Q, Nat.shiftLeft_eq, Nat.shiftLeft_eq] at h2
  exact Nat.eq_of_mul_eq_mul_right (Nat.two_pow_pos M) h2

end GF

namespace TablesGenerator

open GF

/-- The `i`-th value of the walk `a = 1; a = next(a); ...` of `generate`. -/
def alphaPow (M POLY w i : Nat) : Nat := (next M POLY w)^[i] 1

/-- The polynomial `POLY` is primitive: the walk from 1 returns to 1 after `N` steps and not
before (the element `x` has multiplicative order `N`). -/
def Primitive (M POLY w : Nat) : Prop :=
  alphaPow M POLY w (N M) = 1 ∧ ∀ i, i < N M → 0 < i → alphaPow M POLY w i ≠ 1

instance (M POLY w : Nat) : Decidable (Primitive M POLY w) := by
  unfold Primitive; infer_instance

variable {M POLY w : Nat}

theorem mask_eq (hp : Params M POLY w) : toTYPE w (Q M >>> 1) = 2 ^ (M - 1) := by
  have h1 := hp.one_le
  have h2 := hp.le_w
  rw [Q_eq, Nat.shiftRight_eq_div_pow, pow_one]
  have : 2 ^ M / 2 = 2 ^ (M - 1) := by
    obtain ⟨k, rfl⟩ : ∃ k, M = k + 1 := ⟨M - 1, by omega⟩
    simp [pow_succ]
  rw [this]
  apply toTYPE_of_lt
  exact Nat.pow_lt_pow_right (by decide) (by omega)

theorem poly_testBit (hp : Params M POLY w) (i : Nat) :
    POLY.testBit i = (decide (i = M) || (decide (i < M) && POLY.testBit i)) := by
  have h := hp.poly
  by_cases hi : i < M
  · have : i ≠ M := by omega
    simp [hi, this]
  · have : M ≤ i := by omega
    obtain ⟨k, rfl⟩ : ∃ k, i = M + k := ⟨i - M, by omega⟩
    have e : POLY.testBit (M + k) = (POLY >>> M).testBit k := by
      rw [Nat.testBit_shiftRight]
    rw [e, h]
    cases k with
    | zero => simp
    | succ k =>
      have h1 : (1 : Nat) < 2 ^ (k + 1) := Nat.one_lt_two_pow (by omega)
      simp [hi, Nat.testBit_lt_two_pow h1]

/-- The walk step on a value below `Q`, bit by bit: the value is doubled, the bit that leaves
the field is dropped and, when it was set, the low part of `POLY` is added. -/
theorem next_eq (hp : Params M POLY w) {a : Nat} (ha : a < 2 ^ M) :
    next M POLY w a = ((2 * a) % 2 ^ M) ^^^ (if a.testBit (M - 1) then POLY % 2 ^ M else 0) := by
  have h1 := hp.one_le
  have h2 := hp.le_w
  have hbit : (a &&& 2 ^ (M - 1) ≠ 0) ↔ a.testBit (M - 1) = true := by
    rw [Nat.and_two_pow]
    cases a.testBit (M - 1) <;> simp
  unfold next
  rw [mask_eq hp]
  by_cases hb : a.testBit (M - 1) = true
  · rw [if_pos (hbit.2 hb), if_pos hb]
    apply Nat.eq_of_testBit_eq
    intro i
    simp only [toTYPE, Nat.testBit_mod_two_pow, Nat.testBit_xor, Nat.shiftLeft_eq]
    rw [poly_testBit hp i]
    have e2 : a * 2 ^ 1 = 2 * a := by ring
    rw [e2]
    by_cases hi : i < M
    · have hiw : i < w := by omega
      have : i ≠ M := by omega
      simp [hi, hiw, this]
    · by_cases hiw : i < w
      · have hM : M ≤ i := by omega
        simp only [hi, hiw, decide_True, decide_False, Bool.true_and, Bool.false_and,
          Bool.or_false, Bool.false_xor, Bool.xor_false]
        rcases Nat.eq_or_lt_of_le hM with e | hlt
        · subst e
          have : (2 * a).testBit M = a.testBit (M - 1) := by
            obtain ⟨k, hk⟩ : ∃ k, M = k + 1 := ⟨M - 1, by omega⟩
            rw [hk, Nat.testBit_succ]
            simp
          simp [this, hb]
        · have hlt2 : 2 * a < 2 ^ i := by
            calc 2 * a < 2 * 2 ^ M := by omega
              _ = 2 ^ (M + 1) := by ring
              _ ≤ 2 ^ i := Nat.pow_le_pow_right (by decide) (by omega)
          have : i ≠ M := by omega
          simp [Nat.testBit_lt_two_pow hlt2, this]
      · simp [hi, hiw]
  · rw [if_neg (fun h => hb (hbit.1 h)), if_neg hb]
    simp only [toTYPE, Nat.shiftLeft_eq, Nat.xor_zero]
    have e2 : a * 2 ^ 1 = 2 * a := by ring
    rw [e2]
    have hlt : 2 * a < 2 ^ M := by
      obtain ⟨k, hk⟩ : ∃ k, M = k + 1 := ⟨M - 1, by omega⟩
      have hb' : a.testBit k = false := by
        have : M - 1 = k := by omega
        rw [this] at hb
        simpa using hb
      have : a < 2 ^ k := by
        apply Nat.lt_pow_two_of_testBit
        intro i hi
        rcases Nat.eq_or_lt_of_le hi with e | hlt
        · rw [← e]; exact hb'
        · apply Nat.testBit_lt_two_pow
          exact lt_of_lt_of_le (hk ▸ ha) (Nat.pow_le_pow_right (by decide) (by omega))
      rw [hk, pow_succ]; omega
    rw [Nat.mod_eq_of_lt hlt, Nat.mod_eq_of_lt (lt_of_lt_of_le hlt (Nat.pow_le_pow_right (by decide) h2))]

theorem xor_cancel_mid (A B P : Nat) : (A ^^^ P) ^^^ (B ^^^ P) = A ^^^ B := by
  apply Nat.eq_of_testBit_eq
  intro i
  simp only [Nat.testBit_xor]
  cases A.testBit i <;> cases B.testBit i <;> cases P.testBit i <;> rfl

theorem xor_lt {a b M : Nat} (ha : a < 2 ^ M) (hb : b < 2 ^ M) : a ^^^ b < 2 ^ M :=
  Nat.xor_lt_two_pow ha hb

theorem next_lt (hp : Params M POLY w) {a : Nat} (ha : a < 2 ^ M) :
    next M POLY w a < 2 ^ M := by
  rw [next_eq hp ha]
  apply xor_lt (Nat.mod_lt _ (Nat.two_pow_pos M))
  split
  · exact Nat.mod_lt _ (Nat.two_pow_pos M)
  · exact Nat.two_pow_pos M

theorem next_zero (hp : Params M POLY w) : next M POLY w 0 = 0 := by
  rw [next_eq hp (Nat.two_pow_pos M)]
  simp

theorem double_xor (a b M : Nat) :
    (2 * (a ^^^ b)) % 2 ^ M = ((2 * a) % 2 ^ M) ^^^ ((2 * b) % 2 ^ M) := by
  apply Nat.eq_of_testBit_eq
  intro i
  have e : ∀ x : Nat, 2 * x = x <<< 1 := fun x => by rw [Nat.shiftLeft_eq]; ring
  simp only [e, Nat.testBit_mod_two_pow, Nat.testBit_xor, Nat.testBit_shiftLeft]
  cases decide (i < M) <;> cases decide (i ≥ 1) <;> simp

/-- The walk step is additive (linear over XOR) on values below `Q`. -/
theorem next_xor (hp : Params M POLY w) {a b : Nat} (ha : a < 2 ^ M) (hb : b < 2 ^ M) :
    next M POLY w (a ^^^ b) = next M POLY w a ^^^ next M POLY w b := by
  rw [next_eq hp ha, next_eq hp hb, next_eq hp (xor_lt ha hb), double_xor, Nat.testBit_xor]
  apply Nat.eq_of_testBit_eq
  intro i
  cases a.testBit (M - 1) <;> cases b.testBit (M - 1) <;>
    simp only [Bool.xor_false, Bool.xor_true, Bool.not_false, Bool.not_true, if_true,
      Bool.false_eq_true, if_false, Nat.testBit_xor, Nat.zero_testBit] <;>
    cases (2 * a % 2 ^ M).testBit i <;> cases (2 * b % 2 ^ M).testBit i <;>
    cases (POLY % 2 ^ M).testBit i <;> rfl

theorem iter_lt (hp : Params M POLY w) (k : Nat) {a : Nat} (ha : a < 2 ^ M) :
    (next M POLY w)^[k] a < 2 ^ M := by
  induction k generalizing a with
  | zero => simpa using ha
  | succ k ih => rw [Function.iterate_succ_apply]; exact ih (next_lt hp ha)

theorem iter_zero (hp : Params M POLY w) (k : Nat) : (next M POLY w)^[k] 0 = 0 := by
  induction k with
  | zero => rfl
  | succ k ih => rw [Function.iterate_succ_apply, next_zero hp, ih]

theorem iter_xor (hp : Params M POLY w) (k : Nat) {a b : Nat} (ha : a < 2 ^ M)
    (hb : b < 2 ^ M) :
    (next M POLY w)^[k] (a ^^^ b) = (next M POLY w)^[k] a ^^^ (next M POLY w)^[k] b := by
  induction k generalizing a b with
  | zero => rfl
  | succ k ih =>
    rw [Function.iterate_succ_apply, Function.iterate_succ_apply, Function.iterate_succ_apply,
      next_xor hp ha hb, ih (next_lt hp ha) (next_lt hp hb)]

/-! ### The walk -/

theorem alphaPow_zero : alphaPow M POLY w 0 = 1 := rfl

theorem alphaPow_succ (i : Nat) :
    alphaPow M POLY w (i + 1) = next M POLY w (alphaPow M POLY w i) := by
  unfold alphaPow; rw [Function.iterate_succ_apply']

theorem alphaPow_add (i k : Nat) :
    alphaPow M POLY w (i + k) = (next M POLY w)^[k] (alphaPow M POLY w i) := by
  unfold alphaPow; rw [Nat.add_comm, Function.iterate_add_apply]

theorem one_lt_Q (hp : Params M POLY w) : 1 < 2 ^ M :=
  Nat.one_lt_two_pow (by have := hp.one_le; omega)

theorem N_pos (hp : Params M POLY w) : 0 < N M := by
  have := one_lt_Q hp
  have := N_succ M
  rw [Q_eq] at this
  omega

theorem alphaPow_lt (hp : Params M POLY w) (i : Nat) : alphaPow M POLY w i < 2 ^ M :=
  iter_lt hp i (one_lt_Q hp)

theorem alphaPow_add_N (hq : Primitive M POLY w) (i : Nat) :
    alphaPow M POLY w (i + N M) = alphaPow M POLY w i := by
  rw [Nat.add_comm, alphaPow_add, hq.1]; rfl

theorem alphaPow_add_mul_N (hq : Primitive M POLY w) (i k : Nat) :
    alphaPow M POLY w (i + k * N M) = alphaPow M POLY w i := by
  induction k with
  | zero => simp
  | succ k ih => rw [Nat.succ_mul, ← Nat.add_assoc, alphaPow_add_N hq, ih]

theorem alphaPow_mod (hq : Primitive M POLY w) (i : Nat) :
    alphaPow M POLY w (i % N M) = alphaPow M POLY w i := by
  conv_rhs => rw [← Nat.mod_add_div i (N M), Nat.mul_comm]
  rw [alphaPow_add_mul_N hq]

theorem alphaPow_ne_zero (hp : Params M POLY w) (hq : Primitive M POLY w) (i : Nat) :
    alphaPow M POLY w i ≠ 0 := by
  intro h0
  have h1 : alphaPow M POLY w (0 + (i + 1) * N M) = 1 := by
    rw [alphaPow_add_mul_N hq]; rfl
  have hN := N_pos hp
  have hle : i ≤ (i + 1) * N M := by nlinarith
  have h2 : alphaPow M POLY w (i + ((i + 1) * N M - i)) = 0 := by
    rw [alphaPow_add, h0, iter_zero hp]
  have e : i + ((i + 1) * N M - i) = 0 + (i + 1) * N M := by omega
  rw [e, h1] at h2
  exact absurd h2 (by decide)

theorem alphaPow_inj (hq : Primitive M POLY w) {i j : Nat} (hi : i < N M) (hj : j < N M)
    (h : alphaPow M POLY w i = alphaPow M POLY w j) : i = j := by
  have key : ∀ i j, i < j → j < N M → alphaPow M POLY w i = alphaPow M POLY w j → False := by
    intro i j hij hj h
    have h1 : alphaPow M POLY w (i + (N M - j)) = alphaPow M POLY w (j + (N M - j)) := by
      rw [alphaPow_add, alphaPow_add, h]
    have e : j + (N M - j) = N M := by omega
    rw [e, hq.1] at h1
    exact hq.2 (i + (N M - j)) (by omega) (by omega) h1
  rcases Nat.lt_trichotomy i j with h1 | h1 | h1
  · exact (key i j h1 hj h).elim
  · exact h1
  · exact (key j i h1 hi h.symm).elim

/-- Every nonzero value below `Q` is met by the walk within its first `N` steps. -/
theorem alphaPow_surj (hp : Params M POLY w) (hq : Primitive M POLY w) {v : Nat}
    (h0 : v ≠ 0) (hv : v < 2 ^ M) : ∃ i, i < N M ∧ alphaPow M POLY w i = v := by
  have hsub : (Finset.range (N M)).image (alphaPow M POLY w) ⊆ Finset.Ico 1 (2 ^ M) := by
    intro x hx
    rw [Finset.mem_image] at hx
    obtain ⟨i, _, rfl⟩ := hx
    rw [Finset.mem_Ico]
    exact ⟨Nat.pos_of_ne_zero (alphaPow_ne_zero hp hq i), alphaPow_lt hp i⟩
  have hcard : ((Finset.range (N M)).image (alphaPow M POLY w)).card = N M := by
    rw [Finset.card_image_of_injOn, Finset.card_range]
    intro i hi j hj h
    exact alphaPow_inj hq (Finset.mem_range.1 hi) (Finset.mem_range.1 hj) h
  have hN : (Finset.Ico 1 (2 ^ M)).card = N M := by
    rw [Nat.card_Ico, N, Q_eq]
  have heq := Finset.eq_of_subset_of_card_le hsub (by rw [hcard, hN])
  have hmem : v ∈ Finset.Ico 1 (2 ^ M) := Finset.mem_Ico.2 ⟨Nat.pos_of_ne_zero h0, hv⟩
  rw [← heq, Finset.mem_image] at hmem
  obtain ⟨i, hi, rfl⟩ := hmem
  exact ⟨i, Finset.mem_range.1 hi, rfl⟩

/-- The discrete logarithm of the walk: the step `i < N` at which the walk meets `v`, and the
sentinel `N` for the value 0. -/
def dlog (M POLY w v : Nat) : Nat :=
  if v = 0 then N M else Nat.findGreatest (fun i => alphaPow M POLY w i = v) (N M - 1)

theorem dlog_zero : dlog M POLY w 0 = N M := by simp [dlog]

theorem dlog_spec (hp : Params M POLY w) (hq : Primitive M POLY w) {v : Nat}
    (h0 : v ≠ 0) (hv : v < 2 ^ M) :
    dlog M POLY w v < N M ∧ alphaPow M POLY w (dlog M POLY w v) = v := by
  obtain ⟨i, hi, hiv⟩ := alphaPow_surj hp hq h0 hv
  have hN := N_pos hp
  unfold dlog
  rw [if_neg h0]
  constructor
  · have := Nat.findGreatest_le (P := fun i => alphaPow M POLY w i = v) (N M - 1)
    omega
  · exact Nat.findGreatest_spec (P := fun i => alphaPow M POLY w i = v) (by omega : i ≤ N M - 1) hiv

theorem dlog_alphaPow (hp : Params M POLY w) (hq : Primitive M POLY w) {i : Nat}
    (hi : i < N M) : dlog M POLY w (alphaPow M POLY w i) = i := by
  have h := dlog_spec hp hq (alphaPow_ne_zero hp hq i) (alphaPow_lt hp i)
  exact alphaPow_inj hq h.1 hi h.2

end TablesGenerator

/-! ### The tables -/

theorem set_map_range {α : Type} (n k : Nat) (f : Nat → α) (v : α) :
    ((List.range n).map f).set k v = (List.range n).map (fun j => if j = k then v else f j) := by
  apply List.ext_getElem
  · simp
  · intro j h1 h2
    simp only [List.length_set, List.length_map, List.length_range] at h1
    rw [List.getElem_set]
    simp only [List.getElem_map, List.getElem_range]
    by_cases h : k = j
    · simp [h]
    · have h' : ¬ j = k := fun e => h e.symm
      simp [h, h']

theorem map_range_congr {α : Type} (n : Nat) (f g : Nat → α) (h : ∀ j, j < n → f j = g j) :
    (List.range n).map f = (List.range n).map g := by
  apply List.map_congr_left
  intro j hj
  exact h j (List.mem_range.1 hj)

theorem replicate_eq_map_range {α : Type} (n : Nat) (v : α) :
    List.replicate n v = (List.range n).map (fun _ => v) := by
  apply List.ext_getElem
  · simp
  · intro j h1 h2
    simp

namespace TablesGenerator

open GF

variable {M POLY w : Nat}

/-- The contents of the `log` table for a primitive `POLY`. -/
def logTable (M POLY w : Nat) : List Nat := (List.range (Q M)).map (dlog M POLY w)

/-- The contents of the `exp` table for a primitive `POLY`. -/
def expTable (M POLY w : Nat) : List Nat :=
  (List.range (Q M)).map (fun j => if j < N M then alphaPow M POLY w j else 0)

/-- The `exp` array of `generate` after `i` iterations of its first loop. -/
def expCells (M POLY w i : Nat) : List (Option Nat) :=
  (List.range (Q M)).map
    (fun j => if j < i then some (alphaPow M POLY w j) else if j = N M then some 0 else none)

/-- The `log` array of `generate` after `i` iterations of its first loop. -/
def logCells (M POLY w i : Nat) : List (Option Nat) :=
  (List.range (Q M)).map
    (fun v => if v = 0 then some (N M) else
      if dlog M POLY w v < i then some (dlog M POLY w v) else none)

theorem pow_le_w (hp : Params M POLY w) : 2 ^ M ≤ 2 ^ w :=
  Nat.pow_le_pow_right (by decide) hp.le_w

theorem toTYPE_of_lt_Q (hp : Params M POLY w) {x : Nat} (h : x < 2 ^ M) : toTYPE w x = x :=
  toTYPE_of_lt (lt_of_lt_of_le h (pow_le_w hp))

theorem N_lt (M : Nat) : N M < 2 ^ M := by
  have := N_lt_Q M
  rwa [Q_eq] at this

theorem fillLogExp_eq (hp : Params M POLY w) (hq : Primitive M POLY w) :
    fillLogExp M POLY w = some (logCells M POLY w (N M), expCells M POLY w (N M), 1) := by
  have hN := N_pos hp
  have hNQ := N_lt_Q M
  have hQ := Q_eq M
  have h0 : toTYPE w 0 = 0 := by simp [toTYPE]
  have h1 : toTYPE w 1 = 1 := toTYPE_of_lt_Q hp (one_lt_Q hp)
  have hNN : toTYPE w (N M) = N M := toTYPE_of_lt_Q hp (N_lt M)
  unfold fillLogExp
  rw [h0, h1, hNN]
  have e1 : store (List.replicate (Q M) (none : Option Nat)) (N M) (some 0)
      = some (expCells M POLY w 0) := by
    rw [store_eq_some _ (by simpa using hNQ), replicate_eq_map_range, set_map_range]
    simp [expCells]
  have e2 : store (List.replicate (Q M) (none : Option Nat)) 0 (some (N M))
      = some (logCells M POLY w 0) := by
    rw [store_eq_some _ (by simpa using Q_pos M), replicate_eq_map_range, set_map_range]
    simp [logCells]
  simp only [e1, e2, Option.bind_eq_bind, Option.some_bind]
  obtain ⟨s', hs', hP⟩ := forUp_inv (Nat.zero_le (N M)) (logExpStep M POLY w)
    (fun i s => s = (logCells M POLY w i, expCells M POLY w i, alphaPow M POLY w i))
    (logCells M POLY w 0, expCells M POLY w 0, 1) rfl
    (by
      intro i s _ hi hs
      subst hs
      have ha : alphaPow M POLY w i < 2 ^ M := alphaPow_lt hp i
      have hi' : toTYPE w i = i := toTYPE_of_lt_Q hp (lt_trans hi (N_lt M))
      refine ⟨(logCells M POLY w (i + 1), expCells M POLY w (i + 1),
        alphaPow M POLY w (i + 1)), ?_, rfl⟩
      have s1 : store (expCells M POLY w i) i (some (alphaPow M POLY w i))
          = some (expCells M POLY w (i + 1)) := by
        rw [store_eq_some _ (by simp [expCells]; omega)]
        unfold expCells
        rw [set_map_range]
        congr 1
        apply map_range_congr
        intro j _
        by_cases hj : j = i
        · subst hj; simp
        · by_cases hj2 : j < i
          · have : j < i + 1 := by omega
            simp [hj, hj2, this]
          · have : ¬ j < i + 1 := by omega
            simp [hj, hj2, this]
      have s2 : store (logCells M POLY w i) (alphaPow M POLY w i) (some i)
          = some (logCells M POLY w (i + 1)) := by
        rw [store_eq_some _ (by simp [logCells]; rw [hQ]; exact ha)]
        unfold logCells
        rw [set_map_range]
        congr 1
        apply map_range_congr
        intro v hv
        rw [hQ] at hv
        by_cases hva : v = alphaPow M POLY w i
        · subst hva
          simp [alphaPow_ne_zero hp hq i, dlog_alphaPow hp hq hi]
        · by_cases hv0 : v = 0
          · simp [hv0, hva]
            intro h; exact absurd h.symm (alphaPow_ne_zero hp hq i)
          · have hd := dlog_spec hp hq hv0 hv
            have hne : dlog M POLY w v ≠ i := by
              intro e; rw [e] at hd; exact hva hd.2.symm
            by_cases hlt : dlog M POLY w v < i
            · have : dlog M POLY w v < i + 1 := by omega
              simp [hva, hv0, hlt, this]
            · have : ¬ dlog M POLY w v < i + 1 := by omega
              simp [hva, hv0, hlt, this]
      unfold logExpStep
      simp only [hi', s1, s2, Option.some_bind, Option.bind_eq_bind, alphaPow_succ]
      rfl)
  rw [hs', hP, hq.1]

theorem freeze_logCells (hp : Params M POLY w) (hq : Primitive M POLY w) :
    freeze (logCells M POLY w (N M)) = some (logTable M POLY w) := by
  have : logCells M POLY w (N M) = (logTable M POLY w).map some := by
    unfold logCells logTable
    rw [List.map_map]
    apply map_range_congr
    intro v hv
    rw [Q_eq] at hv
    by_cases hv0 : v = 0
    · simp [hv0, dlog_zero]
    · simp [hv0, (dlog_spec hp hq hv0 hv).1]
  rw [this, freeze_map_some]

theorem freeze_expCells (M POLY w : Nat) :
    freeze (expCells M POLY w (N M)) = some (expTable M POLY w) := by
  have : expCells M POLY w (N M) = (expTable M POLY w).map some := by
    unfold expCells expTable
    rw [List.map_map]
    apply map_range_congr
    intro j hj
    have := N_succ M
    by_cases h : j < N M
    · simp [h]
    · have : j = N M := by omega
      simp [h, this]
  rw [this, freeze_map_some]

/-- The `log` and `exp` tables that `generate` prints for a primitive `POLY`. -/
theorem generateLogExp_eq (hp : Params M POLY w) (hq : Primitive M POLY w) :
    generateLogExp M POLY w = some (logTable M POLY w, expTable M POLY w) := by
  have hs : staticAsserts M POLY w = true := by
    simp only [staticAsserts, Bool.and_eq_true, decide_eq_true_eq, beq_iff_eq]
    refine ⟨hp.le_w, ?_⟩
    rw [hp.poly, Q]
  unfold generateLogExp
  simp only [hs, fillLogExp_eq hp hq, freeze_logCells hp hq, freeze_expCells,
    Option.bind_eq_bind, Option.some_bind, Option.pure_def]
  simp

theorem staticAsserts_of_generateLogExp {r : List Nat × List Nat}
    (h : generateLogExp M POLY w = some r) : staticAsserts M POLY w = true := by
  unfold generateLogExp at h
  cases hs : staticAsserts M POLY w with
  | true => rfl
  | false => rw [hs] at h; simp at h

end TablesGenerator

namespace GF

open TablesGenerator

/-- The hypotheses under which the tables describe a field: the conditions on the template
parameters and a primitive `POLY`. -/
structure FieldOK (M POLY w : Nat) : Prop where
  params : Params M POLY w
  prim : Primitive M POLY w

/-- Multiplication of two field values, as the tables of a primitive `POLY` compute it. -/
def fmul (M POLY w a b : Nat) : Nat :=
  if a = 0 ∨ b = 0 then 0 else alphaPow M POLY w ((dlog M POLY w a + dlog M POLY w b) % N M)

/-- The reciprocal of a field value (0 for 0). -/
def finv (M POLY w a : Nat) : Nat :=
  if a = 0 then 0 else alphaPow M POLY w ((N M - dlog M POLY w a) % N M)

variable {M POLY w : Nat}

theorem fmul_lt (h : FieldOK M POLY w) (a b : Nat) : fmul M POLY w a b < 2 ^ M := by
  unfold fmul
  split
  · exact Nat.two_pow_pos M
  · exact alphaPow_lt h.params _

theorem finv_lt (h : FieldOK M POLY w) (a : Nat) : finv M POLY w a < 2 ^ M := by
  unfold finv
  split
  · exact Nat.two_pow_pos M
  · exact alphaPow_lt h.params _

theorem fmul_comm (a b : Nat) : fmul M POLY w a b = fmul M POLY w b a := by
  simp only [fmul, or_comm, Nat.add_comm]

theorem fmul_zero_left (b : Nat) : fmul M POLY w 0 b = 0 := by simp [fmul]

theorem fmul_zero_right (a : Nat) : fmul M POLY w a 0 = 0 := by simp [fmul]

theorem fmul_of_ne (h : FieldOK M POLY w) {a b : Nat} (ha : a ≠ 0) (hb : b ≠ 0) :
    fmul M POLY w a b = alphaPow M POLY w (dlog M POLY w a + dlog M POLY w b) := by
  unfold fmul
  rw [if_neg (by simp [ha, hb]), alphaPow_mod h.prim]

theorem fmul_ne_zero (h : FieldOK M POLY w) {a b : Nat} (ha : a ≠ 0) (hb : b ≠ 0) :
    fmul M POLY w a b ≠ 0 := by
  rw [fmul_of_ne h ha hb]
  exact alphaPow_ne_zero h.params h.prim _

theorem dlog_fmul (h : FieldOK M POLY w) {a b : Nat} (ha : a ≠ 0) (hb : b ≠ 0) :
    dlog M POLY w (fmul M POLY w a b) = (dlog M POLY w a + dlog M POLY w b) % N M := by
  unfold fmul
  rw [if_neg (by simp [ha, hb])]
  exact dlog_alphaPow h.params h.prim (Nat.mod_lt _ (N_pos h.params))

theorem fmul_alphaPow (h : FieldOK M POLY w) (i j : Nat) :
    fmul M POLY w (alphaPow M POLY w i) (alphaPow M POLY w j) = alphaPow M POLY w (i + j) := by
  have hi : alphaPow M POLY w i ≠ 0 := alphaPow_ne_zero h.params h.prim i
  have hj : alphaPow M POLY w j ≠ 0 := alphaPow_ne_zero h.params h.prim j
  have hN := N_pos h.params
  rw [fmul_of_ne h hi hj, ← alphaPow_mod h.prim i, ← alphaPow_mod h.prim j,
    dlog_alphaPow h.params h.prim (Nat.mod_lt _ hN),
    dlog_alphaPow h.params h.prim (Nat.mod_lt _ hN), ← alphaPow_mod h.prim (i + j),
    ← alphaPow_mod h.prim (i % N M + j % N M)]
  congr 1
  exact (Nat.add_mod _ _ _).symm

theorem alphaPow_dlog (h : FieldOK M POLY w) {a : Nat} (ha : a ≠ 0) (hl : a < 2 ^ M) :
    alphaPow M POLY w (dlog M POLY w a) = a :=
  (dlog_spec h.params h.prim ha hl).2

theorem fmul_assoc (h : FieldOK M POLY w) {a b c : Nat} (ha : a < 2 ^ M) (hb : b < 2 ^ M)
    (hc : c < 2 ^ M) :
    fmul M POLY w (fmul M POLY w a b) c = fmul M POLY w a (fmul M POLY w b c) := by
  by_cases ha0 : a = 0
  · simp [ha0, fmul_zero_left]
  by_cases hb0 : b = 0
  · simp [hb0, fmul_zero_left, fmul_zero_right]
  by_cases hc0 : c = 0
  · simp [hc0, fmul_zero_right]
  have ea := alphaPow_dlog h ha0 ha
  have eb := alphaPow_dlog h hb0 hb
  have ec := alphaPow_dlog h hc0 hc
  rw [← ea, ← eb, ← ec]
  simp only [fmul_alphaPow h, Nat.add_assoc]

theorem dlog_one (h : FieldOK M POLY w) : dlog M POLY w 1 = 0 := by
  have := dlog_alphaPow h.params h.prim (N_pos h.params)
  rwa [alphaPow_zero] at this

theorem fmul_one (h : FieldOK M POLY w) {a : Nat} (ha : a < 2 ^ M) : fmul M POLY w a 1 = a := by
  by_cases ha0 : a = 0
  · simp [ha0, fmul_zero_left]
  have ea := alphaPow_dlog h ha0 ha
  have e1 : (1 : Nat) = alphaPow M POLY w 0 := rfl
  conv_lhs => rw [← ea, e1, fmul_alphaPow h, Nat.add_zero, ea]

/-- Multiplication by a nonzero value is an iterate of the walk step. -/
theorem fmul_eq_iter (h : FieldOK M POLY w) {a b : Nat} (ha : a < 2 ^ M) (hb0 : b ≠ 0) : fmul M POLY w a b = (next M POLY w)^[dlog M POLY w b] a := by
  by_cases ha0 : a = 0
  · rw [ha0, fmul_zero_left, iter_zero h.params]
  · rw [fmul_of_ne h ha0 hb0, alphaPow_add, alphaPow_dlog h ha0 ha]

theorem fmul_xor_left (h : FieldOK M POLY w) {a a' b : Nat} (ha : a < 2 ^ M)
    (ha' : a' < 2 ^ M) :
    fmul M POLY w (a ^^^ a') b = fmul M POLY w a b ^^^ fmul M POLY w a' b := by
  by_cases hb0 : b = 0
  · simp [hb0, fmul_zero_right]
  · rw [fmul_eq_iter h (xor_lt ha ha') hb0, fmul_eq_iter h ha hb0,
      fmul_eq_iter h ha' hb0, iter_xor h.params _ ha ha']

theorem fmul_finv (h : FieldOK M POLY w) {a : Nat} (ha0 : a ≠ 0) (ha : a < 2 ^ M) :
    fmul M POLY w a (finv M POLY w a) = 1 := by
  have hd := dlog_spec h.params h.prim ha0 ha
  have e1 : finv M POLY w a = alphaPow M POLY w (N M - dlog M POLY w a) := by
    unfold finv
    rw [if_neg ha0, alphaPow_mod h.prim]
  calc fmul M POLY w a (finv M POLY w a)
      = fmul M POLY w (alphaPow M POLY w (dlog M POLY w a))
          (alphaPow M POLY w (N M - dlog M POLY w a)) := by rw [e1, hd.2]
    _ = alphaPow M POLY w (dlog M POLY w a + (N M - dlog M POLY w a)) := fmul_alphaPow h _ _
    _ = alphaPow M POLY w (N M) := by congr 1; omega
    _ = 1 := h.prim.1

/-! ### The field of values -/

/-- A field value: an integer in `[0, Q)`. -/
@[ext]
structure Elt (M POLY w : Nat) where
  val : Nat
  lt : val < 2 ^ M

namespace Elt

instance : Zero (Elt M POLY w) := ⟨⟨0, Nat.two_pow_pos M⟩⟩
instance : Add (Elt M POLY w) := ⟨fun a b => ⟨a.val ^^^ b.val, xor_lt a.lt b.lt⟩⟩
instance : Neg (Elt M POLY w) := ⟨fun a => a⟩

@[simp] theorem val_zero : (0 : Elt M POLY w).val = 0 := rfl
@[simp] theorem val_add (a b : Elt M POLY w) : (a + b).val = a.val ^^^ b.val := rfl
@[simp] theorem val_neg (a : Elt M POLY w) : (-a).val = a.val := rfl

/-- The field has characteristic two. -/
theorem add_self (a : Elt M POLY w) : a + a = 0 := by ext; simp

theorem neg_eq (a : Elt M POLY w) : -a = a := rfl

variable [hF : Fact (FieldOK M POLY w)]

instance : One (Elt M POLY w) := ⟨⟨1, one_lt_Q hF.out.params⟩⟩
instance : Mul (Elt M POLY w) := ⟨fun a b => ⟨fmul M POLY w a.val b.val, fmul_lt hF.out _ _⟩⟩
instance : Inv (Elt M POLY w) := ⟨fun a => ⟨finv M POLY w a.val, finv_lt hF.out _⟩⟩

@[simp] theorem val_one : (1 : Elt M POLY w).val = 1 := rfl
@[simp] theorem val_mul (a b : Elt M POLY w) : (a * b).val = fmul M POLY w a.val b.val := rfl
@[simp] theorem val_inv (a : Elt M POLY w) : (a⁻¹).val = finv M POLY w a.val := rfl

instance : CommRing (Elt M POLY w) where
  add_assoc a b c := by ext; simp [Nat.xor_assoc]
  zero_add a := by ext; simp
  add_zero a := by ext; simp
  nsmul := nsmulRec
  zsmul := zsmulRec
  neg_add_cancel a := by ext; simp
  add_comm a b := by ext; simp [Nat.xor_comm]
  left_distrib a b c := by
    ext
    simp only [val_mul, val_add]
    rw [fmul_comm, fmul_xor_left hF.out b.lt c.lt, fmul_comm b.val, fmul_comm c.val]
  right_distrib a b c := by
    ext
    simp only [val_mul, val_add]
    exact fmul_xor_left hF.out a.lt b.lt
  zero_mul a := by ext; simp [fmul_zero_left]
  mul_zero a := by ext; simp [fmul_zero_right]
  mul_assoc a b c := by ext; simp [fmul_assoc hF.out a.lt b.lt c.lt]
  one_mul a := by ext; simp only [val_mul, val_one]; rw [fmul_comm]; exact fmul_one hF.out a.lt
  mul_one a := by ext; simp only [val_mul, val_one]; exact fmul_one hF.out a.lt
  mul_comm a b := by ext; simp [fmul_comm]

instance : Field (Elt M POLY w) where
  exists_pair_ne := ⟨0, 1, fun h => by simpa using congrArg Elt.val h⟩
  mul_inv_cancel a ha := by
    ext
    simp only [val_mul, val_inv, val_one]
    exact fmul_finv hF.out (fun h0 => ha (by ext; simpa using h0)) a.lt
  inv_zero := by ext; simp [finv]
  nnqsmul := _
  nnqsmul_def := fun _ _ => rfl
  qsmul := _
  qsmul_def := fun _ _ => rfl

theorem sub_eq (a b : Elt M POLY w) : a - b = a + b := by
  rw [sub_eq_add_neg, neg_eq]

end Elt

/-! ### The operations of `galoisfield.hh` on the tables of a primitive `POLY` -/

/-- The tables `T` are the `log` and `exp` tables of the field of a primitive `POLY`. -/
structure TablesOK (M POLY w : Nat) (T : Tables) : Prop where
  field : FieldOK M POLY w
  log : T.log = logTable M POLY w
  exp : T.exp = expTable M POLY w

theorem tablesOK_of_generateLogExp {T : Tables} (hM : 1 ≤ M) (hq : Primitive M POLY w)
    (h : generateLogExp M POLY w = some (T.log, T.exp)) : TablesOK M POLY w T := by
  have hp := params_of_staticAsserts hM (staticAsserts_of_generateLogExp h)
  rw [generateLogExp_eq hp hq] at h
  have := Option.some.inj h
  simp only [Prod.mk.injEq] at this
  exact ⟨⟨hp, hq⟩, this.1.symm, this.2.symm⟩

variable {T : Tables}

theorem modulus_eq (h : TablesOK M POLY w T) : modulus M w = N M :=
  toTYPE_of_lt_Q h.field.params (N_lt M)

theorem index_eq (h : TablesOK M POLY w T) {a : Nat} (ha : a < 2 ^ M) :
    index T a = some (dlog M POLY w a) := by
  unfold index rd
  rw [h.log, logTable]
  rw [← Q_eq] at ha
  simp [ha]

theorem value_eq (h : TablesOK M POLY w T) {i : Nat} (hi : i < N M) :
    value M w T i = some (alphaPow M POLY w i) := by
  unfold value rd
  rw [modulus_eq h, if_neg (by omega), h.exp, expTable]
  have : i < Q M := lt_trans hi (N_lt_Q M)
  simp [this, hi]

theorem value_modulus (h : TablesOK M POLY w T) : value M w T (N M) = none := by
  unfold value
  rw [modulus_eq h, if_pos rfl]

theorem mulII_eq (h : TablesOK M POLY w T) {a b : Nat} (ha : a < N M) (hb : b < N M) :
    mulII M w a b = some ((a + b) % N M) := by
  have hw := pow_le_w h.field.params
  have hN := N_lt M
  unfold mulII
  rw [modulus_eq h, if_neg (by omega), if_neg (by omega)]
  simp only [Option.some.injEq]
  by_cases hc : N M - a ≤ b
  · rw [if_pos hc]
    unfold toTYPE
    have e1 : (a + b) % 2 ^ w + 2 ^ w - N M = (a + b) % 2 ^ w + (2 ^ w - N M) := by omega
    have e2 : a + b + (2 ^ w - N M) = (a + b - N M) + 2 ^ w := by omega
    rw [e1, Nat.mod_add_mod, e2, Nat.add_mod_right, Nat.mod_eq_of_lt (by omega)]
    have e3 : a + b = (a + b - N M) + N M := by omega
    conv_rhs => rw [e3, Nat.add_mod_right, Nat.mod_eq_of_lt (by omega)]
  · rw [if_neg hc]
    rw [toTYPE_of_lt (by omega), Nat.mod_eq_of_lt (by omega)]

theorem divII_eq (h : TablesOK M POLY w T) {a b : Nat} (ha : a < N M) (hb : b < N M) :
    divII M w a b = some ((a + N M - b) % N M) := by
  have hw := pow_le_w h.field.params
  have hN := N_lt M
  unfold divII
  rw [modulus_eq h, if_neg (by omega), if_neg (by omega)]
  simp only [Option.some.injEq]
  by_cases hc : a < b
  · rw [if_pos hc]
    unfold toTYPE
    have e1 : a + 2 ^ w - b = (a + N M - b) + (2 ^ w - N M) := by omega
    rw [Nat.mod_add_mod]
    have e2 : a + 2 ^ w - b + N M = (a + N M - b) + 2 ^ w := by omega
    rw [e2, Nat.add_mod_right, Nat.mod_eq_of_lt (by omega), Nat.mod_eq_of_lt (by omega)]
  · rw [if_neg hc]
    unfold toTYPE
    have e1 : a + 2 ^ w - b = (a - b) + 2 ^ w := by omega
    rw [e1, Nat.add_mod_right, Nat.mod_eq_of_lt (by omega)]
    have e3 : a + N M - b = (a - b) + N M := by omega
    rw [e3, Nat.add_mod_right, Nat.mod_eq_of_lt (by omega)]

theorem value_mulII (h : TablesOK M POLY w T) {a b : Nat} (ha : a < N M) (hb : b < N M) :
    (mulII M w a b).bind (value M w T)
      = some (fmul M POLY w (alphaPow M POLY w a) (alphaPow M POLY w b)) := by
  rw [mulII_eq h ha hb, Option.some_bind,
    value_eq h (Nat.mod_lt _ (N_pos h.field.params)), alphaPow_mod h.field.prim,
    fmul_alphaPow h.field]

theorem mulVV_eq (h : TablesOK M POLY w T) {a b : Nat} (ha : a < 2 ^ M) (hb : b < 2 ^ M) :
    mulVV M w T a b = some (fmul M POLY w a b) := by
  unfold mulVV
  by_cases h0 : a = 0 ∨ b = 0
  · rw [if_pos h0]
    unfold fmul
    rw [if_pos h0]
  · rw [if_neg h0]
    push_neg at h0
    have da := dlog_spec h.field.params h.field.prim h0.1 ha
    have db := dlog_spec h.field.params h.field.prim h0.2 hb
    simp only [index_eq h ha, index_eq h hb, Option.bind_eq_bind, Option.some_bind]
    rw [value_mulII h da.1 db.1, da.2, db.2]

theorem fmaIVV_eq (h : TablesOK M POLY w T) {r b : Nat} (c : Nat) (hr : r < N M)
    (hb : b < 2 ^ M) :
    fmaIVV M w T r b c = some (fmul M POLY w (alphaPow M POLY w r) b ^^^ c) := by
  unfold fmaIVV
  rw [modulus_eq h, if_neg (by omega)]
  by_cases h0 : b = 0
  · rw [if_pos h0, h0, fmul_zero_right]
    simp
  · rw [if_neg h0]
    have db := dlog_spec h.field.params h.field.prim h0 hb
    simp only [index_eq h hb, Option.bind_eq_bind, Option.some_bind]
    have := value_mulII h hr db.1
    rw [db.2] at this
    cases hm : mulII M w r (dlog M POLY w b) with
    | none => rw [hm] at this; simp at this
    | some i =>
      rw [hm] at this
      simp only [Option.some_bind] at this ⊢
      rw [this]
      rfl

theorem fmaIIV_eq (h : TablesOK M POLY w T) {a b : Nat} (c : Nat) (ha : a < N M)
    (hb : b < N M) :
    fmaIIV M w T a b c
      = some (fmul M POLY w (alphaPow M POLY w a) (alphaPow M POLY w b) ^^^ c) := by
  unfold fmaIIV
  rw [modulus_eq h, if_neg (by omega), if_neg (by omega)]
  have := value_mulII h ha hb
  cases hm : mulII M w a b with
  | none => rw [hm] at this; simp at this
  | some i =>
    rw [hm] at this
    simp only [Option.some_bind, Option.bind_eq_bind] at this ⊢
    rw [this]
    rfl

theorem mulAssignVI_eq (h : TablesOK M POLY w T) {v r : Nat} (hv : v < 2 ^ M)
    (hr : r < N M) :
    mulAssignVI M w T v r = some (fmul M POLY w v (alphaPow M POLY w r)) := by
  unfold mulAssignVI mulVI
  rw [modulus_eq h, if_neg (by omega), if_neg (by omega)]
  by_cases h0 : v = 0
  · rw [if_pos h0, h0, fmul_zero_left]
  · rw [if_neg h0]
    have dv := dlog_spec h.field.params h.field.prim h0 hv
    simp only [index_eq h hv, Option.bind_eq_bind, Option.some_bind]
    have := value_mulII h dv.1 hr
    rw [dv.2] at this
    exact this

theorem mulAssignII_eq (h : TablesOK M POLY w T) {i a : Nat} (hi : i < N M) (ha : a < N M) :
    mulAssignII M w i a = some ((i + a) % N M) := by
  unfold mulAssignII
  rw [modulus_eq h, if_neg (by omega)]
  exact mulII_eq h hi ha

end GF

open Polynomial

namespace GF

open TablesGenerator

variable {M POLY w : Nat}

/-- A machine value read as a field value. -/
def toElt (v : Nat) : Elt M POLY w := ⟨v % 2 ^ M, Nat.mod_lt _ (Nat.two_pow_pos M)⟩

@[simp] theorem toElt_val (e : Elt M POLY w) : toElt e.val = e := by
  ext; simp [toElt, Nat.mod_eq_of_lt e.lt]

theorem val_toElt {v : Nat} (hv : v < 2 ^ M) : (toElt v : Elt M POLY w).val = v := by
  simp [toElt, Nat.mod_eq_of_lt hv]

theorem toElt_xor {a b : Nat} (ha : a < 2 ^ M) (hb : b < 2 ^ M) :
    (toElt (a ^^^ b) : Elt M POLY w) = toElt a + toElt b := by
  ext
  simp [toElt, Nat.mod_eq_of_lt ha, Nat.mod_eq_of_lt hb, Nat.mod_eq_of_lt (xor_lt ha hb)]

theorem toElt_zero : (toElt 0 : Elt M POLY w) = 0 := by
  ext; simp [toElt]

theorem val_eq_zero_iff (e : Elt M POLY w) : e.val = 0 ↔ e = 0 :=
  ⟨fun h => by ext; simpa using h, fun h => by rw [h]; rfl⟩

variable [hF : Fact (FieldOK M POLY w)]

theorem toElt_fmul {a b : Nat} (ha : a < 2 ^ M) (hb : b < 2 ^ M) :
    (toElt (fmul M POLY w a b) : Elt M POLY w) = toElt a * toElt b := by
  ext
  simp [toElt, Nat.mod_eq_of_lt ha, Nat.mod_eq_of_lt hb, Nat.mod_eq_of_lt (fmul_lt hF.out a b)]

theorem toElt_one : (toElt 1 : Elt M POLY w) = 1 := by
  ext; simp [toElt, Nat.mod_eq_of_lt (one_lt_Q hF.out.params)]

/-- The primitive element `α`: the class of `x`, first step of the walk. -/
def alpha (M POLY w : Nat) : Elt M POLY w := toElt (alphaPow M POLY w 1)

theorem alpha_pow (i : Nat) : (alpha M POLY w) ^ i = toElt (alphaPow M POLY w i) := by
  induction i with
  | zero => rw [pow_zero, alphaPow_zero, toElt_one]
  | succ i ih =>
    rw [pow_succ, ih, alpha, ← toElt_fmul (alphaPow_lt hF.out.params _)
      (alphaPow_lt hF.out.params _), fmul_alphaPow hF.out]

theorem val_alpha_pow (i : Nat) : ((alpha M POLY w) ^ i).val = alphaPow M POLY w i := by
  rw [alpha_pow, val_toElt (alphaPow_lt hF.out.params _)]

theorem alpha_pow_mod (i : Nat) : (alpha M POLY w) ^ (i % N M) = (alpha M POLY w) ^ i := by
  rw [alpha_pow, alpha_pow, alphaPow_mod hF.out.prim]

theorem alpha_pow_ne_zero (i : Nat) : (alpha M POLY w) ^ i ≠ 0 := by
  intro h
  have := congrArg Elt.val h
  rw [val_alpha_pow] at this
  exact alphaPow_ne_zero hF.out.params hF.out.prim i this

theorem alpha_pow_inj {i j : Nat} (hi : i < N M) (hj : j < N M)
    (h : (alpha M POLY w) ^ i = (alpha M POLY w) ^ j) : i = j := by
  have := congrArg Elt.val h
  rw [val_alpha_pow, val_alpha_pow] at this
  exact alphaPow_inj hF.out.prim hi hj this

theorem val_mul_alpha_pow (e : Elt M POLY w) (i : Nat) :
    fmul M POLY w (alphaPow M POLY w i) e.val = ((alpha M POLY w) ^ i * e).val := by
  rw [Elt.val_mul, val_alpha_pow]

theorem dlog_val_lt {e : Elt M POLY w} (he : e ≠ 0) : dlog M POLY w e.val < N M :=
  (dlog_spec hF.out.params hF.out.prim (fun h => he ((val_eq_zero_iff e).1 h)) e.lt).1

theorem alphaPow_dlog_val {e : Elt M POLY w} (he : e ≠ 0) :
    alphaPow M POLY w (dlog M POLY w e.val) = e.val :=
  (dlog_spec hF.out.params hF.out.prim (fun h => he ((val_eq_zero_iff e).1 h)) e.lt).2

end GF

namespace ReedSolomon

open GF TablesGenerator

variable {M POLY w : Nat} [hF : Fact (FieldOK M POLY w)]

/-- The product `∏_{i < n} (X - α^(FCR + i))`. -/
noncomputable def rootsProd (M POLY w : Nat) [Fact (FieldOK M POLY w)] (FCR n : Nat) : (Elt M POLY w)[X] :=
  ∏ i in Finset.range n, (X - C ((alpha M POLY w) ^ (FCR + i)))

/-- The generator polynomial `g(x) = ∏_{i < NR} (x - α^(FCR + i))`. -/
noncomputable def genPoly (M POLY w : Nat) [Fact (FieldOK M POLY w)] (NR FCR : Nat) : (Elt M POLY w)[X] :=
  rootsProd M POLY w FCR NR

theorem rootsProd_zero (FCR : Nat) : rootsProd M POLY w FCR 0 = 1 := by
  simp [rootsProd]

theorem rootsProd_succ (FCR n : Nat) :
    rootsProd M POLY w FCR (n + 1)
      = rootsProd M POLY w FCR n * (X - C ((alpha M POLY w) ^ (FCR + n))) := by
  simp [rootsProd, Finset.prod_range_succ]

theorem rootsProd_monic (FCR n : Nat) : (rootsProd M POLY w FCR n).Monic := by
  unfold rootsProd
  exact monic_prod_of_monic _ _ (fun i _ => monic_X_sub_C _)

theorem rootsProd_natDegree (FCR n : Nat) : (rootsProd M POLY w FCR n).natDegree = n := by
  unfold rootsProd
  rw [natDegree_prod_of_monic _ _ (fun i _ => monic_X_sub_C _)]
  simp only [natDegree_X_sub_C, Finset.sum_const, Finset.card_range, smul_eq_mul, mul_one]

theorem rootsProd_coeff_self (FCR n : Nat) : (rootsProd M POLY w FCR n).coeff n = 1 := by
  have h : (rootsProd M POLY w FCR n).Monic := rootsProd_monic FCR n
  unfold Monic leadingCoeff at h
  rwa [rootsProd_natDegree] at h

theorem rootsProd_coeff_succ (FCR n k : Nat) :
    (rootsProd M POLY w FCR (n + 1)).coeff (k + 1)
      = (alpha M POLY w) ^ (FCR + n) * (rootsProd M POLY w FCR n).coeff (k + 1)
        + (rootsProd M POLY w FCR n).coeff k := by
  rw [rootsProd_succ, coeff_mul_X_sub_C, Elt.sub_eq, add_comm, mul_comm]

theorem rootsProd_coeff_zero (FCR n : Nat) :
    (rootsProd M POLY w FCR (n + 1)).coeff 0
      = (rootsProd M POLY w FCR n).coeff 0 * (alpha M POLY w) ^ (FCR + n) := by
  rw [rootsProd_succ, mul_coeff_zero, coeff_sub, coeff_X_zero, coeff_C_zero, zero_sub,
    Elt.neg_eq]

end ReedSolomon

open Polynomial

/-! ### Arrays of cells -/

theorem load_map_range {n k : Nat} (f : Nat → Option Nat) (hk : k < n) :
    load ((List.range n).map f) k = f k := by
  simp [load, hk]

theorem store_map_range {α : Type} {n k : Nat} (f : Nat → α) (v : α) (hk : k < n) :
    store ((List.range n).map f) k v
      = some ((List.range n).map (fun j => if j = k then v else f j)) := by
  rw [store_eq_some _ (by simpa using hk), set_map_range]

theorem rd_map_range {n k : Nat} (f : Nat → Nat) (hk : k < n) :
    rd ((List.range n).map f) k = some (f k) := by
  simp [rd, hk]

namespace ReedSolomon

open GF TablesGenerator

variable {M POLY w : Nat} [hF : Fact (FieldOK M POLY w)] {T : Tables}

/-- The array `tmp` of the constructor when its cells `k < i` hold the coefficients of
`∏_{t < n} (X - α^(FCR + t))`, and the others were not written. -/
noncomputable def tmpCells (M POLY w : Nat) [Fact (FieldOK M POLY w)] (NR FCR n i : Nat) :
    List (Option Nat) :=
  (List.range (NR + 1)).map
    (fun k => if k < i then some ((rootsProd M POLY w FCR n).coeff k).val else none)

/-- The array `tmp` in the inner loop of iteration `i` of the constructor, before the step with
loop variable `j`: the cells above `j` are updated. -/
noncomputable def tmpInner (M POLY w : Nat) [Fact (FieldOK M POLY w)] (NR FCR i j : Nat) :
    List (Option Nat) :=
  (List.range (NR + 1)).map
    (fun k => if k ≤ i then
        (if j < k then some ((rootsProd M POLY w FCR (i + 1)).coeff k).val
         else some ((rootsProd M POLY w FCR i).coeff k).val)
      else none)

theorem generatorInner_eq (h : TablesOK M POLY w T) {NR FCR i j : Nat} (hi : i < NR)
    (hj0 : 0 < j) (hj : j ≤ i) :
    generatorInner M w T ((FCR + i) % N M) j (tmpInner M POLY w NR FCR i j)
      = some (tmpInner M POLY w NR FCR i (j - 1)) := by
  obtain ⟨k, rfl⟩ : ∃ k, j = k + 1 := ⟨j - 1, by omega⟩
  have hN := N_pos h.field.params
  unfold generatorInner tmpInner
  rw [load_map_range _ (by omega), load_map_range _ (by omega)]
  have e1 : k + 1 ≤ i := hj
  have e2 : k + 1 - 1 = k := by omega
  have e3 : k ≤ i := by omega
  simp only [e1, e2, e3, if_true, lt_irrefl, if_false, Nat.lt_irrefl, Option.bind_eq_bind,
    Option.some_bind, Nat.not_lt.2 (Nat.le_succ k)]
  rw [fmaIVV_eq h _ (Nat.mod_lt _ hN) (Elt.lt _), Option.some_bind,
    store_map_range _ _ (by omega)]
  congr 1
  apply map_range_congr
  intro m _
  by_cases hm : m = k + 1
  · subst hm
    simp only [if_true, e1, Nat.lt_succ_self]
    rw [alphaPow_mod h.field.prim, val_mul_alpha_pow, ← Elt.val_add, rootsProd_coeff_succ]
  · simp only [hm, if_false]
    by_cases hmi : m ≤ i
    · simp only [hmi, if_true]
      by_cases hk : k + 1 < m
      · have : k < m := by omega
        simp [hk, this]
      · have : ¬ k < m := by omega
        simp [hk, this]
    · simp [hmi]

theorem generatorOuter_eq (h : TablesOK M POLY w T) {NR FCR i : Nat} (hNR : NR < N M)
    (hi : i < NR) :
    generatorOuter M w T i (tmpCells M POLY w NR FCR i i, (FCR + i) % N M)
      = some (tmpCells M POLY w NR FCR (i + 1) (i + 1), (FCR + (i + 1)) % N M) := by
  have hN := N_pos h.field.params
  have h1 : toTYPE w 1 = 1 := toTYPE_of_lt_Q h.field.params (one_lt_Q h.field.params)
  unfold generatorOuter
  simp only [h1, Option.bind_eq_bind]
  have s0 : store (tmpCells M POLY w NR FCR i i) i (some 1)
      = some (tmpInner M POLY w NR FCR i i) := by
    unfold tmpCells tmpInner
    rw [store_map_range _ _ (by omega)]
    congr 1
    apply map_range_congr
    intro m _
    by_cases hm : m = i
    · subst hm
      simp [rootsProd_coeff_self]
    · by_cases hmi : m < i
      · have h1 : m ≤ i := by omega
        have h2 : ¬ i < m := by omega
        simp [hm, hmi, h1, h2]
      · have h1 : ¬ m ≤ i := by omega
        simp [hm, hmi, h1]
  rw [s0, Option.some_bind]
  obtain ⟨t1, ht1, hP⟩ := forDown_inv (Nat.zero_le i)
    (generatorInner M w T ((FCR + i) % N M))
    (fun j t => t = tmpInner M POLY w NR FCR i j) (tmpInner M POLY w NR FCR i i) rfl
    (by
      intro j t hj0 hj ht
      subst ht
      exact ⟨_, generatorInner_eq h hi hj0 hj, rfl⟩)
  subst hP
  rw [ht1, Option.some_bind]
  have l0 : load (tmpInner M POLY w NR FCR i 0) 0
      = some ((rootsProd M POLY w FCR i).coeff 0).val := by
    unfold tmpInner
    rw [load_map_range _ (by omega)]
    simp
  rw [l0, Option.some_bind, mulAssignVI_eq h (Elt.lt _) (Nat.mod_lt _ hN), Option.some_bind,
    mulAssignII_eq h (Nat.mod_lt _ hN) (by omega : 1 < N M)]
  have s1 : store (tmpInner M POLY w NR FCR i 0) 0
      (some (fmul M POLY w ((rootsProd M POLY w FCR i).coeff 0).val
        (alphaPow M POLY w ((FCR + i) % N M))))
      = some (tmpCells M POLY w NR FCR (i + 1) (i + 1)) := by
    unfold tmpInner tmpCells
    rw [store_map_range _ _ (by omega)]
    congr 1
    apply map_range_congr
    intro m _
    by_cases hm : m = 0
    · subst hm
      simp only [if_true, Nat.zero_lt_succ]
      rw [alphaPow_mod h.field.prim, ← val_alpha_pow, ← Elt.val_mul, rootsProd_coeff_zero]
    · have : 0 < m := Nat.pos_of_ne_zero hm
      by_cases hmi : m ≤ i
      · have : m < i + 1 := by omega
        simp [hm, hmi, this, Nat.pos_of_ne_zero hm]
      · have : ¬ m < i + 1 := by omega
        simp [hm, hmi, this]
  rw [s1]
  simp only [Option.some_bind, Option.pure_def, Option.some.injEq, Prod.mk.injEq, true_and]
  rw [Nat.mod_add_mod, Nat.add_assoc]

/-- The array `generator` of the constructor: the logarithms of the coefficients of `g`, low
degree first. -/
noncomputable def genTable (M POLY w : Nat) [Fact (FieldOK M POLY w)] (NR FCR : Nat) : List Nat :=
  (List.range (NR + 1)).map (fun k => dlog M POLY w ((genPoly M POLY w NR FCR).coeff k).val)

/-- The constructor returns, and `generator[k]` is the table logarithm of the coefficient of
`x^k` in `g`. -/
theorem generator_eq (h : TablesOK M POLY w T) {NR FCR : Nat} (hNR : NR < N M)
    (hFCR : FCR < N M) :
    generator M w T NR FCR = some (genTable M POLY w NR FCR) := by
  have h1 : toTYPE w 1 = 1 := toTYPE_of_lt_Q h.field.params (one_lt_Q h.field.params)
  have hf : toTYPE w FCR = FCR := toTYPE_of_lt_Q h.field.params (lt_trans hFCR (N_lt M))
  unfold generator
  obtain ⟨s1, hs1, hP⟩ := forUp_inv (Nat.zero_le NR) (generatorOuter M w T)
    (fun i s => s = (tmpCells M POLY w NR FCR i i, (FCR + i) % N M))
    (List.replicate (NR + 1) none, FCR)
    (by
      simp only [Nat.add_zero, Nat.mod_eq_of_lt hFCR, Prod.mk.injEq, and_true]
      rw [replicate_eq_map_range]
      unfold tmpCells
      apply map_range_congr
      intro m _
      simp)
    (by
      intro i s _ hi hs
      subst hs
      exact ⟨_, generatorOuter_eq h hNR hi, rfl⟩)
  subst hP
  simp only [hf, h1, hs1, Option.bind_eq_bind, Option.some_bind]
  have s2 : store (tmpCells M POLY w NR FCR NR NR) NR (some 1)
      = some ((List.range (NR + 1)).map
          (fun k => some ((genPoly M POLY w NR FCR).coeff k).val)) := by
    unfold tmpCells genPoly
    rw [store_map_range _ _ (by omega)]
    congr 1
    apply map_range_congr
    intro m hm
    by_cases hmn : m = NR
    · subst hmn
      simp [rootsProd_coeff_self]
    · have : m < NR := by omega
      simp [hmn, this]
  rw [s2, Option.some_bind]
  obtain ⟨g, hg, hQ⟩ := forUp_inv (Nat.zero_le (NR + 1))
    (generatorIndex T ((List.range (NR + 1)).map
          (fun k => some ((genPoly M POLY w NR FCR).coeff k).val)))
    (fun i gen => gen = (List.range (NR + 1)).map
      (fun k => if k < i then dlog M POLY w ((genPoly M POLY w NR FCR).coeff k).val else 0))
    (List.replicate (NR + 1) 0)
    (by
      rw [replicate_eq_map_range]
      apply map_range_congr
      intro m _
      simp)
    (by
      intro i gen _ hi hgen
      subst hgen
      refine ⟨_, ?_, rfl⟩
      unfold generatorIndex
      rw [load_map_range _ hi]
      simp only [Option.bind_eq_bind, Option.some_bind]
      rw [index_eq h (Elt.lt _), Option.some_bind, store_map_range _ _ hi]
      congr 1
      apply map_range_congr
      intro m _
      by_cases hm : m = i
      · subst hm; simp
      · by_cases hmi : m < i
        · have : m < i + 1 := by omega
          simp [hm, hmi, this]
        · have : ¬ m < i + 1 := by omega
          simp [hm, hmi, this])
  rw [hg, hQ]
  congr 1
  unfold genTable
  apply map_range_congr
  intro m hm
  simp [hm]

end ReedSolomon

open Polynomial

/-- A combination of `n` powers sequences `i ↦ y k ^ i` with distinct bases that vanishes for
the exponents `i < n` has all its coefficients zero (the Vandermonde matrix is invertible). -/
theorem vandermonde_combination_zero {F : Type} [Field F] {n : Nat} (y : Fin n → F)
    (hy : Function.Injective y) (d : Fin n → F)
    (h : ∀ i : Fin n, ∑ k, d k * y k ^ (i : Nat) = 0) : d = 0 := by
  have hdet : (Matrix.vandermonde y).det ≠ 0 := Matrix.det_vandermonde_ne_zero_iff.2 hy
  apply Matrix.eq_zero_of_vecMul_eq_zero hdet
  funext i
  simp only [Matrix.vecMul, Matrix.dotProduct, Matrix.vandermonde_apply, Pi.zero_apply]
  exact h i

namespace ReedSolomon

open GF TablesGenerator

variable {M POLY w : Nat} [hF : Fact (FieldOK M POLY w)]

theorem rootsProd_eval_root (FCR n i : Nat) (hi : i < n) :
    (rootsProd M POLY w FCR n).eval ((alpha M POLY w) ^ (FCR + i)) = 0 := by
  unfold rootsProd
  rw [eval_prod]
  apply Finset.prod_eq_zero (Finset.mem_range.2 hi)
  simp

/-- Every coefficient of the generator polynomial is nonzero when `NR < N`. -/
theorem genPoly_coeff_ne_zero {NR FCR : Nat} (hNR : NR < N M) {k : Nat} (hk : k ≤ NR) :
    (genPoly M POLY w NR FCR).coeff k ≠ 0 := by
  intro h0
  set g := genPoly M POLY w NR FCR with hg
  have hdeg : g.natDegree = NR := rootsProd_natDegree FCR NR
  have hlead : g.coeff NR = 1 := rootsProd_coeff_self FCR NR
  let k0 : Fin (NR + 1) := ⟨k, by omega⟩
  let a := alpha M POLY w
  let y : Fin NR → Elt M POLY w := fun t => a ^ ((k0.succAbove t : Fin (NR + 1)) : Nat)
  have hy : Function.Injective y := by
    intro s t hst
    have h1 : ((k0.succAbove s : Fin (NR + 1)) : Nat) = ((k0.succAbove t : Fin (NR + 1)) : Nat) :=
      alpha_pow_inj (by have := (k0.succAbove s).isLt; omega)
        (by have := (k0.succAbove t).isLt; omega) hst
    exact Fin.succAbove_right_injective (Fin.ext h1)
  let d : Fin NR → Elt M POLY w :=
    fun t => g.coeff ((k0.succAbove t : Fin (NR + 1)) : Nat) * y t ^ FCR
  have hd : d = 0 := by
    apply vandermonde_combination_zero y hy d
    intro i
    have hev : (rootsProd M POLY w FCR NR).eval ((alpha M POLY w) ^ (FCR + (i : Nat))) = 0 :=
      rootsProd_eval_root FCR NR i i.isLt
    change g.eval (a ^ (FCR + i)) = 0 at hev
    rw [eval_eq_sum_range, hdeg, Finset.sum_range, Fin.sum_univ_succAbove _ k0] at hev
    have hk0 : g.coeff ((k0 : Fin (NR + 1)) : Nat) = 0 := h0
    rw [hk0, zero_mul, zero_add] at hev
    rw [← hev]
    apply Finset.sum_congr rfl
    intro t _
    simp only [d, y]
    rw [mul_assoc, ← pow_mul, ← pow_mul, ← pow_add, ← pow_mul]
    congr 2
    ring
  have hall : ∀ t : Fin NR, g.coeff ((k0.succAbove t : Fin (NR + 1)) : Nat) = 0 := by
    intro t
    have := congrFun hd t
    simp only [d, y, Pi.zero_apply] at this
    rcases mul_eq_zero.1 this with h1 | h1
    · exact h1
    · exact absurd h1 (pow_ne_zero _ (alpha_pow_ne_zero _))
  by_cases hkn : k = NR
  · rw [hkn, hlead] at h0
    exact one_ne_zero h0
  · have hne : (Fin.last NR) ≠ k0 := by
      intro e
      have := congrArg Fin.val e
      simp [k0] at this
      omega
    obtain ⟨t, ht⟩ := Fin.exists_succAbove_eq hne
    have := hall t
    rw [ht] at this
    simp only [Fin.val_last] at this
    rw [hlead] at this
    exact one_ne_zero this

theorem genTable_lt {NR FCR : Nat} (hNR : NR < N M) {k : Nat} (hk : k ≤ NR) :
    dlog M POLY w ((genPoly M POLY w NR FCR).coeff k).val < N M :=
  dlog_val_lt (genPoly_coeff_ne_zero hNR hk)

end ReedSolomon

open Polynomial

namespace ReedSolomon

open GF TablesGenerator

variable {M POLY w : Nat} [hF : Fact (FieldOK M POLY w)] {T : Tables}

/-- The polynomial of a list of coefficients, highest degree first (`l[0]` is the leading
coefficient): Horner's rule. -/
noncomputable def polyHi {F : Type} [Semiring F] (l : List F) : F[X] :=
  l.foldl (fun p a => p * X + C a) 0

theorem polyHi_nil {F : Type} [Semiring F] : polyHi ([] : List F) = 0 := rfl

theorem polyHi_concat {F : Type} [Semiring F] (l : List F) (a : F) :
    polyHi (l ++ [a]) = polyHi l * X + C a := by
  simp [polyHi, List.foldl_append]

theorem polyHi_take_succ {F : Type} [Semiring F] (l : List F) {i : Nat} (hi : i < l.length) :
    polyHi (l.take (i + 1)) = polyHi (l.take i) * X + C l[i] := by
  rw [List.take_succ, List.getElem?_eq_getElem hi]
  exact polyHi_concat _ _

/-- The register update of the encoder, as a polynomial: multiply by `x`, add the message
symbol `m` at `x^NR` and cancel the coefficient of `x^NR` with a multiple of `g`. -/
noncomputable def lfsrStep (M POLY w : Nat) [Fact (FieldOK M POLY w)] (NR FCR : Nat)
    (p : (Elt M POLY w)[X]) (m : Elt M POLY w) : (Elt M POLY w)[X] :=
  X * p + C m * X ^ NR + C (m + p.coeff (NR - 1)) * genPoly M POLY w NR FCR

theorem lfsrStep_coeff {NR FCR : Nat} (p : (Elt M POLY w)[X]) (m : Elt M POLY w) {k : Nat}
    (hk : k < NR) :
    (lfsrStep M POLY w NR FCR p m).coeff k
      = (m + p.coeff (NR - 1)) * (genPoly M POLY w NR FCR).coeff k
        + (if k = 0 then 0 else p.coeff (k - 1)) := by
  unfold lfsrStep
  rw [coeff_add, coeff_add, coeff_C_mul, coeff_C_mul, coeff_X_pow, if_neg (by omega), mul_zero,
    add_zero, add_comm]
  congr 1
  cases k with
  | zero => simp
  | succ k => simp

theorem lfsrStep_degree {NR FCR : Nat} (hNR : 0 < NR) (p : (Elt M POLY w)[X])
    (hp : p.degree < NR) (m : Elt M POLY w) :
    (lfsrStep M POLY w NR FCR p m).degree < NR := by
  rw [degree_lt_iff_coeff_zero]
  intro k hk
  have hpz : ∀ j, NR ≤ j → p.coeff j = 0 := (degree_lt_iff_coeff_zero _ _).1 hp
  unfold lfsrStep
  rw [coeff_add, coeff_add, coeff_C_mul, coeff_C_mul, coeff_X_pow]
  obtain ⟨j, rfl⟩ : ∃ j, k = j + 1 := ⟨k - 1, by omega⟩
  rw [coeff_X_mul]
  rcases Nat.eq_or_lt_of_le hk with e | hlt
  · have e1 : j = NR - 1 := by omega
    have hlead : (genPoly M POLY w NR FCR).coeff (j + 1) = 1 := by
      rw [← e]; exact rootsProd_coeff_self FCR NR
    rw [hlead, if_pos e.symm, mul_one, mul_one, e1]
    ext
    simp only [Elt.val_add, Elt.val_zero]
    generalize (p.coeff (NR - 1)).val = a
    generalize m.val = b
    apply Nat.eq_of_testBit_eq
    intro i
    simp only [Nat.testBit_xor, Nat.zero_testBit]
    cases a.testBit i <;> cases b.testBit i <;> rfl
  · have hg : (genPoly M POLY w NR FCR).coeff (j + 1) = 0 := by
      apply coeff_eq_zero_of_natDegree_lt
      have : (genPoly M POLY w NR FCR).natDegree = NR := rootsProd_natDegree FCR NR
      omega
    rw [hg, hpz j (by omega), if_neg (by omega)]
    simp

/-- The register update keeps the register equal to the remainder of the message read so far
times `x^NR`. -/
theorem lfsrStep_mod {NR FCR : Nat} (hNR : 0 < NR) (A : (Elt M POLY w)[X])
    (m : Elt M POLY w) :
    lfsrStep M POLY w NR FCR ((A * X ^ NR) %ₘ genPoly M POLY w NR FCR) m
      = ((A * X + C m) * X ^ NR) %ₘ genPoly M POLY w NR FCR := by
  set g := genPoly M POLY w NR FCR with hg
  have hmon : g.Monic := rootsProd_monic FCR NR
  have hgdeg : g.degree = NR := by
    rw [degree_eq_natDegree hmon.ne_zero]
    exact congrArg _ (rootsProd_natDegree FCR NR)
  set p := (A * X ^ NR) %ₘ g with hp
  set q := (A * X ^ NR) /ₘ g with hq
  have hdiv : p + g * q = A * X ^ NR := modByMonic_add_div _ hmon
  have hpdeg : p.degree < NR := by
    rw [← hgdeg]; exact degree_modByMonic_lt _ hmon
  have key := div_modByMonic_unique (f := (A * X + C m) * X ^ NR) (g := g)
    (X * q + C (m + p.coeff (NR - 1))) (lfsrStep M POLY w NR FCR p m) hmon
    ⟨by
      unfold lfsrStep
      rw [← hg]
      have e : (A * X + C m) * X ^ NR = X * (A * X ^ NR) + C m * X ^ NR := by ring
      rw [e, ← hdiv]
      have h2 : ∀ u : (Elt M POLY w)[X], u + u = 0 := by
        intro u
        ext n
        rw [coeff_add, Elt.add_self, coeff_zero]
      have : C (m + p.coeff (NR - 1)) * g + g * C (m + p.coeff (NR - 1)) = 0 := by
        rw [mul_comm g]; exact h2 _
      linear_combination this,
     by rw [hgdeg]; exact lfsrStep_degree hNR p hpdeg m⟩
  exact key.2.symm

end ReedSolomon

open Polynomial

namespace ReedSolomon

open GF TablesGenerator

variable {M POLY w : Nat} [hF : Fact (FieldOK M POLY w)] {T : Tables}

/-- The buffer of the encoder: the message symbols `c j` for `j < K`, then the register `p`,
the coefficient of its highest power first. -/
noncomputable def encState (M POLY w : Nat) [Fact (FieldOK M POLY w)] (NR : Nat) (c : Nat → Nat)
    (p : (Elt M POLY w)[X]) :
    List Nat :=
  (List.range (N M)).map
    (fun x => if x < K M NR then c x else (p.coeff (N M - 1 - x)).val)

/-- The buffer inside the inner loop of the encoder, before the step with loop variable `j`:
the register cells before `K + j - 1` hold the new register `p'`, the others the old `p`. -/
noncomputable def feedState (M POLY w : Nat) [Fact (FieldOK M POLY w)] (NR : Nat) (c : Nat → Nat)
    (p p' : (Elt M POLY w)[X]) (j : Nat) : List Nat :=
  (List.range (N M)).map
    (fun x => if x < K M NR then c x
      else if x + 1 < K M NR + j then (p'.coeff (N M - 1 - x)).val
      else (p.coeff (N M - 1 - x)).val)

theorem feedState_one (NR : Nat) (c : Nat → Nat) (p p' : (Elt M POLY w)[X]) :
    feedState M POLY w NR c p p' 1 = encState M POLY w NR c p := by
  unfold feedState encState
  apply map_range_congr
  intro x _
  by_cases hx : x < K M NR
  · simp [hx]
  · simp [hx]

theorem store_feedState_last {NR : Nat} (hNR : 0 < NR) (hN : NR < N M) (c : Nat → Nat)
    (p p' : (Elt M POLY w)[X]) :
    store (feedState M POLY w NR c p p' NR) (N M - 1) (p'.coeff 0).val
      = some (encState M POLY w NR c p') := by
  have hK : K M NR + NR = N M := by unfold K; omega
  unfold feedState encState
  rw [store_map_range _ _ (by omega)]
  congr 1
  apply map_range_congr
  intro x hx
  by_cases hx1 : x = N M - 1
  · have : ¬ x < K M NR := by omega
    have e : N M - 1 - x = 0 := by omega
    subst hx1
    simp only [if_true, this, if_false, e]
  · by_cases hx2 : x < K M NR
    · simp [hx1, hx2]
    · have : x + 1 < K M NR + NR := by omega
      simp [hx1, hx2, this]

theorem encodeFeed_eq (h : TablesOK M POLY w T) {NR FCR : Nat} (hN : NR < N M)
    (c : Nat → Nat) (p : (Elt M POLY w)[X]) (m : Elt M POLY w)
    (hfb : m + p.coeff (NR - 1) ≠ 0) {j : Nat} (hj1 : 1 ≤ j) (hj : j < NR) :
    encodeFeed M w T NR (genTable M POLY w NR FCR)
        (dlog M POLY w (m + p.coeff (NR - 1)).val) j
        (feedState M POLY w NR c p (lfsrStep M POLY w NR FCR p m) j)
      = some (feedState M POLY w NR c p (lfsrStep M POLY w NR FCR p m) (j + 1)) := by
  have hK : K M NR + NR = N M := by unfold K; omega
  unfold encodeFeed
  have r1 : rd (genTable M POLY w NR FCR) (NR - j)
      = some (dlog M POLY w ((genPoly M POLY w NR FCR).coeff (NR - j)).val) := by
    unfold genTable
    rw [rd_map_range _ (by omega)]
  have r2 : rd (feedState M POLY w NR c p (lfsrStep M POLY w NR FCR p m) j) (K M NR + j)
      = some (p.coeff (NR - 1 - j)).val := by
    unfold feedState
    rw [rd_map_range _ (by omega)]
    have e1 : ¬ K M NR + j < K M NR := by omega
    have e2 : ¬ K M NR + j + 1 < K M NR + j := by omega
    have e3 : N M - 1 - (K M NR + j) = NR - 1 - j := by omega
    simp only [e1, e2, e3, if_false]
  simp only [r1, r2, Option.bind_eq_bind, Option.some_bind]
  rw [fmaIIV_eq h _ (dlog_val_lt hfb) (genTable_lt hN (by omega)), Option.some_bind,
    alphaPow_dlog_val hfb, alphaPow_dlog_val (genPoly_coeff_ne_zero hN (by omega))]
  unfold feedState
  rw [store_map_range _ _ (by omega)]
  congr 1
  apply map_range_congr
  intro x hx
  by_cases hx1 : x = K M NR + j - 1
  · have e1 : ¬ x < K M NR := by omega
    have e2 : x + 1 < K M NR + (j + 1) := by omega
    have e3 : N M - 1 - x = NR - j := by omega
    have e4 : NR - j ≠ 0 := by omega
    have e5 : NR - j - 1 = NR - 1 - j := by omega
    simp only [hx1.symm, if_true, e1, if_false, e2, e3]
    rw [lfsrStep_coeff _ _ (by omega), if_neg e4, e5]
    rfl
  · by_cases hx2 : x < K M NR
    · simp [hx1, hx2]
    · by_cases hx3 : x + 1 < K M NR + j
      · have : x + 1 < K M NR + (j + 1) := by omega
        simp [hx1, hx2, hx3, this]
      · have : ¬ x + 1 < K M NR + (j + 1) := by omega
        simp [hx1, hx2, hx3, this]

theorem encodeShift_eq {NR FCR : Nat} (hN : NR < N M)
    (c : Nat → Nat) (p : (Elt M POLY w)[X]) (m : Elt M POLY w)
    (hfb : m + p.coeff (NR - 1) = 0) {j : Nat} (hj1 : 1 ≤ j) (hj : j < NR) :
    encodeShift M NR j (feedState M POLY w NR c p (lfsrStep M POLY w NR FCR p m) j)
      = some (feedState M POLY w NR c p (lfsrStep M POLY w NR FCR p m) (j + 1)) := by
  have hK : K M NR + NR = N M := by unfold K; omega
  unfold encodeShift
  have r2 : rd (feedState M POLY w NR c p (lfsrStep M POLY w NR FCR p m) j) (K M NR + j)
      = some (p.coeff (NR - 1 - j)).val := by
    unfold feedState
    rw [rd_map_range _ (by omega)]
    have e1 : ¬ K M NR + j < K M NR := by omega
    have e2 : ¬ K M NR + j + 1 < K M NR + j := by omega
    have e3 : N M - 1 - (K M NR + j) = NR - 1 - j := by omega
    simp only [e1, e2, e3, if_false]
  simp only [r2, Option.bind_eq_bind, Option.some_bind]
  unfold feedState
  rw [store_map_range _ _ (by omega)]
  congr 1
  apply map_range_congr
  intro x hx
  by_cases hx1 : x = K M NR + j - 1
  · have e1 : ¬ x < K M NR := by omega
    have e2 : x + 1 < K M NR + (j + 1) := by omega
    have e3 : N M - 1 - x = NR - j := by omega
    have e4 : NR - j ≠ 0 := by omega
    have e5 : NR - j - 1 = NR - 1 - j := by omega
    simp only [hx1.symm, if_true, e1, if_false, e2, e3]
    rw [lfsrStep_coeff _ _ (by omega), if_neg e4, e5, hfb, zero_mul, zero_add]
  · by_cases hx2 : x < K M NR
    · simp [hx1, hx2]
    · by_cases hx3 : x + 1 < K M NR + j
      · have : x + 1 < K M NR + (j + 1) := by omega
        simp [hx1, hx2, hx3, this]
      · have : ¬ x + 1 < K M NR + (j + 1) := by omega
        simp [hx1, hx2, hx3, this]

/-- One iteration of the main loop of `encode` is one register update. -/
theorem encodeStep_eq (h : TablesOK M POLY w T) {NR FCR : Nat} (hNR : 0 < NR)
    (hN : NR < N M) (c : Nat → Nat) (p : (Elt M POLY w)[X]) {i : Nat} (hi : i < K M NR)
    (hc : c i < 2 ^ M) :
    encodeStep M w T NR (genTable M POLY w NR FCR) i (encState M POLY w NR c p)
      = some (encState M POLY w NR c (lfsrStep M POLY w NR FCR p (toElt (c i)))) := by
  have hK : K M NR + NR = N M := by unfold K; omega
  have h0 : toTYPE w 0 = 0 := by simp [toTYPE]
  set m : Elt M POLY w := toElt (c i) with hm
  unfold encodeStep
  have r1 : rd (encState M POLY w NR c p) i = some (c i) := by
    unfold encState
    rw [rd_map_range _ (by omega)]
    simp [hi]
  have r2 : rd (encState M POLY w NR c p) (K M NR) = some (p.coeff (NR - 1)).val := by
    unfold encState
    rw [rd_map_range _ (by omega)]
    have e3 : N M - 1 - K M NR = NR - 1 := by omega
    simp [e3]
  have efb : add (c i) (p.coeff (NR - 1)).val = (m + p.coeff (NR - 1)).val := by
    rw [Elt.val_add, hm, val_toElt hc]; rfl
  simp only [r1, r2, Option.bind_eq_bind, Option.some_bind, efb, h0]
  by_cases hfb : m + p.coeff (NR - 1) = 0
  · have : (m + p.coeff (NR - 1)).val = 0 := by rw [hfb]; rfl
    rw [if_neg (by simp [this])]
    obtain ⟨c1, hc1, hP⟩ := forUp_inv hNR (encodeShift M NR)
      (fun j s => s = feedState M POLY w NR c p (lfsrStep M POLY w NR FCR p m) j)
      (encState M POLY w NR c p) (feedState_one NR c p _).symm
      (by
        intro j s hj1 hj hs
        subst hs
        exact ⟨_, encodeShift_eq hN c p m hfb hj1 hj, rfl⟩)
    subst hP
    simp only [hc1, Option.bind_eq_bind, Option.some_bind]
    have e0 : (lfsrStep M POLY w NR FCR p m).coeff 0 = 0 := by
      rw [lfsrStep_coeff _ _ hNR, hfb]; simp
    have := store_feedState_last hNR hN c p (lfsrStep M POLY w NR FCR p m)
    rw [e0] at this
    exact this
  · have hv : (m + p.coeff (NR - 1)).val ≠ 0 := fun e => hfb ((val_eq_zero_iff _).1 e)
    rw [if_pos hv, index_eq h (Elt.lt _), Option.some_bind]
    obtain ⟨c1, hc1, hP⟩ := forUp_inv hNR
      (encodeFeed M w T NR (genTable M POLY w NR FCR)
        (dlog M POLY w (m + p.coeff (NR - 1)).val))
      (fun j s => s = feedState M POLY w NR c p (lfsrStep M POLY w NR FCR p m) j)
      (encState M POLY w NR c p) (feedState_one NR c p _).symm
      (by
        intro j s hj1 hj hs
        subst hs
        exact ⟨_, encodeFeed_eq h hN c p m hfb hj1 hj, rfl⟩)
    subst hP
    simp only [hc1, Option.bind_eq_bind, Option.some_bind]
    have r3 : rd (genTable M POLY w NR FCR) 0
        = some (dlog M POLY w ((genPoly M POLY w NR FCR).coeff 0).val) := by
      unfold genTable
      rw [rd_map_range _ (by omega)]
    rw [r3, Option.some_bind]
    have hg0 : dlog M POLY w ((genPoly M POLY w NR FCR).coeff 0).val < N M :=
      genTable_lt hN (Nat.zero_le NR)
    rw [mulII_eq h hg0 (dlog_val_lt hfb), Option.some_bind,
      value_eq h (Nat.mod_lt _ (N_pos h.field.params)), Option.some_bind,
      alphaPow_mod h.field.prim, ← fmul_alphaPow h.field, alphaPow_dlog_val hfb,
      alphaPow_dlog_val (genPoly_coeff_ne_zero hN (Nat.zero_le NR))]
    have e0 : (lfsrStep M POLY w NR FCR p m).coeff 0
        = (genPoly M POLY w NR FCR).coeff 0 * (m + p.coeff (NR - 1)) := by
      rw [lfsrStep_coeff _ _ hNR]; simp [mul_comm]
    have := store_feedState_last hNR hN c p (lfsrStep M POLY w NR FCR p m)
    rw [e0] at this
    exact this

end ReedSolomon

open Polynomial

theorem list_eq_map_range_getD (l : List Nat) :
    l = (List.range l.length).map (fun j => l.getD j 0) := by
  apply List.ext_getElem
  · simp
  · intro j h1 h2
    simp [List.getD_eq_getElem?_getD, List.getElem?_eq_getElem h1]

namespace ReedSolomon

open GF TablesGenerator

variable {M POLY w : Nat} [hF : Fact (FieldOK M POLY w)] {T : Tables}

/-- The polynomial of the first `n` symbols `c 0, ..., c (n - 1)` of a word, `c 0` being the
coefficient of the highest power. -/
noncomputable def wordPoly (M POLY w : Nat) [Fact (FieldOK M POLY w)] (c : Nat → Nat)
    (n : Nat) : (Elt M POLY w)[X] :=
  polyHi ((List.range n).map (fun j => (toElt (c j) : Elt M POLY w)))

theorem wordPoly_zero (c : Nat → Nat) : wordPoly M POLY w c 0 = 0 := rfl

theorem wordPoly_succ (c : Nat → Nat) (n : Nat) :
    wordPoly M POLY w c (n + 1) = wordPoly M POLY w c n * X + C (toElt (c n)) := by
  unfold wordPoly
  rw [List.range_succ, List.map_append, List.map_singleton, polyHi_concat]

/-- The word polynomial as the sum `∑_{j < n} c_j x^(n - 1 - j)`. -/
theorem wordPoly_eq_sum (c : Nat → Nat) (n : Nat) :
    wordPoly M POLY w c n
      = ∑ j in Finset.range n, C (toElt (c j) : Elt M POLY w) * X ^ (n - 1 - j) := by
  induction n with
  | zero => simp [wordPoly_zero]
  | succ n ih =>
    rw [wordPoly_succ, ih, Finset.sum_range_succ, Finset.sum_mul]
    have e : n + 1 - 1 - n = 0 := by omega
    rw [e, pow_zero, mul_one]
    congr 1
    apply Finset.sum_congr rfl
    intro j hj
    have hj' := Finset.mem_range.1 hj
    have e2 : n + 1 - 1 - j = (n - 1 - j) + 1 := by omega
    rw [e2, pow_succ, mul_assoc]

theorem wordPoly_degree_lt (c : Nat → Nat) (n : Nat) :
    (wordPoly M POLY w c n).degree < n := by
  rw [wordPoly_eq_sum]
  apply lt_of_le_of_lt (degree_sum_le _ _)
  rw [Finset.sup_lt_iff (by exact WithBot.bot_lt_coe n)]
  intro j hj
  have hj' := Finset.mem_range.1 hj
  apply lt_of_le_of_lt (degree_C_mul_X_pow_le _ _)
  exact_mod_cast (by omega : n - 1 - j < n)

/-- The parity register of `encode` after the whole message: the remainder of
`m(x) * x^NR` by `g(x)`. -/
noncomputable def parityPoly (M POLY w : Nat) [Fact (FieldOK M POLY w)] (NR FCR : Nat)
    (c : Nat → Nat) : (Elt M POLY w)[X] :=
  (wordPoly M POLY w c (K M NR) * X ^ NR) %ₘ genPoly M POLY w NR FCR

theorem genPoly_degree (NR FCR : Nat) : (genPoly M POLY w NR FCR).degree = NR := by
  have hmon : (genPoly M POLY w NR FCR).Monic := rootsProd_monic FCR NR
  rw [degree_eq_natDegree hmon.ne_zero]
  exact congrArg _ (rootsProd_natDegree FCR NR)

theorem parityPoly_degree_lt (NR FCR : Nat) (c : Nat → Nat) :
    (parityPoly M POLY w NR FCR c).degree < NR := by
  have hd : (genPoly M POLY w NR FCR).degree = NR := genPoly_degree NR FCR
  rw [← hd]
  exact degree_modByMonic_lt _ (rootsProd_monic FCR NR)

/-- `encode` returns; it leaves the message symbols in place and writes the coefficients of
the remainder of `m(x) * x^NR` by `g(x)` behind them. -/
theorem encode_eq (h : TablesOK M POLY w T) {NR FCR : Nat} (hNR : 0 < NR) (hN : NR < N M)
    {code : List Nat} (hlen : code.length = N M)
    (hmsg : ∀ i, i < K M NR → code.getD i 0 < 2 ^ M) :
    encode M w T NR (genTable M POLY w NR FCR) code
      = some (encState M POLY w NR (fun j => code.getD j 0)
          (parityPoly M POLY w NR FCR (fun j => code.getD j 0))) := by
  have hK : K M NR + NR = N M := by unfold K; omega
  have h0 : toTYPE w 0 = 0 := by simp [toTYPE]
  set c : Nat → Nat := fun j => code.getD j 0 with hc
  have hcode : code = (List.range (N M)).map c := by
    conv_lhs => rw [list_eq_map_range_getD code, hlen]
  unfold encode
  obtain ⟨c1, hc1, hP⟩ := forUp_inv (Nat.zero_le NR) (encodeClear M w NR)
    (fun i s => s = (List.range (N M)).map
      (fun x => if K M NR ≤ x ∧ x < K M NR + i then 0 else c x))
    code
    (by
      refine hcode.trans ?_
      apply map_range_congr
      intro x _
      have : ¬ (K M NR ≤ x ∧ x < K M NR + 0) := by omega
      rw [if_neg this])
    (by
      intro i s _ hi hs
      subst hs
      refine ⟨_, ?_, rfl⟩
      unfold encodeClear
      rw [h0, store_map_range _ _ (by omega)]
      congr 1
      apply map_range_congr
      intro x _
      by_cases hx : x = K M NR + i
      · have : K M NR ≤ x ∧ x < K M NR + (i + 1) := by omega
        simp [hx]
      · by_cases hx2 : K M NR ≤ x ∧ x < K M NR + i
        · have : K M NR ≤ x ∧ x < K M NR + (i + 1) := by omega
          simp [hx, hx2, this]
        · have : ¬ (K M NR ≤ x ∧ x < K M NR + (i + 1)) := by omega
          simp [hx, hx2, this])
  subst hP
  rw [hc1]
  simp only [Option.bind_eq_bind, Option.some_bind]
  have hstart : (List.range (N M)).map
      (fun x => if K M NR ≤ x ∧ x < K M NR + NR then 0 else c x)
      = encState M POLY w NR c ((wordPoly M POLY w c 0 * X ^ NR) %ₘ genPoly M POLY w NR FCR) := by
    unfold encState
    apply map_range_congr
    intro x hx
    by_cases hx2 : x < K M NR
    · have : ¬ (K M NR ≤ x ∧ x < K M NR + NR) := by omega
      simp [hx2, this]
    · have : K M NR ≤ x ∧ x < K M NR + NR := by omega
      simp [hx2, this, wordPoly_zero]
  rw [hstart]
  obtain ⟨c2, hc2, hP2⟩ := forUp_inv (Nat.zero_le (K M NR))
    (encodeStep M w T NR (genTable M POLY w NR FCR))
    (fun i s => s = encState M POLY w NR c
      ((wordPoly M POLY w c i * X ^ NR) %ₘ genPoly M POLY w NR FCR))
    _ rfl
    (by
      intro i s _ hi hs
      subst hs
      refine ⟨_, encodeStep_eq h hNR hN c _ hi (hmsg i hi), ?_⟩
      rw [lfsrStep_mod hNR]
      beta_reduce
      rw [wordPoly_succ])
  rw [hc2, hP2]
  rfl

theorem encState_length (NR : Nat) (c : Nat → Nat) (p : (Elt M POLY w)[X]) :
    (encState M POLY w NR c p).length = N M := by
  simp [encState]

theorem encState_getD_msg (NR : Nat) (c : Nat → Nat) (p : (Elt M POLY w)[X]) {i : Nat}
    (hN : NR ≤ N M) (hi : i < K M NR) : (encState M POLY w NR c p).getD i 0 = c i := by
  have : i < N M := by unfold K at hi; omega
  simp [encState, List.getD_eq_getElem?_getD, this, hi]

theorem encState_getD_parity (NR : Nat) (c : Nat → Nat) (p : (Elt M POLY w)[X]) {j : Nat}
    (hN : NR ≤ N M) (hj : j < NR) :
    (encState M POLY w NR c p).getD (K M NR + j) 0 = (p.coeff (NR - 1 - j)).val := by
  have hK : K M NR + NR = N M := by unfold K; omega
  have h1 : K M NR + j < N M := by omega
  have h2 : N M - 1 - (K M NR + j) = NR - 1 - j := by omega
  simp [encState, List.getD_eq_getElem?_getD, h1, h2]

theorem encState_lt (NR : Nat) (c : Nat → Nat) (p : (Elt M POLY w)[X])
    (hc : ∀ i, i < K M NR → c i < 2 ^ M) (x : Nat) :
    (encState M POLY w NR c p).getD x 0 < 2 ^ M := by
  unfold encState
  rw [List.getD_eq_getElem?_getD]
  by_cases hx : x < N M
  · simp only [List.getElem?_map, List.getElem?_range hx, Option.map_some', Option.getD_some]
    split
    · exact hc x (by assumption)
    · exact Elt.lt _
  · rw [List.getElem?_eq_none (by simpa using hx)]
    exact Nat.two_pow_pos M

end ReedSolomon

open Polynomial

namespace ReedSolomon

open GF TablesGenerator

variable {M POLY w : Nat} [hF : Fact (FieldOK M POLY w)] {T : Tables}

/-- The value of the syndrome `i` after the first `n` symbols of the word: the polynomial of
these symbols evaluated at `α^(FCR + i)`. -/
noncomputable def synVal (M POLY w : Nat) [Fact (FieldOK M POLY w)] (FCR : Nat)
    (c : Nat → Nat) (n i : Nat) : Nat :=
  ((wordPoly M POLY w c n).eval ((alpha M POLY w) ^ (FCR + i))).val

/-- The number of nonzero cells of an array. -/
def nonzeroCount (l : List Nat) : Nat := (l.filter (fun v => v ≠ 0)).length

theorem synVal_lt (FCR : Nat) (c : Nat → Nat) (n i : Nat) :
    synVal M POLY w FCR c n i < 2 ^ M := Elt.lt _

theorem synVal_one (FCR : Nat) (c : Nat → Nat) (i : Nat) (hc : c 0 < 2 ^ M) :
    synVal M POLY w FCR c 1 i = c 0 := by
  unfold synVal
  rw [wordPoly_succ, wordPoly_zero]
  simp [val_toElt hc]

theorem syndromeInner_eq (h : TablesOK M POLY w T) {NR FCR : Nat} {code : List Nat}
    (c : Nat → Nat) (hcode : code = (List.range (N M)).map c)
    (hval : ∀ j, j < N M → c j < 2 ^ M) {j : Nat} (hj1 : 1 ≤ j) (hj : j < N M) {t : Nat}
    (ht : t < NR) :
    syndromeInner M w T code j t
        ((List.range NR).map (fun u => if u < t then synVal M POLY w FCR c (j + 1) u
          else synVal M POLY w FCR c j u), (FCR + t) % N M)
      = some ((List.range NR).map (fun u => if u < t + 1 then synVal M POLY w FCR c (j + 1) u
          else synVal M POLY w FCR c j u), (FCR + (t + 1)) % N M) := by
  have h1 : toTYPE w 1 = 1 := toTYPE_of_lt_Q h.field.params (one_lt_Q h.field.params)
  have hN := N_pos h.field.params
  unfold syndromeInner
  rw [rd_map_range _ ht, hcode, rd_map_range _ hj]
  simp only [lt_irrefl, if_false, Option.bind_eq_bind, Option.some_bind, h1]
  rw [fmaIVV_eq h _ (Nat.mod_lt _ hN) (synVal_lt _ _ _ _), Option.some_bind,
    store_map_range _ _ ht, Option.some_bind,
    mulAssignII_eq h (Nat.mod_lt _ hN) (by omega : 1 < N M)]
  simp only [Option.some_bind, Option.pure_def, Option.some.injEq, Prod.mk.injEq]
  constructor
  · apply map_range_congr
    intro u _
    by_cases hu : u = t
    · subst hu
      simp only [if_true, Nat.lt_succ_self]
      rw [alphaPow_mod h.field.prim]
      unfold synVal
      rw [val_mul_alpha_pow, wordPoly_succ, eval_add, eval_mul, eval_X, eval_C, Elt.val_add,
        val_toElt (hval j hj), mul_comm]
    · by_cases hu2 : u < t
      · have : u < t + 1 := by omega
        simp [hu, hu2, this]
      · have : ¬ u < t + 1 := by omega
        simp [hu, hu2, this]
  · rw [Nat.mod_add_mod, Nat.add_assoc]

theorem syndromeOuter_eq (h : TablesOK M POLY w T) {NR FCR : Nat} (hFCR : FCR < N M)
    {code : List Nat} (c : Nat → Nat) (hcode : code = (List.range (N M)).map c)
    (hval : ∀ j, j < N M → c j < 2 ^ M) {j : Nat} (hj1 : 1 ≤ j) (hj : j < N M) :
    syndromeOuter M w T NR FCR code j ((List.range NR).map (synVal M POLY w FCR c j))
      = some ((List.range NR).map (synVal M POLY w FCR c (j + 1))) := by
  have hf : toTYPE w FCR = FCR := toTYPE_of_lt_Q h.field.params (lt_trans hFCR (N_lt M))
  unfold syndromeOuter
  obtain ⟨s1, hs1, hP⟩ := forUp_inv (Nat.zero_le NR) (syndromeInner M w T code j)
    (fun t st => st = ((List.range NR).map
      (fun u => if u < t then synVal M POLY w FCR c (j + 1) u
          else synVal M POLY w FCR c j u), (FCR + t) % N M))
    ((List.range NR).map (synVal M POLY w FCR c j), FCR)
    (by
      simp only [Nat.add_zero, Nat.mod_eq_of_lt hFCR, Prod.mk.injEq, and_true]
      apply map_range_congr
      intro u _
      simp)
    (by
      intro t st _ ht hst
      subst hst
      exact ⟨_, syndromeInner_eq h c hcode hval hj1 hj ht, rfl⟩)
  subst hP
  rw [hf, hs1]
  simp only [Option.bind_eq_bind, Option.some_bind, Option.pure_def, Option.some.injEq]
  apply map_range_congr
  intro u hu
  simp [hu]

theorem syndromeCount_loop (syn : List Nat) :
    forUp 0 syn.length (syndromeCount syn) 0 = some (nonzeroCount syn) := by
  obtain ⟨n, hn, hP⟩ := forUp_inv (Nat.zero_le syn.length) (syndromeCount syn)
    (fun i n => n = nonzeroCount (syn.take i)) 0 (by simp [nonzeroCount])
    (by
      intro i n _ hi hn
      subst hn
      refine ⟨_, ?_, rfl⟩
      unfold syndromeCount
      rw [rd_eq_some hi]
      simp only [Option.bind_eq_bind, Option.some_bind, Option.pure_def, Option.some.injEq]
      rw [List.take_succ, List.getElem?_eq_getElem hi]
      unfold nonzeroCount
      rw [List.filter_append, List.length_append]
      congr 1
      by_cases hz : syn[i] = 0
      · simp [hz]
      · simp [hz])
  rw [hn, hP, List.take_length]

/-- `compute_syndromes` returns; it leaves the buffer as it was, the syndrome `i` is the word
polynomial evaluated at `α^(FCR + i)`, and the value returned counts the nonzero syndromes. -/
theorem compute_syndromes_eq (h : TablesOK M POLY w T) {NR FCR : Nat} (hFCR : FCR < N M)
    {code : List Nat} (hlen : code.length = N M)
    (hval : ∀ j, j < N M → code.getD j 0 < 2 ^ M) :
    compute_syndromes M w T NR FCR code
      = some (code,
          (List.range NR).map (synVal M POLY w FCR (fun j => code.getD j 0) (N M)),
          nonzeroCount
            ((List.range NR).map (synVal M POLY w FCR (fun j => code.getD j 0) (N M)))) := by
  have hN := N_pos h.field.params
  set c : Nat → Nat := fun j => code.getD j 0 with hc
  have hcode : code = (List.range (N M)).map c := by
    refine (list_eq_map_range_getD code).trans ?_
    rw [hlen]
  unfold compute_syndromes
  obtain ⟨s0, hs0, hP0⟩ := forUp_inv (Nat.zero_le NR) (syndromeInit code)
    (fun i s => s = (List.range NR).map (fun u => if u < i then c 0 else 0))
    (List.replicate NR 0)
    (by
      rw [replicate_eq_map_range]
      apply map_range_congr
      intro u _
      simp)
    (by
      intro i s _ hi hs
      subst hs
      refine ⟨_, ?_, rfl⟩
      unfold syndromeInit
      have : rd code 0 = some (c 0) := by
        rw [hcode, rd_map_range _ hN]
      rw [this]
      simp only [Option.bind_eq_bind, Option.some_bind]
      rw [store_map_range _ _ hi]
      congr 1
      apply map_range_congr
      intro u _
      by_cases hu : u = i
      · simp [hu]
      · by_cases hu2 : u < i
        · have : u < i + 1 := by omega
          simp [hu, hu2, this]
        · have : ¬ u < i + 1 := by omega
          simp [hu, hu2, this])
  subst hP0
  have hinit : (List.range NR).map (fun u => if u < NR then c 0 else 0)
      = (List.range NR).map (synVal M POLY w FCR c 1) := by
    apply map_range_congr
    intro u hu
    rw [if_pos hu]
    exact (synVal_one FCR c u (hval 0 hN)).symm
  rw [hinit] at hs0
  obtain ⟨s1, hs1, hP1⟩ := forUp_inv (by omega : 1 ≤ N M) (syndromeOuter M w T NR FCR code)
    (fun j s => s = (List.range NR).map (synVal M POLY w FCR c j))
    _ rfl
    (by
      intro j s hj1 hj hs
      subst hs
      exact ⟨_, syndromeOuter_eq h hFCR c hcode hval hj1 hj, rfl⟩)
  subst hP1
  rw [hs0]
  simp only [Option.bind_eq_bind, Option.some_bind]
  rw [hs1]
  simp only [Option.some_bind]
  have hl : ((List.range NR).map (synVal M POLY w FCR c (N M))).length = NR := by simp
  have := syndromeCount_loop ((List.range NR).map (synVal M POLY w FCR c (N M)))
  rw [hl] at this
  rw [this]
  rfl

end ReedSolomon

open Polynomial

namespace ReedSolomon

open GF TablesGenerator

variable {M POLY w : Nat} [hF : Fact (FieldOK M POLY w)] {T : Tables}

theorem wordPoly_coeff (c : Nat → Nat) (n k : Nat) :
    (wordPoly M POLY w c n).coeff k = if k < n then toElt (c (n - 1 - k)) else 0 := by
  induction n generalizing k with
  | zero => simp [wordPoly_zero]
  | succ n ih =>
    rw [wordPoly_succ, coeff_add]
    cases k with
    | zero => simp
    | succ k =>
      rw [coeff_mul_X, ih, coeff_C_succ, add_zero]
      by_cases hk : k < n
      · have h1 : k + 1 < n + 1 := by omega
        have e : n + 1 - 1 - (k + 1) = n - 1 - k := by omega
        rw [if_pos hk, if_pos h1, e]
      · have h1 : ¬ k + 1 < n + 1 := by omega
        rw [if_neg hk, if_neg h1]

/-- The polynomial of a buffer of the encoder: the message polynomial times `x^NR` plus the
register. -/
theorem wordPoly_encState {NR : Nat} (hN : NR ≤ N M) (c : Nat → Nat)
    (p : (Elt M POLY w)[X]) (hp : p.degree < NR) :
    wordPoly M POLY w (fun j => (encState M POLY w NR c p).getD j 0) (N M)
      = wordPoly M POLY w c (K M NR) * X ^ NR + p := by
  have hK : K M NR + NR = N M := by unfold K; omega
  have hpz : ∀ j, NR ≤ j → p.coeff j = 0 := (degree_lt_iff_coeff_zero _ _).1 hp
  ext k
  rw [wordPoly_coeff, coeff_add, coeff_mul_X_pow', wordPoly_coeff]
  by_cases hk : k < N M
  · rw [if_pos hk]
    by_cases hk2 : NR ≤ k
    · have h1 : N M - 1 - k < K M NR := by omega
      have h2 : k - NR < K M NR := by omega
      have e : K M NR - 1 - (k - NR) = N M - 1 - k := by omega
      rw [if_pos hk2, if_pos h2, hpz k hk2, add_zero, e]
      rw [encState_getD_msg NR c p hN h1]
    · have h1 : N M - 1 - k = K M NR + (NR - 1 - k) := by omega
      have e : NR - 1 - (NR - 1 - k) = k := by omega
      rw [if_neg hk2, zero_add]
      rw [h1, encState_getD_parity NR c p hN (by omega), e, toElt_val]
  · have hk2 : NR ≤ k := by omega
    have h2 : ¬ k - NR < K M NR := by omega
    rw [if_neg hk, if_pos hk2, if_neg h2, hpz k hk2, add_zero]

theorem genPoly_monic (NR FCR : Nat) : (genPoly M POLY w NR FCR).Monic :=
  rootsProd_monic FCR NR

/-- The word that `encode` produces is a multiple of the generator polynomial. -/
theorem genPoly_dvd_encoded {NR FCR : Nat} (hN : NR ≤ N M) (c : Nat → Nat) :
    genPoly M POLY w NR FCR ∣
      wordPoly M POLY w
        (fun j => (encState M POLY w NR c (parityPoly M POLY w NR FCR c)).getD j 0) (N M) := by
  rw [wordPoly_encState hN c _ (parityPoly_degree_lt NR FCR c)]
  set g := genPoly M POLY w NR FCR
  set A := wordPoly M POLY w c (K M NR) * X ^ NR
  have hmon : g.Monic := genPoly_monic NR FCR
  have hdiv : A %ₘ g + g * (A /ₘ g) = A := modByMonic_add_div _ hmon
  have e : A + parityPoly M POLY w NR FCR c = g * (A /ₘ g) := by
    have h2 : A %ₘ g + A %ₘ g = 0 := by
      ext n
      rw [coeff_add, Elt.add_self, coeff_zero]
    unfold parityPoly
    change A + A %ₘ g = g * (A /ₘ g)
    linear_combination hdiv.symm + h2
  rw [e]
  exact dvd_mul_right _ _

theorem alpha_pow_root_inj {NR FCR : Nat} (hN : NR ≤ N M) {i j : Nat} (hi : i < NR)
    (hj : j < NR) (h : (alpha M POLY w) ^ (FCR + i) = (alpha M POLY w) ^ (FCR + j)) :
    i = j := by
  have hpos := N_pos hF.out.params
  rw [← alpha_pow_mod (FCR + i), ← alpha_pow_mod (FCR + j)] at h
  have h2 := alpha_pow_inj (Nat.mod_lt _ hpos) (Nat.mod_lt _ hpos) h
  have h3 : (FCR + i) ≡ (FCR + j) [MOD N M] := h2
  have h4 : i ≡ j [MOD N M] := Nat.ModEq.add_left_cancel' FCR h3
  have h5 : i % N M = j % N M := h4
  rwa [Nat.mod_eq_of_lt (by omega), Nat.mod_eq_of_lt (by omega)] at h5

/-- A polynomial vanishes at the `NR` roots `α^(FCR + i)` exactly when the generator
polynomial divides it. -/
theorem genPoly_dvd_iff {NR FCR : Nat} (hN : NR ≤ N M) (W : (Elt M POLY w)[X]) :
    genPoly M POLY w NR FCR ∣ W ↔ ∀ i, i < NR → W.eval ((alpha M POLY w) ^ (FCR + i)) = 0 := by
  constructor
  · rintro ⟨q, rfl⟩ i hi
    rw [eval_mul]
    have : (genPoly M POLY w NR FCR).eval ((alpha M POLY w) ^ (FCR + i)) = 0 :=
      rootsProd_eval_root FCR NR i hi
    rw [this, zero_mul]
  · intro hroots
    unfold genPoly rootsProd
    apply Finset.prod_dvd_of_coprime
    · intro i hi j hj hij
      apply isCoprime_X_sub_C_of_isUnit_sub
      rw [isUnit_iff_ne_zero, sub_ne_zero]
      intro e
      exact hij (alpha_pow_root_inj hN (Finset.mem_range.1 (Finset.mem_coe.1 hi))
        (Finset.mem_range.1 (Finset.mem_coe.1 hj)) e)
    · intro i hi
      rw [dvd_iff_isRoot]
      exact hroots i (Finset.mem_range.1 hi)

theorem nonzeroCount_eq_zero_iff (l : List Nat) : nonzeroCount l = 0 ↔ ∀ v ∈ l, v = 0 := by
  unfold nonzeroCount
  rw [List.length_eq_zero, List.filter_eq_nil_iff]
  simp

theorem nonzeroCount_le (l : List Nat) : nonzeroCount l ≤ l.length :=
  List.length_filter_le _ _

theorem synTable_zero_iff {NR FCR : Nat} (hN : NR ≤ N M) (c : Nat → Nat) :
    nonzeroCount ((List.range NR).map (synVal M POLY w FCR c (N M))) = 0
      ↔ genPoly M POLY w NR FCR ∣ wordPoly M POLY w c (N M) := by
  rw [nonzeroCount_eq_zero_iff, genPoly_dvd_iff hN]
  constructor
  · intro h i hi
    have := h (synVal M POLY w FCR c (N M) i) (List.mem_map.2 ⟨i, List.mem_range.2 hi, rfl⟩)
    exact (val_eq_zero_iff _).1 this
  · intro h v hv
    obtain ⟨i, hi, rfl⟩ := List.mem_map.1 hv
    exact (val_eq_zero_iff _).2 (h i (List.mem_range.1 hi))

theorem synTable_eq_replicate {NR FCR : Nat} (c : Nat → Nat)
    (h : nonzeroCount ((List.range NR).map (synVal M POLY w FCR c (N M))) = 0) :
    (List.range NR).map (synVal M POLY w FCR c (N M)) = List.replicate NR 0 := by
  rw [nonzeroCount_eq_zero_iff] at h
  rw [replicate_eq_map_range]
  apply map_range_congr
  intro i hi
  exact h _ (List.mem_map.2 ⟨i, List.mem_range.2 hi, rfl⟩)

end ReedSolomon

open Polynomial

namespace ReedSolomon

open GF TablesGenerator

variable {M POLY w : Nat} {T : Tables}

theorem one_le_of_lt_N {n : Nat} (h : n < N M) : 1 ≤ M := by
  rcases Nat.eq_zero_or_pos M with h0 | h0
  · subst h0
    simp [N, Q] at h
  · exact h0

theorem compute_syndromes_fst {NR FCR : Nat} {code : List Nat}
    {r : List Nat × List Nat × Nat} (h : compute_syndromes M w T NR FCR code = some r) :
    r.1 = code := by
  unfold compute_syndromes at h
  simp only [Option.bind_eq_bind, Option.bind_eq_some, Option.pure_def, Option.some.injEq] at h
  obtain ⟨_, _, _, _, _, _, rfl⟩ := h
  rfl

/-- When `compute_syndromes` returns 0, `decode` returns 0 and the buffer as it was, whatever
`correct` is. -/
theorem decode_of_syndromes_zero {NR FCR : Nat}
    (correct : List Nat → List Nat → List Nat → Int → Option (List Nat × Int))
    {code syn : List Nat} (erasures : List Nat) {erasures_count : Int}
    (hcount : 0 ≤ erasures_count ∧ erasures_count ≤ (NR : Int))
    (h : compute_syndromes M w T NR FCR code = some (code, syn, 0)) :
    decode M w T NR FCR correct code erasures erasures_count = some (code, 0) := by
  unfold decode
  rw [if_neg (not_not.2 hcount), h]
  simp

section field

variable [hF : Fact (FieldOK M POLY w)]

theorem generator_unique (h : TablesOK M POLY w T) {NR FCR : Nat} (hN : NR < N M)
    (hFCR : FCR < N M) {gen : List Nat} (hg : generator M w T NR FCR = some gen) :
    gen = genTable M POLY w NR FCR := by
  rw [generator_eq h hN hFCR] at hg
  exact (Option.some.inj hg).symm

/-- The encoder returns and the syndromes of its output are all zero. -/
theorem encode_then_syndromes (h : TablesOK M POLY w T) {NR FCR : Nat}
    (hN : NR < N M) (hFCR : FCR < N M) {code : List Nat}
    (hmsg : ∀ i, i < K M NR → code.getD i 0 < 2 ^ M) :
    compute_syndromes M w T NR FCR
        (encState M POLY w NR (fun j => code.getD j 0)
          (parityPoly M POLY w NR FCR (fun j => code.getD j 0)))
      = some (encState M POLY w NR (fun j => code.getD j 0)
          (parityPoly M POLY w NR FCR (fun j => code.getD j 0)), List.replicate NR 0, 0) := by
  set c := fun j => code.getD j 0
  set e := encState M POLY w NR c (parityPoly M POLY w NR FCR c)
  have hz : nonzeroCount ((List.range NR).map
      (synVal M POLY w FCR (fun j => e.getD j 0) (N M))) = 0 :=
    (synTable_zero_iff (le_of_lt hN) _).2 (genPoly_dvd_encoded (le_of_lt hN) c)
  rw [compute_syndromes_eq h hFCR (encState_length NR c _)
    (fun j _ => encState_lt NR c _ hmsg j), hz, synTable_eq_replicate _ hz]

/-- A word of field values is a fixed point of `encode` exactly when the generator polynomial
divides its polynomial. -/
theorem encode_fixed_iff (h : TablesOK M POLY w T) {NR FCR : Nat} (hNR : 0 < NR)
    (hN : NR < N M) {code : List Nat} (hlen : code.length = N M)
    (hval : ∀ j, j < N M → code.getD j 0 < 2 ^ M) :
    encode M w T NR (genTable M POLY w NR FCR) code = some code
      ↔ genPoly M POLY w NR FCR ∣ wordPoly M POLY w (fun j => code.getD j 0) (N M) := by
  have hK : K M NR + NR = N M := by unfold K; omega
  set c := fun j => code.getD j 0 with hc
  set g := genPoly M POLY w NR FCR with hg
  set A := wordPoly M POLY w c (K M NR) * X ^ NR with hA
  set P := wordPoly M POLY w (fun j => c (K M NR + j)) NR with hP
  have hmon : g.Monic := genPoly_monic NR FCR
  have hPdeg : P.degree < NR := wordPoly_degree_lt _ _
  have hcode : code = encState M POLY w NR c P := by
    refine (list_eq_map_range_getD code).trans ?_
    rw [hlen]
    unfold encState
    apply map_range_congr
    intro x hx
    by_cases hx2 : x < K M NR
    · rw [if_pos hx2]
    · rw [if_neg hx2, hP, wordPoly_coeff, if_pos (by omega)]
      have e : K M NR + (NR - 1 - (N M - 1 - x)) = x := by omega
      rw [e, val_toElt (hval x hx)]
  have hW : wordPoly M POLY w c (N M) = A + P := by
    have := wordPoly_encState (le_of_lt hN) c P hPdeg
    rw [← hcode] at this
    exact this
  have hR : parityPoly M POLY w NR FCR c = A %ₘ g := rfl
  have hPmod : P %ₘ g = P := by
    rw [modByMonic_eq_self_iff hmon, genPoly_degree]
    exact hPdeg
  rw [encode_eq h hNR hN hlen (fun i hi => hval i (by omega)), hW,
    ← modByMonic_eq_zero_iff_dvd hmon, add_modByMonic, hPmod, ← hR]
  constructor
  · intro he
    have he2 : encState M POLY w NR c (parityPoly M POLY w NR FCR c)
        = encState M POLY w NR c P := (Option.some.inj he).trans hcode
    have : parityPoly M POLY w NR FCR c = P := by
      ext k
      by_cases hk : k < NR
      · have h1 := congrArg (fun l => l.getD (K M NR + (NR - 1 - k)) 0) he2
        simp only at h1
        rw [encState_getD_parity NR c _ (le_of_lt hN) (by omega),
          encState_getD_parity NR c _ (le_of_lt hN) (by omega)] at h1
        have e : NR - 1 - (NR - 1 - k) = k := by omega
        rw [e] at h1
        exact h1
      · have h1 := (degree_lt_iff_coeff_zero _ _).1
          (show (parityPoly M POLY w NR FCR c).degree < NR from parityPoly_degree_lt NR FCR c)
          k (by omega)
        have h2 := (degree_lt_iff_coeff_zero _ _).1 hPdeg k (by omega)
        rw [h1, h2]
    rw [this]
    ext n
    rw [coeff_add, Elt.add_self, coeff_zero]
  · intro hz
    have : parityPoly M POLY w NR FCR c = P := by
      have h2 : P + P = 0 := by
        ext n
        rw [coeff_add, Elt.add_self, coeff_zero]
      linear_combination hz - h2
    rw [this, ← hcode]

end field

end ReedSolomon

open Polynomial

namespace ReedSolomon

open GF TablesGenerator

/-- The claim's formula for one term of a syndrome, with the operations of the source: the
accumulator plus (XOR) the product `code[j] * α^((FCR + i) * (N - 1 - j) mod N)`, the power of
`α` read from the `exp` table by `value` and the product taken by `operator * (Value, Value)`. -/
def syndromeTerm (M w : Nat) (T : Tables) (FCR : Nat) (code : List Nat) (i j acc : Nat) :
    Option Nat := do
  let cj ← rd code j
  let a ← value M w T (((FCR + i) * (N M - 1 - j)) % N M)
  let t ← mulVV M w T cj a
  pure (add acc t)

/-- The claim's formula for the syndrome `i`: the sum over `j` in `[0, N)` of
`code[j] * α^((FCR + i) * (N - 1 - j))`. -/
def syndromeSum (M w : Nat) (T : Tables) (FCR : Nat) (code : List Nat) (i : Nat) :
    Option Nat :=
  forUp 0 (N M) (syndromeTerm M w T FCR code i) 0

variable {M POLY w : Nat} {T : Tables}

theorem nonzeroCount_eq_card (l : List Nat) :
    nonzeroCount l
      = ((Finset.range l.length).filter (fun i => l.getD i 0 ≠ 0)).card := by
  induction l using List.reverseRecOn with
  | nil => simp [nonzeroCount]
  | append_singleton l a ih =>
    have hl : nonzeroCount (l ++ [a]) = nonzeroCount l + (if a ≠ 0 then 1 else 0) := by
      unfold nonzeroCount
      rw [List.filter_append, List.length_append]
      by_cases ha : a = 0 <;> simp [ha]
    rw [hl, ih, List.length_append, List.length_singleton, Finset.range_succ,
      Finset.filter_insert]
    have hlast : (l ++ [a]).getD l.length 0 = a := by
      simp [List.getD_eq_getElem?_getD]
    have hpre : (Finset.range l.length).filter (fun i => (l ++ [a]).getD i 0 ≠ 0)
        = (Finset.range l.length).filter (fun i => l.getD i 0 ≠ 0) := by
      apply Finset.filter_congr
      intro i hi
      have hi' := Finset.mem_range.1 hi
      simp [List.getD_eq_getElem?_getD, List.getElem?_append_left hi']
    rw [hlast, hpre]
    by_cases ha : a = 0
    · simp [ha]
    · rw [if_pos ha, if_pos ha, Finset.card_insert_of_not_mem (by simp)]

section field

variable [hF : Fact (FieldOK M POLY w)]

theorem eval_wordPoly (c : Nat → Nat) (n : Nat) (x : Elt M POLY w) :
    (wordPoly M POLY w c n).eval x
      = ∑ j in Finset.range n, toElt (c j) * x ^ (n - 1 - j) := by
  rw [wordPoly_eq_sum, eval_finset_sum]
  apply Finset.sum_congr rfl
  intro j _
  rw [eval_mul, eval_C, eval_pow, eval_X]

theorem syndromeSum_eq (h : TablesOK M POLY w T) {FCR : Nat} {code : List Nat}
    (hlen : code.length = N M) (hval : ∀ j, j < N M → code.getD j 0 < 2 ^ M) (i : Nat) :
    syndromeSum M w T FCR code i
      = some (synVal M POLY w FCR (fun j => code.getD j 0) (N M) i) := by
  have hN := N_pos h.field.params
  set c : Nat → Nat := fun j => code.getD j 0 with hc
  have hcode : code = (List.range (N M)).map c := by
    refine (list_eq_map_range_getD code).trans ?_
    rw [hlen]
  unfold syndromeSum
  obtain ⟨s, hs, hP⟩ := forUp_inv (Nat.zero_le (N M)) (syndromeTerm M w T FCR code i)
    (fun n acc => acc = (∑ j in Finset.range n,
        (toElt (c j) : Elt M POLY w) * (alpha M POLY w) ^ ((FCR + i) * (N M - 1 - j))).val)
    0 (by simp)
    (by
      intro n acc _ hn hacc
      subst hacc
      refine ⟨_, ?_, rfl⟩
      unfold syndromeTerm
      have r1 : rd code n = some (c n) := by
        rw [hcode, rd_map_range _ hn]
      rw [r1, value_eq h (Nat.mod_lt _ hN)]
      simp only [Option.bind_eq_bind, Option.some_bind]
      rw [mulVV_eq h (hval n hn) (alphaPow_lt h.field.params _), Option.some_bind,
        alphaPow_mod h.field.prim, Finset.sum_range_succ, Elt.val_add, Elt.val_mul,
        val_alpha_pow, val_toElt (hval n hn)]
      rfl)
  rw [hs, hP]
  unfold synVal
  rw [eval_wordPoly]
  congr 2
  apply Finset.sum_congr rfl
  intro j _
  rw [← pow_mul]

/-- The polynomial read off the array `generator`, each log-index looked up in the `exp`
table, is the generator polynomial. -/
theorem genTable_poly (h : TablesOK M POLY w T) {NR FCR : Nat} :
    ∑ k in Finset.range (NR + 1),
        C (toElt (T.exp.getD ((genTable M POLY w NR FCR).getD k 0) 0) : Elt M POLY w) * X ^ k
      = genPoly M POLY w NR FCR := by
  have hdeg : (genPoly M POLY w NR FCR).natDegree = NR := rootsProd_natDegree FCR NR
  conv_rhs => rw [as_sum_range_C_mul_X_pow (genPoly M POLY w NR FCR), hdeg]
  apply Finset.sum_congr rfl
  intro k hk
  have hk' := Finset.mem_range.1 hk
  congr 2
  have e1 : (genTable M POLY w NR FCR).getD k 0
      = dlog M POLY w ((genPoly M POLY w NR FCR).coeff k).val := by
    simp [genTable, List.getD_eq_getElem?_getD, hk']
  rw [e1, h.exp]
  by_cases hz : (genPoly M POLY w NR FCR).coeff k = 0
  · have hv : ((genPoly M POLY w NR FCR).coeff k).val = 0 := (val_eq_zero_iff _).2 hz
    rw [hv, dlog_zero, hz]
    have hNQ := N_lt_Q M
    simp [expTable, List.getD_eq_getElem?_getD, hNQ, toElt_zero]
  · have hlt := dlog_val_lt hz
    have hq : dlog M POLY w ((genPoly M POLY w NR FCR).coeff k).val < Q M :=
      lt_trans hlt (N_lt_Q M)
    simp [expTable, List.getD_eq_getElem?_getD, hq, hlt, alphaPow_dlog_val hz]

end field

end ReedSolomon

open Polynomial

/-! ## The codec RS(15, 11): `M = 4`, `POLY = 0b10011`, `TYPE = uint8_t`, `NR = 4`, `FCR = 1` -/

/-- The tables that `generate` prints for `M = 4`, `POLY = 0b10011`. -/
def rs15Tables : GF.Tables :=
  ⟨[15, 0, 1, 4, 2, 8, 5, 10, 3, 14, 9, 7, 6, 13, 11, 12],
   [1, 2, 4, 8, 3, 6, 12, 11, 5, 10, 7, 14, 15, 13, 9, 0],
   [0, 6, 10, 12, 8, 14, 2, 4, 0, 0, 0, 0, 0, 0, 0]⟩

/-- The array `generator` of RS(15, 11). -/
def rs15Generator : List Nat := [10, 3, 6, 13, 0]

/-- A buffer of RS(15, 11): the message `1, ..., 11` and four cells of arbitrary content. -/
def rs15Buffer : List Nat := [1, 2, 3, 4, 5, 6, 7, 8, 9, 10, 11, 99, 98, 97, 96]

/-- The codeword of the message `1, ..., 11` in RS(15, 11). -/
def rs15Codeword : List Nat := [1, 2, 3, 4, 5, 6, 7, 8, 9, 10, 11, 11, 10, 14, 6]

theorem rs15_generateLogExp :
    TablesGenerator.generateLogExp 4 0b10011 8 = some (rs15Tables.log, rs15Tables.exp) := by
  decide

theorem rs15_primitive : TablesGenerator.Primitive 4 0b10011 8 := by decide

theorem rs15_fieldOK : GF.FieldOK 4 0b10011 8 :=
  ⟨⟨by decide, by decide, by decide⟩, rs15_primitive⟩

instance rs15_fact : Fact (GF.FieldOK 4 0b10011 8) := ⟨rs15_fieldOK⟩

theorem rs15_generator : ReedSolomon.generator 4 8 rs15Tables 4 1 = some rs15Generator := by
  decide

namespace ReedSolomon

open GF TablesGenerator

variable {M POLY w : Nat} {T : Tables}

/-- The hypotheses shared by the statements about a codec instance give the field set-up. -/
theorem tablesOK_of_codec {n : Nat} (hgen : generateLogExp M POLY w = some (T.log, T.exp))
    (hprim : Primitive M POLY w) (hN : n < N M) : TablesOK M POLY w T :=
  tablesOK_of_generateLogExp (one_le_of_lt_N hN) hprim hgen

theorem lt_pow_of_lt_Q {code : List Nat} {n : Nat}
    (h : ∀ i, i < n → code.getD i 0 < Q M) : ∀ i, i < n → code.getD i 0 < 2 ^ M := by
  intro i hi
  have := h i hi
  rwa [Q_eq] at this

/-- C1.  For every buffer of `N` symbols whose message part `code[0..K)` holds field values
(the parity part `code[K..N)` holds anything), with `1 ≤ NR < N`, `FCR < N`, the tables
generated for a primitive `POLY` and the array `generator` built by the constructor: `encode`
returns a word on which `compute_syndromes` writes `NR` zero syndromes and returns 0; and the
word, read as the polynomial `∑_{j < N} c[j] x^(N-1-j)`, is divisible by the generator
polynomial `∑_{k ≤ NR} exp[generator[k]] x^k` built in the constructor. -/
theorem encode_syndromes_zero {NR FCR : Nat} {gen code : List Nat}
    (hgen : generateLogExp M POLY w = some (T.log, T.exp)) (hprim : Primitive M POLY w)
    (hNR : 1 ≤ NR) (hN : NR < N M) (hFCR : FCR < N M)
    (hg : generator M w T NR FCR = some gen)
    (hlen : code.length = N M) (hmsg : ∀ i, i < K M NR → code.getD i 0 < Q M) :
    ∃ c, encode M w T NR gen code = some c ∧
      compute_syndromes M w T NR FCR c = some (c, List.replicate NR 0, 0) ∧
      ∀ [Fact (FieldOK M POLY w)],
        (∑ k in Finset.range (NR + 1),
            C (toElt (T.exp.getD (gen.getD k 0) 0) : Elt M POLY w) * X ^ k) ∣
          ∑ j in Finset.range (N M),
            C (toElt (c.getD j 0) : Elt M POLY w) * X ^ (N M - 1 - j) := by
  have hOK := tablesOK_of_codec hgen hprim hN
  haveI : Fact (FieldOK M POLY w) := ⟨hOK.field⟩
  rw [generator_unique hOK hN hFCR hg]
  refine ⟨_, encode_eq hOK hNR hN hlen (lt_pow_of_lt_Q hmsg),
    encode_then_syndromes hOK hN hFCR (lt_pow_of_lt_Q hmsg), ?_⟩
  intro _
  rw [genTable_poly hOK, ← wordPoly_eq_sum]
  exact genPoly_dvd_encoded (le_of_lt hN) _

/-- The hypotheses of `encode_syndromes_zero` hold for RS(15, 11) and the message `1, ..., 11`
in a buffer whose parity cells hold 99, 98, 97, 96. -/
theorem encode_syndromes_zero_witness :
    generateLogExp 4 0b10011 8 = some (rs15Tables.log, rs15Tables.exp) ∧ Primitive 4 0b10011 8 ∧
    generator 4 8 rs15Tables 4 1 = some rs15Generator ∧ rs15Buffer.length = N 4 ∧
    (∀ i, i < K 4 4 → rs15Buffer.getD i 0 < Q 4) ∧
    ∃ c, encode 4 8 rs15Tables 4 rs15Generator rs15Buffer = some c ∧
      compute_syndromes 4 8 rs15Tables 4 1 c = some (c, List.replicate 4 0, 0) :=
  ⟨rs15_generateLogExp, rs15_primitive, rs15_generator, by decide, by decide,
    (encode_syndromes_zero rs15_generateLogExp rs15_primitive (by decide) (by decide)
      (by decide) rs15_generator (by decide) (by decide)).elim
      (fun c h => ⟨c, h.1, h.2.1⟩)⟩

/-- C3.  `decode` applied to the output of `encode`, with any erasure list whose count is in
`[0, NR]` and whatever `correct` is, returns 0 and leaves the `N` symbols as `encode` wrote
them, the message part being the message; and for every buffer on which `compute_syndromes`
returns 0, `decode` returns 0 and the buffer unchanged, whatever `correct` is (it is not
called). -/
theorem decode_encode_clean {NR FCR : Nat} {gen code : List Nat}
    (hgen : generateLogExp M POLY w = some (T.log, T.exp)) (hprim : Primitive M POLY w)
    (hNR : 1 ≤ NR) (hN : NR < N M) (hFCR : FCR < N M)
    (hg : generator M w T NR FCR = some gen)
    (hlen : code.length = N M) (hmsg : ∀ i, i < K M NR → code.getD i 0 < Q M) :
    (∃ c, encode M w T NR gen code = some c ∧ c.length = N M ∧
      (∀ i, i < K M NR → c.getD i 0 = code.getD i 0) ∧
      ∀ (correct : List Nat → List Nat → List Nat → Int → Option (List Nat × Int))
        (erasures : List Nat) (erasures_count : Int),
        0 ≤ erasures_count → erasures_count ≤ (NR : Int) →
        decode M w T NR FCR correct c erasures erasures_count = some (c, 0)) ∧
    ∀ (correct : List Nat → List Nat → List Nat → Int → Option (List Nat × Int))
      (buf erasures : List Nat) (erasures_count : Int) (r : List Nat × List Nat × Nat),
      0 ≤ erasures_count → erasures_count ≤ (NR : Int) →
      compute_syndromes M w T NR FCR buf = some r → r.2.2 = 0 →
      decode M w T NR FCR correct buf erasures erasures_count = some (buf, 0) := by
  have hOK := tablesOK_of_codec hgen hprim hN
  haveI : Fact (FieldOK M POLY w) := ⟨hOK.field⟩
  have hgeneral : ∀ (correct : List Nat → List Nat → List Nat → Int → Option (List Nat × Int))
      (buf erasures : List Nat) (erasures_count : Int) (r : List Nat × List Nat × Nat),
      0 ≤ erasures_count → erasures_count ≤ (NR : Int) →
      compute_syndromes M w T NR FCR buf = some r → r.2.2 = 0 →
      decode M w T NR FCR correct buf erasures erasures_count = some (buf, 0) := by
    intro correct buf erasures cnt r h0 h1 hr hz
    have hfst := compute_syndromes_fst hr
    obtain ⟨r1, r2, r3⟩ := r
    simp only at hfst hz
    subst hfst
    subst hz
    exact decode_of_syndromes_zero correct erasures ⟨h0, h1⟩ hr
  refine ⟨?_, hgeneral⟩
  rw [generator_unique hOK hN hFCR hg]
  refine ⟨_, encode_eq hOK hNR hN hlen (lt_pow_of_lt_Q hmsg), encState_length _ _ _,
    fun i hi => encState_getD_msg NR _ _ (le_of_lt hN) hi, ?_⟩
  intro correct erasures cnt h0 h1
  exact decode_of_syndromes_zero correct erasures ⟨h0, h1⟩
    (encode_then_syndromes hOK hN hFCR (lt_pow_of_lt_Q hmsg))

end ReedSolomon

open Polynomial

namespace ReedSolomon

open GF TablesGenerator

variable {M POLY w : Nat} {T : Tables}

/-- The consequence of `decode_encode_clean` for RS(15, 11): the codeword of the message
`1, ..., 11` is decoded to itself with return value 0, here with a `correct` that always
fails and two erasures announced. -/
theorem decode_encode_clean_witness :
    generateLogExp 4 0b10011 8 = some (rs15Tables.log, rs15Tables.exp) ∧ Primitive 4 0b10011 8 ∧
    generator 4 8 rs15Tables 4 1 = some rs15Generator ∧ rs15Buffer.length = N 4 ∧
    (∀ i, i < K 4 4 → rs15Buffer.getD i 0 < Q 4) ∧
    encode 4 8 rs15Tables 4 rs15Generator rs15Buffer = some rs15Codeword ∧
    decode 4 8 rs15Tables 4 1 (fun _ _ _ _ => none) rs15Codeword [3, 7] 2
      = some (rs15Codeword, 0) := by
  have h := decode_encode_clean rs15_generateLogExp rs15_primitive (by decide) (by decide)
    (by decide) rs15_generator (show rs15Buffer.length = N 4 by decide) (by decide)
  obtain ⟨⟨c, hc, _, _, hdec⟩, _⟩ := h
  have he : encode 4 8 rs15Tables 4 rs15Generator rs15Buffer = some rs15Codeword := by decide
  have hcc : c = rs15Codeword := Option.some.inj (hc.symm.trans he)
  subst hcc
  exact ⟨rs15_generateLogExp, rs15_primitive, rs15_generator, by decide, by decide, he,
    hdec (fun _ _ _ _ => none) [3, 7] 2 (by decide) (by decide)⟩

section field

variable [hF : Fact (FieldOK M POLY w)]

theorem wordPoly_congr {c c' : Nat → Nat} {n : Nat} (h : ∀ j, j < n → c j = c' j) :
    wordPoly M POLY w c n = wordPoly M POLY w c' n := by
  unfold wordPoly
  congr 1
  apply map_range_congr
  intro j hj
  rw [h j hj]

theorem encState_congr {NR : Nat} {c c' : Nat → Nat} (p : (Elt M POLY w)[X])
    (h : ∀ j, j < K M NR → c j = c' j) :
    encState M POLY w NR c p = encState M POLY w NR c' p := by
  unfold encState
  apply map_range_congr
  intro x _
  by_cases hx : x < K M NR
  · rw [if_pos hx, if_pos hx, h x hx]
  · rw [if_neg hx, if_neg hx]

theorem parity_wordPoly {NR : Nat} (hN : NR ≤ N M) (c : Nat → Nat) (p : (Elt M POLY w)[X])
    (hp : p.degree < NR) :
    wordPoly M POLY w (fun j => (encState M POLY w NR c p).getD (K M NR + j) 0) NR = p := by
  have hpz : ∀ j, NR ≤ j → p.coeff j = 0 := (degree_lt_iff_coeff_zero _ _).1 hp
  ext k
  rw [wordPoly_coeff]
  by_cases hk : k < NR
  · rw [if_pos hk]
    have e : NR - 1 - (NR - 1 - k) = k := by omega
    rw [encState_getD_parity NR c p hN (by omega), e, toElt_val]
  · rw [if_neg hk, hpz k (by omega)]

/-- C4.  `encode` is systematic and computes the polynomial remainder: it returns a buffer `c`
of `N` symbols with `c[0..K)` the message, unchanged, and parity symbols that are field values
with `∑_{j < NR} c[K+j] x^(NR-1-j) = (m(x) * x^NR) mod g(x)`, where
`m(x) = ∑_{i < K} code[i] x^(K-1-i)` and `g(x) = ∑_{k ≤ NR} exp[generator[k]] x^k` is the
polynomial stored by the constructor; every buffer with the same message is encoded to the
same result, whatever its cells `code[K..N)` hold. -/
theorem encode_systematic_remainder {NR FCR : Nat} {gen code : List Nat}
    (hgen : generateLogExp M POLY w = some (T.log, T.exp))
    (hNR : 1 ≤ NR) (hN : NR < N M) (hFCR : FCR < N M)
    (hg : generator M w T NR FCR = some gen)
    (hlen : code.length = N M) (hmsg : ∀ i, i < K M NR → code.getD i 0 < Q M) :
    ∃ c, encode M w T NR gen code = some c ∧ c.length = N M ∧
      (∀ i, i < K M NR → c.getD i 0 = code.getD i 0) ∧
      (∀ j, j < NR → c.getD (K M NR + j) 0 < Q M) ∧
      (∑ j in Finset.range NR,
          C (toElt (c.getD (K M NR + j) 0) : Elt M POLY w) * X ^ (NR - 1 - j))
        = ((∑ i in Finset.range (K M NR),
              C (toElt (code.getD i 0) : Elt M POLY w) * X ^ (K M NR - 1 - i)) * X ^ NR)
            %ₘ (∑ k in Finset.range (NR + 1),
              C (toElt (T.exp.getD (gen.getD k 0) 0) : Elt M POLY w) * X ^ k) ∧
      ∀ code', code'.length = N M → (∀ i, i < K M NR → code'.getD i 0 = code.getD i 0) →
        encode M w T NR gen code' = some c := by
  have hOK := tablesOK_of_generateLogExp (one_le_of_lt_N hN) hF.out.prim hgen
  have hmsg' := lt_pow_of_lt_Q hmsg
  rw [generator_unique hOK hN hFCR hg]
  set c0 : Nat → Nat := fun j => code.getD j 0 with hc0
  refine ⟨_, encode_eq hOK hNR hN hlen hmsg', encState_length _ _ _,
    fun i hi => encState_getD_msg NR _ _ (le_of_lt hN) hi, ?_, ?_, ?_⟩
  · intro j hj
    rw [Q_eq]
    exact encState_lt NR _ _ hmsg' _
  · rw [genTable_poly hOK, ← wordPoly_eq_sum c0 (K M NR),
      ← wordPoly_eq_sum (fun j => (encState M POLY w NR c0
        (parityPoly M POLY w NR FCR c0)).getD (K M NR + j) 0) NR,
      parity_wordPoly (le_of_lt hN) c0 _ (parityPoly_degree_lt NR FCR c0)]
    rfl
  · intro code' hlen' hsame
    have hmsg2 : ∀ i, i < K M NR → code'.getD i 0 < 2 ^ M := by
      intro i hi
      rw [hsame i hi]
      exact hmsg' i hi
    rw [encode_eq hOK hNR hN hlen' hmsg2]
    congr 1
    have e1 : parityPoly M POLY w NR FCR (fun j => code'.getD j 0)
        = parityPoly M POLY w NR FCR c0 := by
      unfold parityPoly
      rw [show wordPoly M POLY w (fun j => code'.getD j 0) (K M NR) = wordPoly M POLY w c0 (K M NR)
        from wordPoly_congr hsame]
    rw [e1]
    exact encState_congr _ hsame

end field

/-- The hypotheses of `encode_systematic_remainder` hold for RS(15, 11) and the message
`1, ..., 11`, and `encode` then writes the parity symbols 11, 10, 14, 6. -/
theorem encode_systematic_remainder_witness :
    generateLogExp 4 0b10011 8 = some (rs15Tables.log, rs15Tables.exp) ∧
    generator 4 8 rs15Tables 4 1 = some rs15Generator ∧ rs15Buffer.length = N 4 ∧
    (∀ i, i < K 4 4 → rs15Buffer.getD i 0 < Q 4) ∧
    encode 4 8 rs15Tables 4 rs15Generator rs15Buffer = some rs15Codeword ∧
    (∑ j in Finset.range 4,
        C (toElt (rs15Codeword.getD (K 4 4 + j) 0) : Elt 4 0b10011 8) * X ^ (4 - 1 - j))
      = ((∑ i in Finset.range (K 4 4),
            C (toElt (rs15Buffer.getD i 0) : Elt 4 0b10011 8) * X ^ (K 4 4 - 1 - i)) * X ^ 4)
          %ₘ (∑ k in Finset.range (4 + 1),
            C (toElt (rs15Tables.exp.getD (rs15Generator.getD k 0) 0) : Elt 4 0b10011 8)
              * X ^ k) := by
  have h := encode_systematic_remainder rs15_generateLogExp (by decide) (by decide)
    (by decide) rs15_generator (show rs15Buffer.length = N 4 by decide) (by decide)
  obtain ⟨c, hc, _, _, _, hrem, _⟩ := h
  have he : encode 4 8 rs15Tables 4 rs15Generator rs15Buffer = some rs15Codeword := by decide
  have hcc : c = rs15Codeword := Option.some.inj (hc.symm.trans he)
  subst hcc
  exact ⟨rs15_generateLogExp, rs15_generator, by decide, by decide, he, hrem⟩

/-- C5.  For a word of `N` field values, `compute_syndromes` returns 0 exactly when the word
is a codeword, that is when `encode` run on the word (it reads the message part `w[0..K)` only)
writes back the parity part `w[K..N)` the word already has. -/
theorem syndromes_zero_iff_codeword {NR FCR : Nat} {gen code : List Nat}
    (hgen : generateLogExp M POLY w = some (T.log, T.exp)) (hprim : Primitive M POLY w)
    (hNR : 1 ≤ NR) (hN : NR < N M) (hFCR : FCR < N M)
    (hg : generator M w T NR FCR = some gen)
    (hlen : code.length = N M) (hval : ∀ j, j < N M → code.getD j 0 < Q M) :
    (∃ syn, compute_syndromes M w T NR FCR code = some (code, syn, 0))
      ↔ encode M w T NR gen code = some code := by
  have hOK := tablesOK_of_codec hgen hprim hN
  haveI : Fact (FieldOK M POLY w) := ⟨hOK.field⟩
  have hval' := lt_pow_of_lt_Q hval
  rw [generator_unique hOK hN hFCR hg, encode_fixed_iff hOK hNR hN hlen hval',
    ← synTable_zero_iff (le_of_lt hN), compute_syndromes_eq hOK hFCR hlen hval']
  constructor
  · rintro ⟨syn, hs⟩
    have := Option.some.inj hs
    simp only [Prod.mk.injEq, true_and] at this
    exact this.2
  · intro hz
    exact ⟨_, by rw [hz]⟩

/-- The hypotheses of `syndromes_zero_iff_codeword` hold for RS(15, 11) and the codeword of
the message `1, ..., 11`. -/
theorem syndromes_zero_iff_codeword_witness :
    generateLogExp 4 0b10011 8 = some (rs15Tables.log, rs15Tables.exp) ∧ Primitive 4 0b10011 8 ∧
    generator 4 8 rs15Tables 4 1 = some rs15Generator ∧ rs15Codeword.length = N 4 ∧
    (∀ j, j < N 4 → rs15Codeword.getD j 0 < Q 4) ∧
    ((∃ syn, compute_syndromes 4 8 rs15Tables 4 1 rs15Codeword = some (rs15Codeword, syn, 0))
      ↔ encode 4 8 rs15Tables 4 rs15Generator rs15Codeword = some rs15Codeword) :=
  ⟨rs15_generateLogExp, rs15_primitive, rs15_generator, by decide, by decide,
    syndromes_zero_iff_codeword rs15_generateLogExp rs15_primitive (by decide) (by decide)
      (by decide) rs15_generator (by decide) (by decide)⟩

end ReedSolomon

open Polynomial

namespace ReedSolomon

open GF TablesGenerator

variable {M POLY w : Nat} {T : Tables}

/-- C6.  For every word of `N` field values (with `FCR < N` and the tables generated for a
primitive `POLY`), `compute_syndromes` returns, leaves the word unchanged, stores in
`syndromes[i]`, for each `i < NR`, the sum over `j` in `[0, N)` of
`code[j] * α^((FCR+i)*(N-1-j) mod N)` (`syndromeSum`: XOR of the products taken by
`operator *`, the powers of `α` read from the `exp` table), and returns the number of indices
`i < NR` with `syndromes[i] ≠ 0`, a value in `[0, NR]`. -/
theorem compute_syndromes_formula {NR FCR : Nat} {code : List Nat}
    (hgen : generateLogExp M POLY w = some (T.log, T.exp)) (hprim : Primitive M POLY w)
    (hM : 1 ≤ M) (hFCR : FCR < N M)
    (hlen : code.length = N M) (hval : ∀ j, j < N M → code.getD j 0 < Q M) :
    ∃ syn, compute_syndromes M w T NR FCR code
        = some (code, syn, ((Finset.range NR).filter (fun i => syn.getD i 0 ≠ 0)).card) ∧
      syn.length = NR ∧
      (∀ i, i < NR → syndromeSum M w T FCR code i = some (syn.getD i 0)) ∧
      ((Finset.range NR).filter (fun i => syn.getD i 0 ≠ 0)).card ≤ NR := by
  have hOK := tablesOK_of_generateLogExp hM hprim hgen
  haveI : Fact (FieldOK M POLY w) := ⟨hOK.field⟩
  have hval' := lt_pow_of_lt_Q hval
  set syn := (List.range NR).map (synVal M POLY w FCR (fun j => code.getD j 0) (N M))
    with hsyn
  have hl : syn.length = NR := by simp [hsyn]
  have hcard := nonzeroCount_eq_card syn
  rw [hl] at hcard
  refine ⟨syn, ?_, hl, ?_, ?_⟩
  · rw [compute_syndromes_eq hOK hFCR hlen hval', ← hsyn, hcard]
  · intro i hi
    rw [syndromeSum_eq hOK hlen hval' i]
    simp [hsyn, List.getD_eq_getElem?_getD, hi]
  · rw [← hcard, ← hl]
    exact nonzeroCount_le syn

/-- The hypotheses of `compute_syndromes_formula` hold for RS(15, 11) and the word
`1, ..., 11, 0, 0, 0, 1`, whose syndromes are 1, 10, 13, 1. -/
theorem compute_syndromes_formula_witness :
    generateLogExp 4 0b10011 8 = some (rs15Tables.log, rs15Tables.exp) ∧ Primitive 4 0b10011 8 ∧
    (∀ j, j < N 4 → [1, 2, 3, 4, 5, 6, 7, 8, 9, 10, 11, 0, 0, 0, 1].getD j 0 < Q 4) ∧
    compute_syndromes 4 8 rs15Tables 4 1 [1, 2, 3, 4, 5, 6, 7, 8, 9, 10, 11, 0, 0, 0, 1]
      = some ([1, 2, 3, 4, 5, 6, 7, 8, 9, 10, 11, 0, 0, 0, 1], [1, 10, 13, 1], 4) ∧
    ∃ syn, compute_syndromes 4 8 rs15Tables 4 1 [1, 2, 3, 4, 5, 6, 7, 8, 9, 10, 11, 0, 0, 0, 1]
        = some ([1, 2, 3, 4, 5, 6, 7, 8, 9, 10, 11, 0, 0, 0, 1], syn,
            ((Finset.range 4).filter (fun i => syn.getD i 0 ≠ 0)).card) ∧
      syn.length = 4 ∧
      (∀ i, i < 4 → syndromeSum 4 8 rs15Tables 1
        [1, 2, 3, 4, 5, 6, 7, 8, 9, 10, 11, 0, 0, 0, 1] i = some (syn.getD i 0)) ∧
      ((Finset.range 4).filter (fun i => syn.getD i 0 ≠ 0)).card ≤ 4 :=
  ⟨rs15_generateLogExp, rs15_primitive, by decide, by decide,
    compute_syndromes_formula rs15_generateLogExp rs15_primitive (by decide) (by decide) (by decide)
      (by decide)⟩

/-- C7.  After construction the array `generator` has `NR + 1` entries; for each `k ≤ NR` the
field value `exp[generator[k]]` is the coefficient of `x^k` in
`g(x) = ∏_{i < NR} (x - α^(FCR + i))`, where `α^e` is the field value `exp[e mod N]`; and
`generator[NR]` is the log-index 0 (the leading coefficient is 1). -/
theorem generator_coefficients {NR FCR : Nat} {gen : List Nat} [Fact (FieldOK M POLY w)]
    (hgen : generateLogExp M POLY w = some (T.log, T.exp)) (hN : NR < N M) (hFCR : FCR < N M)
    (hg : generator M w T NR FCR = some gen) :
    gen.length = NR + 1 ∧
    (∀ e, T.exp[e % N M]? = some ((alpha M POLY w) ^ e).val) ∧
    (∀ k, k ≤ NR → ∃ i v, gen[k]? = some i ∧ T.exp[i]? = some v ∧
      v = ((∏ t in Finset.range NR,
              (X - C ((alpha M POLY w) ^ (FCR + t)) : (Elt M POLY w)[X])).coeff k).val) ∧
    gen[NR]? = some 0 := by
  have hF : Fact (FieldOK M POLY w) := inferInstance
  have hOK := tablesOK_of_generateLogExp (one_le_of_lt_N hN) hF.out.prim hgen
  have hpos := N_pos hOK.field.params
  rw [generator_unique hOK hN hFCR hg]
  have hexp : ∀ i, i < N M → T.exp[i]? = some (alphaPow M POLY w i) := by
    intro i hi
    have hq : i < Q M := lt_trans hi (N_lt_Q M)
    rw [hOK.exp]
    simp [expTable, hq, hi]
  refine ⟨by simp [genTable], ?_, ?_, ?_⟩
  · intro e
    rw [hexp _ (Nat.mod_lt _ hpos), alphaPow_mod hOK.field.prim, val_alpha_pow]
  · intro k hk
    have hne : (genPoly M POLY w NR FCR).coeff k ≠ 0 := genPoly_coeff_ne_zero hN hk
    refine ⟨dlog M POLY w ((genPoly M POLY w NR FCR).coeff k).val,
      ((genPoly M POLY w NR FCR).coeff k).val, ?_, ?_, rfl⟩
    · simp [genTable, Nat.lt_succ_of_le hk]
    · rw [hexp _ (dlog_val_lt hne), alphaPow_dlog_val hne]
  · have h1 : (genPoly M POLY w NR FCR).coeff NR = 1 := rootsProd_coeff_self FCR NR
    simp [genTable, h1, dlog_one hOK.field]

/-- The hypotheses of `generator_coefficients` hold for RS(15, 11), whose array `generator`
holds the log-indices 10, 3, 6, 13, 0 of the field values 7, 8, 12, 13, 1. -/
theorem generator_coefficients_witness :
    generateLogExp 4 0b10011 8 = some (rs15Tables.log, rs15Tables.exp) ∧
    generator 4 8 rs15Tables 4 1 = some [10, 3, 6, 13, 0] ∧
    [10, 3, 6, 13, 0].map (fun i => rs15Tables.exp.getD i 0) = [7, 8, 12, 13, 1] ∧
    (∀ k, k ≤ 4 → ∃ i v, [10, 3, 6, 13, 0][k]? = some i ∧ rs15Tables.exp[i]? = some v ∧
      v = ((∏ t in Finset.range 4,
              (X - C ((alpha 4 0b10011 8) ^ (1 + t)) : (Elt 4 0b10011 8)[X])).coeff k).val) :=
  ⟨rs15_generateLogExp, rs15_generator, by decide,
    (generator_coefficients rs15_generateLogExp (by decide) (by decide) rs15_generator).2.2.1⟩

end ReedSolomon

namespace TablesGenerator

open GF

variable {M POLY w : Nat} {T : Tables}

/-- C8.  The tables `log` and `exp` built by `generate` for a primitive `POLY` (by its first
part `generateLogExp`: the walk loop and `assert(1 == a)`; see `generateLogExp_of_generate`)
have `Q` entries each and are inverse to each other: `log[exp[i]] = i` for every `i` in `[0, N)`, `exp[log[v]] = v` for
every `v` in `[1, Q)`, and the sentinels are `log[0] = N` and `exp[N] = 0`. -/
theorem log_exp_consistent (hgen : generateLogExp M POLY w = some (T.log, T.exp))
    (hprim : Primitive M POLY w) (hM : 1 ≤ M) :
    T.log.length = Q M ∧ T.exp.length = Q M ∧
    (∀ i, i < N M → ∃ v, T.exp[i]? = some v ∧ T.log[v]? = some i) ∧
    (∀ v, 1 ≤ v → v < Q M → ∃ i, T.log[v]? = some i ∧ T.exp[i]? = some v) ∧
    T.log[0]? = some (N M) ∧ T.exp[N M]? = some 0 := by
  have hOK := tablesOK_of_generateLogExp hM hprim hgen
  have hp := hOK.field.params
  have hNQ := N_lt_Q M
  have hexp : ∀ i, i < N M → T.exp[i]? = some (alphaPow M POLY w i) := by
    intro i hi
    have hq : i < Q M := lt_trans hi hNQ
    rw [hOK.exp]
    simp [expTable, hq, hi]
  have hlog : ∀ v, v < Q M → T.log[v]? = some (dlog M POLY w v) := by
    intro v hv
    rw [hOK.log]
    simp [logTable, hv]
  refine ⟨by rw [hOK.log]; simp [logTable], by rw [hOK.exp]; simp [expTable], ?_, ?_, ?_, ?_⟩
  · intro i hi
    refine ⟨alphaPow M POLY w i, hexp i hi, ?_⟩
    rw [hlog _ (by rw [Q_eq]; exact alphaPow_lt hp i), dlog_alphaPow hp hprim hi]
  · intro v hv1 hv
    have hv' : v < 2 ^ M := by rwa [Q_eq] at hv
    have hd := dlog_spec hp hprim (by omega : v ≠ 0) hv'
    exact ⟨dlog M POLY w v, hlog v hv, by rw [hexp _ hd.1, hd.2]⟩
  · rw [hlog 0 (Q_pos M), dlog_zero]
  · rw [hOK.exp]
    simp [expTable, hNQ]

/-- The hypotheses of `log_exp_consistent` hold for `M = 4`, `POLY = 0b10011`. -/
theorem log_exp_consistent_witness :
    generateLogExp 4 0b10011 8 = some (rs15Tables.log, rs15Tables.exp) ∧ Primitive 4 0b10011 8 ∧
    rs15Tables.log.length = Q 4 ∧ rs15Tables.exp.length = Q 4 ∧
    (∀ i, i < N 4 → ∃ v, rs15Tables.exp[i]? = some v ∧ rs15Tables.log[v]? = some i) ∧
    (∀ v, 1 ≤ v → v < Q 4 → ∃ i, rs15Tables.log[v]? = some i ∧ rs15Tables.exp[i]? = some v) ∧
    rs15Tables.log[0]? = some (N 4) ∧ rs15Tables.exp[N 4]? = some 0 :=
  ⟨rs15_generateLogExp, rs15_primitive,
    log_exp_consistent rs15_generateLogExp rs15_primitive (by decide)⟩

end TablesGenerator

namespace TablesGenerator

open GF

variable {M POLY w : Nat}

/-- The value `x * x + x` of the Artin–Schreier map, as the second loop of `generate` computes
it from the tables. -/
def asMap (M POLY w x : Nat) : Nat := fmul M POLY w x x ^^^ x

theorem asMap_def (M POLY w x : Nat) : asMap M POLY w x = fmul M POLY w x x ^^^ x := rfl

theorem asMap_lt (h : FieldOK M POLY w) {x : Nat} (hx : x < 2 ^ M) :
    asMap M POLY w x < 2 ^ M :=
  xor_lt (fmul_lt h x x) hx

/-- Two field values with the same image under `x ↦ x * x + x` are equal or differ by 1. -/
theorem asMap_inj (h : FieldOK M POLY w) {a b : Nat} (ha : a < 2 ^ M) (hb : b < 2 ^ M)
    (hab : asMap M POLY w a = asMap M POLY w b) : a = b ∨ a = b ^^^ 1 := by
  haveI : Fact (FieldOK M POLY w) := ⟨h⟩
  let A : Elt M POLY w := ⟨a, ha⟩
  let B : Elt M POLY w := ⟨b, hb⟩
  have hAB : A * A + A = B * B + B := by
    ext
    exact hab
  have h2 : ∀ u : Elt M POLY w, u + u = 0 := Elt.add_self
  have hprod : (A + B) * (A + B + 1) = 0 := by
    have e : (A + B) * (A + B + 1)
        = (A * A + A) + (B * B + B) + (A * B + A * B) := by ring
    rw [e, hAB, h2, h2, add_zero]
  rcases mul_eq_zero.1 hprod with h0 | h0
  · left
    have : A = B := by
      have e : A = (A + B) + B := by
        rw [add_assoc, h2, add_zero]
      rw [e, h0, zero_add]
    exact congrArg Elt.val this
  · right
    have : A = B + 1 := by
      have e : A = (A + B + 1) + (B + 1) := by
        have : (A + B + 1) + (B + 1) = A + (B + B) + (1 + 1) := by ring
        rw [this, h2, h2, add_zero, add_zero]
      rw [e, h0, zero_add]
    exact congrArg Elt.val this

theorem xor_one_odd {b : Nat} (hb : b % 2 = 0) : (b ^^^ 1) % 2 = 1 := by
  have h0 : (b ^^^ 1).testBit 0 = true := by
    rw [Nat.testBit_xor]
    have : b.testBit 0 = false := Nat.mod_two_eq_zero_iff_testBit_zero.1 hb
    rw [this]
    rfl
  exact Nat.mod_two_eq_one_iff_testBit_zero.2 h0

/-- On even values the map `x ↦ x * x + x` is injective. -/
theorem asMap_inj_even (h : FieldOK M POLY w) {a b : Nat} (ha : a < 2 ^ M) (hb : b < 2 ^ M)
    (hae : a % 2 = 0) (hbe : b % 2 = 0) (hab : asMap M POLY w a = asMap M POLY w b) :
    a = b := by
  rcases asMap_inj h ha hb hab with e | e
  · exact e
  · have := xor_one_odd hbe
    rw [← e] at this
    omega

theorem asMap_ne_zero (h : FieldOK M POLY w) {x : Nat} (hx : x < 2 ^ M) (h2 : 2 ≤ x) :
    asMap M POLY w x ≠ 0 := by
  intro h0
  have h1 : asMap M POLY w x = asMap M POLY w 0 := by
    rw [h0]
    simp [asMap, fmul_zero_left]
  rcases asMap_inj h hx (Nat.two_pow_pos M) h1 with e | e
  · omega
  · have : (0 : Nat) ^^^ 1 = 1 := by decide
    omega

/-- The square of a nonzero field value, as `generate` reads it from the tables. -/
theorem alphaPow_two_mul_dlog (h : FieldOK M POLY w) {x : Nat} (hx0 : x ≠ 0) :
    alphaPow M POLY w ((2 * dlog M POLY w x) % N M) = fmul M POLY w x x := by
  rw [alphaPow_mod h.prim, fmul_of_ne h hx0 hx0, Nat.two_mul]

/-- The cell `y` of `Artin_Schreier_imap` after the iterations `x = 2, 4, ..., 2 * k`. -/
def asCell (M POLY w k y : Nat) : Nat :=
  (((List.range k).map (fun t => 2 * t + 2)).find? (fun x => asMap M POLY w x = y)).getD 0

/-- The table `Artin_Schreier_imap` that `generate` prints for a primitive `POLY`. -/
def asTable (M POLY w : Nat) : List Nat :=
  (List.range (N M)).map (asCell M POLY w ((N M - 1) / 2))

theorem asCell_succ (k y : Nat) :
    asCell M POLY w (k + 1) y
      = if asCell M POLY w k y ≠ 0 then asCell M POLY w k y
        else if asMap M POLY w (2 * k + 2) = y then 2 * k + 2 else 0 := by
  unfold asCell
  rw [List.range_succ, List.map_append, List.find?_append]
  cases hf : ((List.range k).map (fun t => 2 * t + 2)).find?
      (fun x => decide (asMap M POLY w x = y)) with
  | some x' =>
    have hm := List.mem_of_find?_eq_some hf
    obtain ⟨t, _, rfl⟩ := List.mem_map.1 hm
    simp
  | none =>
    by_cases hy : asMap M POLY w (2 * k + 2) = y
    · simp [hy]
    · simp [hy]

theorem asCell_eq_zero_or (k y : Nat) :
    asCell M POLY w k y = 0 ∨
      ∃ t, t < k ∧ asCell M POLY w k y = 2 * t + 2 ∧ asMap M POLY w (2 * t + 2) = y := by
  unfold asCell
  cases hf : ((List.range k).map (fun t => 2 * t + 2)).find?
      (fun x => decide (asMap M POLY w x = y)) with
  | none => left; rfl
  | some x' =>
    right
    have hm := List.mem_of_find?_eq_some hf
    have hp := List.find?_some hf
    obtain ⟨t, ht, rfl⟩ := List.mem_map.1 hm
    exact ⟨t, List.mem_range.1 ht, rfl, by simpa using hp⟩

/-- The cell of an even `x = 2 * t + 2` that the loop has visited holds `x`. -/
theorem asCell_of_visited (h : FieldOK M POLY w) {k t : Nat} (ht : t < k)
    (hk : 2 * k < 2 ^ M) :
    asCell M POLY w k (asMap M POLY w (2 * t + 2)) = 2 * t + 2 := by
  rcases @asCell_eq_zero_or M POLY w k (asMap M POLY w (2 * t + 2))
    with h0 | ⟨t', ht', he, hm⟩
  · exfalso
    unfold asCell at h0
    cases hf : ((List.range k).map (fun t => 2 * t + 2)).find?
        (fun x => decide (asMap M POLY w x = asMap M POLY w (2 * t + 2))) with
    | none =>
      rw [List.find?_eq_none] at hf
      have := hf (2 * t + 2) (List.mem_map.2 ⟨t, List.mem_range.2 ht, rfl⟩)
      simp at this
    | some x' =>
      rw [hf] at h0
      have hm := List.mem_of_find?_eq_some hf
      obtain ⟨t', _, rfl⟩ := List.mem_map.1 hm
      simp at h0
  · rw [he]
    exact asMap_inj_even h (by omega) (by omega) (by omega) (by omega) hm

theorem artinSchreierStep_eq (h : FieldOK M POLY w)
    (htop : ∀ x, x < 2 ^ M → asMap M POLY w x ≠ N M) {k : Nat} (hk : 2 * k + 2 < N M) :
    artinSchreierStep M w (logTable M POLY w) (expTable M POLY w) (2 * k + 2)
        ((List.range (N M)).map (asCell M POLY w k))
      = some ((List.range (N M)).map (asCell M POLY w (k + 1))) := by
  have hp := h.params
  have hN := N_lt M
  have hNs := N_succ M
  have hQ := Q_eq M
  have hx : 2 * k + 2 < 2 ^ M := by omega
  have hx0 : 2 * k + 2 ≠ 0 := by omega
  have hd := dlog_spec hp h.prim hx0 hx
  have hy_lt : asMap M POLY w (2 * k + 2) < N M := by
    have h1 := asMap_lt h hx
    have h2 := htop _ hx
    omega
  have hy0 : asMap M POLY w (2 * k + 2) ≠ 0 := asMap_ne_zero h hx (by omega)
  unfold artinSchreierStep
  have r1 : rd (logTable M POLY w) (2 * k + 2) = some (dlog M POLY w (2 * k + 2)) := by
    simp [rd, logTable, hQ, hx]
  have hidx : (2 * dlog M POLY w (2 * k + 2)) % N M < N M := Nat.mod_lt _ (N_pos hp)
  have r2 : rd (expTable M POLY w) ((2 * dlog M POLY w (2 * k + 2)) % N M)
      = some (fmul M POLY w (2 * k + 2) (2 * k + 2)) := by
    have hq : (2 * dlog M POLY w (2 * k + 2)) % N M < Q M := by omega
    rw [← alphaPow_two_mul_dlog h hx0]
    simp [rd, expTable, hq, hidx]
  simp only [r1, r2, Option.bind_eq_bind, Option.some_bind]
  have e1 : fmul M POLY w (2 * k + 2) (2 * k + 2) ^^^ (2 * k + 2) = asMap M POLY w (2 * k + 2) :=
    rfl
  rw [e1, if_neg hy0, rd_map_range _ hy_lt, Option.some_bind]
  have hold : asCell M POLY w k (asMap M POLY w (2 * k + 2)) = 0 := by
    rcases @asCell_eq_zero_or M POLY w k (asMap M POLY w (2 * k + 2))
      with h0 | ⟨t, ht, _, hm⟩
    · exact h0
    · exfalso
      have := asMap_inj_even h (by omega : 2 * t + 2 < 2 ^ M) hx (by omega) (by omega) hm
      omega
  rw [if_neg (by simp [hold]), toTYPE_of_lt_Q hp hx, store_map_range _ _ hy_lt]
  congr 1
  apply map_range_congr
  intro y _
  rw [asCell_succ]
  by_cases hyy : y = asMap M POLY w (2 * k + 2)
  · subst hyy
    simp [hold]
  · have hne : ¬ asMap M POLY w (2 * k + 2) = y := fun e => hyy e.symm
    rw [if_neg hyy, if_neg hne]
    by_cases hz : asCell M POLY w k y = 0
    · simp [hz]
    · simp [hz]

theorem fillArtinSchreier_eq (h : FieldOK M POLY w)
    (htop : ∀ x, x < 2 ^ M → asMap M POLY w x ≠ N M) :
    fillArtinSchreier M w (logTable M POLY w) (expTable M POLY w)
      = some (asTable M POLY w) := by
  unfold fillArtinSchreier
  obtain ⟨s, hs, hP⟩ := forEven_inv (N M)
    (artinSchreierStep M w (logTable M POLY w) (expTable M POLY w))
    (fun k imap => imap = (List.range (N M)).map (asCell M POLY w k))
    (List.replicate (N M) 0)
    (by
      rw [replicate_eq_map_range]
      apply map_range_congr
      intro y _
      simp [asCell])
    (by
      intro k imap hk himap
      subst himap
      exact ⟨_, artinSchreierStep_eq h htop hk, rfl⟩)
  rw [hs, hP]
  rfl

/-- For a primitive `POLY` such that no field value `x` has `x * x + x = N`, `generate`
returns, and prints the three tables `logTable`, `expTable` and `asTable`. -/
theorem generate_eq (h : FieldOK M POLY w)
    (htop : ∀ x, x < 2 ^ M → asMap M POLY w x ≠ N M) :
    generate M POLY w = some ⟨logTable M POLY w, expTable M POLY w, asTable M POLY w⟩ := by
  unfold generate
  rw [generateLogExp_eq h.params h.prim]
  simp only [Option.bind_eq_bind, Option.some_bind, fillArtinSchreier_eq h htop,
    Option.pure_def]

end TablesGenerator

/-! ## The field of RS(65535, 65471): `M = 16`, `POLY = 0b10001000000001011`, `uint16_t` -/

namespace TablesGenerator

open GF

/-- The walk of `generate` for `n` steps from `a`, checked: `none` when the walk meets 1 before
the last step, else the value reached. -/
def walk1 (M POLY w : Nat) : Nat → Nat → Option Nat
  | 0, a => some a
  | n + 1, a => if a == 1 then none else walk1 M POLY w n (next M POLY w a)

theorem walk1_append {M POLY w : Nat} (n m : Nat) {a b c : Nat}
    (h1 : walk1 M POLY w n a = some b) (h2 : walk1 M POLY w m b = some c) :
    walk1 M POLY w (n + m) a = some c := by
  induction n generalizing a with
  | zero =>
    simp only [walk1, Option.some.injEq] at h1
    subst h1
    simpa using h2
  | succ n ih =>
    rw [Nat.succ_add]
    unfold walk1 at h1 ⊢
    split at h1
    · exact absurd h1 (by simp)
    · rename_i hne
      rw [if_neg hne]
      exact ih h1

theorem walk1_spec {M POLY w : Nat} (n : Nat) {i b : Nat}
    (h : walk1 M POLY w n (alphaPow M POLY w i) = some b) :
    b = alphaPow M POLY w (i + n) ∧ ∀ k, k < n → alphaPow M POLY w (i + k) ≠ 1 := by
  induction n generalizing i with
  | zero =>
    simp only [walk1, Option.some.injEq] at h
    exact ⟨h.symm, fun k hk => absurd hk (Nat.not_lt_zero k)⟩
  | succ n ih =>
    unfold walk1 at h
    split at h
    · exact absurd h (by simp)
    · rename_i hne
      rw [← alphaPow_succ] at h
      have := ih h
      refine ⟨by rw [this.1]; congr 1; omega, ?_⟩
      intro k hk
      cases k with
      | zero => simpa using hne
      | succ k =>
        have := this.2 k (by omega)
        rwa [show i + 1 + k = i + (k + 1) by omega] at this

theorem rs65535_chunk0 : walk1 16 0b10001000000001011 16 4096 2 = some 13902 := by decide!
theorem rs65535_chunk1 : walk1 16 0b10001000000001011 16 4096 13902 = some 6858 := by decide!
theorem rs65535_chunk2 : walk1 16 0b10001000000001011 16 4096 6858 = some 39648 := by decide!
theorem rs65535_chunk3 : walk1 16 0b10001000000001011 16 4096 39648 = some 44186 := by decide!
theorem rs65535_chunk4 : walk1 16 0b10001000000001011 16 4096 44186 = some 11338 := by decide!
theorem rs65535_chunk5 : walk1 16 0b10001000000001011 16 4096 11338 = some 59845 := by decide!
theorem rs65535_chunk6 : walk1 16 0b10001000000001011 16 4096 59845 = some 51691 := by decide!
theorem rs65535_chunk7 : walk1 16 0b10001000000001011 16 4096 51691 = some 61831 := by decide!
theorem rs65535_chunk8 : walk1 16 0b10001000000001011 16 4096 61831 = some 54843 := by decide!
theorem rs65535_chunk9 : walk1 16 0b10001000000001011 16 4096 54843 = some 40570 := by decide!
theorem rs65535_chunk10 : walk1 16 0b10001000000001011 16 4096 40570 = some 40326 := by decide!
theorem rs65535_chunk11 : walk1 16 0b10001000000001011 16 4096 40326 = some 44200 := by decide!
theorem rs65535_chunk12 : walk1 16 0b10001000000001011 16 4096 44200 = some 60546 := by decide!
theorem rs65535_chunk13 : walk1 16 0b10001000000001011 16 4096 60546 = some 39412 := by decide!
theorem rs65535_chunk14 : walk1 16 0b10001000000001011 16 4096 39412 = some 64116 := by decide!
theorem rs65535_chunk15 : walk1 16 0b10001000000001011 16 4094 64116 = some 1 := by decide!
theorem rs65535_to_x : walk1 16 0b10001000000001011 16 3517 59845 = some 52726 := by decide!
theorem rs65535_to_xx : walk1 16 0b10001000000001011 16 2939 60546 = some 12809 := by decide!

theorem rs65535_alphaPow_one : alphaPow 16 0b10001000000001011 16 1 = 2 := by decide

/-- The walk from `α` reaches 59845 after 24576 steps without meeting 1. -/
theorem rs65535_walk_a : walk1 16 0b10001000000001011 16 24576 2 = some 59845 :=
  walk1_append 20480 4096 (walk1_append 16384 4096 (walk1_append 12288 4096
    (walk1_append 8192 4096 (walk1_append 4096 4096 rs65535_chunk0 rs65535_chunk1)
      rs65535_chunk2) rs65535_chunk3) rs65535_chunk4) rs65535_chunk5

/-- The walk from `α` reaches 60546 after 53248 steps without meeting 1. -/
theorem rs65535_walk_b : walk1 16 0b10001000000001011 16 53248 2 = some 60546 :=
  walk1_append 49152 4096 (walk1_append 45056 4096 (walk1_append 40960 4096
    (walk1_append 36864 4096 (walk1_append 32768 4096 (walk1_append 28672 4096
      (walk1_append 24576 4096 rs65535_walk_a rs65535_chunk6) rs65535_chunk7) rs65535_chunk8)
        rs65535_chunk9) rs65535_chunk10) rs65535_chunk11) rs65535_chunk12

/-- The walk from `α` returns to 1 after 65534 steps and not before. -/
theorem rs65535_walk : walk1 16 0b10001000000001011 16 65534 2 = some 1 :=
  walk1_append 61440 4094 (walk1_append 57344 4096 (walk1_append 53248 4096
    rs65535_walk_b rs65535_chunk13) rs65535_chunk14) rs65535_chunk15

theorem rs65535_N : N 16 = 65535 := by decide

/-- `POLY = 0b10001000000001011` is primitive. -/
theorem rs65535_primitive : Primitive 16 0b10001000000001011 16 := by
  have h := rs65535_walk
  rw [← rs65535_alphaPow_one] at h
  have hs := walk1_spec 65534 h
  refine ⟨?_, ?_⟩
  · rw [rs65535_N]
    exact hs.1.symm
  · intro i hi h0
    rw [rs65535_N] at hi
    have := hs.2 (i - 1) (by omega)
    rwa [show 1 + (i - 1) = i by omega] at this

theorem rs65535_fieldOK : FieldOK 16 0b10001000000001011 16 :=
  ⟨⟨by decide, by decide, by decide⟩, rs65535_primitive⟩

/-- The even field value 52726 is `α^28094`. -/
theorem rs65535_alphaPow_x : alphaPow 16 0b10001000000001011 16 28094 = 52726 := by
  have h := walk1_append 24576 3517 rs65535_walk_a rs65535_to_x
  rw [← rs65535_alphaPow_one] at h
  exact (walk1_spec _ h).1.symm

/-- The square of 52726 is `α^56188 = 12809`. -/
theorem rs65535_alphaPow_xx : alphaPow 16 0b10001000000001011 16 56188 = 12809 := by
  have h := walk1_append 53248 2939 rs65535_walk_b rs65535_to_xx
  rw [← rs65535_alphaPow_one] at h
  exact (walk1_spec _ h).1.symm

end TablesGenerator

/-- A loop over the even numbers fails when one of its iterations fails on every state that
the iterations before it can produce. -/
theorem forEven_eq_none {σ : Type} (hi : Nat) (body : Nat → σ → Option σ) (P : σ → Prop)
    (s : σ) (h0 : P s) (hpres : ∀ x s s', P s → body x s = some s' → P s')
    (k0 : Nat) (hk0 : 2 * k0 + 2 < hi) (hfail : ∀ s, P s → body (2 * k0 + 2) s = none) :
    forEven hi body s = none := by
  unfold forEven
  have hmem : 2 * k0 + 2 ∈ (List.range ((hi - 1) / 2)).map (fun k => 2 * k + 2) :=
    List.mem_map.2 ⟨k0, List.mem_range.2 (by omega), rfl⟩
  have key : ∀ (l : List Nat), 2 * k0 + 2 ∈ l → ∀ s, P s →
      List.foldlM (fun s x => body x s) s l = none := by
    intro l
    induction l with
    | nil => intro hm; exact absurd hm (List.not_mem_nil _)
    | cons x l ih =>
      intro hm s hs
      rw [List.foldlM_cons]
      cases hb : body x s with
      | none => rfl
      | some s1 =>
        rcases List.mem_cons.1 hm with e | hm'
        · rw [← e, hfail s hs] at hb
          exact absurd hb (by simp)
        · exact ih hm' s1 (hpres x s s1 hs hb)
  exact key _ hmem s h0

namespace TablesGenerator

open GF

variable {M POLY w : Nat}

theorem artinSchreierStep_length {log exp imap imap' : List Nat} {x : Nat}
    (h : artinSchreierStep M w log exp x imap = some imap') : imap'.length = imap.length := by
  unfold artinSchreierStep at h
  simp only [Option.bind_eq_bind, Option.bind_eq_some] at h
  obtain ⟨l, _, e, _, h⟩ := h
  split at h
  · exact absurd h (by simp)
  · simp only [Option.bind_eq_some] at h
    obtain ⟨old, _, h⟩ := h
    split at h
    · exact absurd h (by simp)
    · unfold store at h
      split at h
      · simp only [Option.some.injEq] at h
        rw [← h, List.length_set]
      · exact absurd h (by simp)

theorem rd_logTable {x : Nat} (hx : x < 2 ^ M) :
    rd (logTable M POLY w) x = some (dlog M POLY w x) := by
  have hQ := Q_eq M
  simp [rd, logTable, hQ, hx]

theorem rd_expTable {i : Nat} (hi : i < N M) :
    rd (expTable M POLY w) i = some (alphaPow M POLY w i) := by
  have hq : i < Q M := lt_trans hi (N_lt_Q M)
  simp [rd, expTable, hq, hi]

/-- The second loop of `generate` fails when an even `x` in `[2, N)` has `x * x + x = N`: the
index `xxx` is `N`, one past the last cell of `Artin_Schreier_imap`. -/
theorem generate_eq_none (h : FieldOK M POLY w) {x : Nat} (h2 : 2 ≤ x) (hx : x < N M)
    (hev : x % 2 = 0) (htop : asMap M POLY w x = N M) :
    (∀ imap : List Nat, imap.length = N M →
      artinSchreierStep M w (logTable M POLY w) (expTable M POLY w) x imap = none) ∧
    generate M POLY w = none := by
  have hp := h.params
  have hN := N_lt M
  have hQ := Q_eq M
  have hx' : x < 2 ^ M := by omega
  have hx0 : x ≠ 0 := by omega
  have hidx : (2 * dlog M POLY w x) % N M < N M := Nat.mod_lt _ (N_pos hp)
  have r1 : rd (logTable M POLY w) x = some (dlog M POLY w x) := by
    simp [rd, logTable, hQ, hx']
  have r2 : rd (expTable M POLY w) ((2 * dlog M POLY w x) % N M)
      = some (fmul M POLY w x x) := by
    have hq : (2 * dlog M POLY w x) % N M < Q M := by omega
    rw [← alphaPow_two_mul_dlog h hx0]
    simp [rd, expTable, hq, hidx]
  have hstep : ∀ imap : List Nat, imap.length = N M →
      artinSchreierStep M w (logTable M POLY w) (expTable M POLY w) x imap = none := by
    intro imap hlen
    unfold artinSchreierStep
    simp only [r1, r2, Option.bind_eq_bind, Option.some_bind]
    have e1 : fmul M POLY w x x ^^^ x = N M := htop
    have hN0 : N M ≠ 0 := by omega
    have r3 : rd imap (N M) = none := by
      unfold rd
      rw [List.getElem?_eq_none (by omega)]
    rw [e1, if_neg hN0, r3]
    rfl
  refine ⟨hstep, ?_⟩
  unfold generate
  rw [generateLogExp_eq hp h.prim]
  simp only [Option.bind_eq_bind, Option.some_bind]
  have hloop : fillArtinSchreier M w (logTable M POLY w) (expTable M POLY w) = none := by
    unfold fillArtinSchreier
    obtain ⟨k0, rfl⟩ : ∃ k0, x = 2 * k0 + 2 := ⟨(x - 2) / 2, by omega⟩
    exact forEven_eq_none (N M) _ (fun imap => imap.length = N M) _ (by simp)
      (fun x s s' hs hb => (artinSchreierStep_length hb).trans hs) k0 hx hstep
  rw [hloop]
  rfl

/-- C9, the field of RS(65535, 65471) that `main` generates.  For the even `x = 52726` the
tables hold `log[x] = 28094` and `exp[(2*log[x]) mod N] = 12809`, so the index
`exp[(2*log[x]) mod N] XOR x` is `65535 = N`: it is not below `N`, the read and the write of
`Artin_Schreier_imap[N]` are outside the array of `N` cells, and `generate` fails. -/
theorem rs65535_artin_schreier_overflow :
    ∃ log exp, generateLogExp 16 0b10001000000001011 16 = some (log, exp) ∧
      2 ≤ 52726 ∧ 52726 < N 16 ∧ 52726 % 2 = 0 ∧
      rd log 52726 = some 28094 ∧ rd exp ((2 * 28094) % N 16) = some 12809 ∧
      12809 ^^^ 52726 = N 16 ∧
      (∀ imap : List Nat, imap.length = N 16 →
        artinSchreierStep 16 16 log exp 52726 imap = none) ∧
      generate 16 0b10001000000001011 16 = none := by
  have h := rs65535_fieldOK
  have hx : alphaPow 16 0b10001000000001011 16 28094 = 52726 := rs65535_alphaPow_x
  have hxx : alphaPow 16 0b10001000000001011 16 56188 = 12809 := rs65535_alphaPow_xx
  have hN : N 16 = 65535 := rs65535_N
  have hd : dlog 16 0b10001000000001011 16 52726 = 28094 := by
    rw [← hx]
    exact dlog_alphaPow h.params h.prim (by rw [hN]; decide)
  have he : (2 * 28094) % 65535 = 56188 := by decide
  have hsq : fmul 16 0b10001000000001011 16 52726 52726 = 12809 := by
    rw [← alphaPow_two_mul_dlog h (by decide), hd, hN, he]
    exact hxx
  have hxor : (12809 : Nat) ^^^ 52726 = 65535 := by decide
  have htop : asMap 16 0b10001000000001011 16 52726 = N 16 := by
    rw [asMap_def, hsq, hN]
    exact hxor
  have hfail := generate_eq_none h (x := 52726) (by decide) (by rw [hN]; decide) (by decide) htop
  refine ⟨_, _, generateLogExp_eq h.params h.prim, by decide, by rw [hN]; decide, by decide,
    ?_, ?_, by rw [hN]; exact hxor, hfail.1, hfail.2⟩
  · rw [← hd]
    exact rd_logTable (by decide)
  · rw [hN, he, ← hxx]
    exact rd_expTable (by rw [hN]; decide)

end TablesGenerator

namespace TablesGenerator

open GF

variable {M POLY w : Nat}

/-- The walk of `generate` for `n` steps from `a = α^i`, together with the walk of the squares
from `b = α^(2 i)`, checked: `none` when `a` is 1 or `b XOR a` is `N` at one of the steps. -/
def walk2 (M POLY w : Nat) : Nat → Nat → Nat → Option (Nat × Nat)
  | 0, a, b => some (a, b)
  | n + 1, a, b =>
    if a == 1 || (b ^^^ a) == N M then none
    else walk2 M POLY w n (next M POLY w a) (next M POLY w (next M POLY w b))

theorem walk2_spec (n : Nat) {i : Nat} {r : Nat × Nat}
    (h : walk2 M POLY w n (alphaPow M POLY w i) (alphaPow M POLY w (2 * i)) = some r) :
    r.1 = alphaPow M POLY w (i + n) ∧
      ∀ k, k < n → alphaPow M POLY w (i + k) ≠ 1 ∧
        alphaPow M POLY w (2 * (i + k)) ^^^ alphaPow M POLY w (i + k) ≠ N M := by
  induction n generalizing i with
  | zero =>
    simp only [walk2, Option.some.injEq] at h
    exact ⟨by rw [← h]; rfl, fun k hk => absurd hk (Nat.not_lt_zero k)⟩
  | succ n ih =>
    unfold walk2 at h
    split at h
    · exact absurd h (by simp)
    · rename_i hne
      simp only [Bool.or_eq_true, beq_iff_eq, not_or] at hne
      rw [← alphaPow_succ, ← alphaPow_succ, ← alphaPow_succ,
        show 2 * i + 1 + 1 = 2 * (i + 1) by omega] at h
      have := ih h
      refine ⟨by rw [this.1]; congr 1; omega, ?_⟩
      intro k hk
      cases k with
      | zero => exact ⟨hne.1, hne.2⟩
      | succ k =>
        have := this.2 k (by omega)
        rwa [show i + 1 + k = i + (k + 1) by omega] at this

/-- A checked walk over the `N - 1` steps from `α` that ends in 1 shows that `POLY` is
primitive and that no field value `x` has `x * x + x = N`. -/
theorem fieldOK_of_walk2 (hp : Params M POLY w) {b : Nat}
    (h : walk2 M POLY w (N M - 1) (alphaPow M POLY w 1) (alphaPow M POLY w (2 * 1))
      = some (1, b)) :
    FieldOK M POLY w ∧ ∀ x, x < 2 ^ M → asMap M POLY w x ≠ N M := by
  have hN := N_pos hp
  have hs := walk2_spec _ h
  have hprim : Primitive M POLY w := by
    refine ⟨?_, ?_⟩
    · have := hs.1
      rw [show 1 + (N M - 1) = N M by omega] at this
      exact this.symm
    · intro i hi h0
      have := (hs.2 (i - 1) (by omega)).1
      rwa [show 1 + (i - 1) = i by omega] at this
  have hF : FieldOK M POLY w := ⟨hp, hprim⟩
  refine ⟨hF, ?_⟩
  intro x hx
  by_cases hx0 : x = 0
  · rw [hx0, asMap_def, fmul_zero_left]
    simp
    omega
  · obtain ⟨hd, he⟩ := dlog_spec hp hprim hx0 hx
    by_cases hd0 : dlog M POLY w x = 0
    · have hx1 : x = 1 := by
        rw [← he, hd0]; rfl
      rw [hx1, asMap_def, fmul_one hF (one_lt_Q hp), Nat.xor_self]
      omega
    · have := (hs.2 (dlog M POLY w x - 1) (by omega)).2
      rw [show 1 + (dlog M POLY w x - 1) = dlog M POLY w x by omega] at this
      rw [asMap_def, fmul_of_ne hF hx0 hx0, ← Nat.two_mul]
      rwa [he] at this

/-- When no field value `x` has `x * x + x = N`: `generate` returns, and for every even `x` in
`[2, N)` the index `y = exp[(2*log[x]) mod N] XOR x` is in `[1, N)`, the finished table holds
`Artin_Schreier_imap[y] = x`, and no other even `x'` in `[2, N)` has the same index. -/
theorem artin_schreier_filled (h : FieldOK M POLY w)
    (htop : ∀ x, x < 2 ^ M → asMap M POLY w x ≠ N M) :
    ∃ T, generate M POLY w = some T ∧
      ∀ x, 2 ≤ x → x < N M → x % 2 = 0 →
        ∃ l e, rd T.log x = some l ∧ rd T.exp ((2 * l) % N M) = some e ∧
          1 ≤ e ^^^ x ∧ e ^^^ x < N M ∧ rd T.Artin_Schreier_imap (e ^^^ x) = some x ∧
          ∀ x' l' e', 2 ≤ x' → x' < N M → x' % 2 = 0 → rd T.log x' = some l' →
            rd T.exp ((2 * l') % N M) = some e' → e' ^^^ x' = e ^^^ x → x' = x := by
  have hp := h.params
  have hN := N_lt M
  have hNs : N M + 1 = 2 ^ M := by rw [N_succ, Q_eq]
  have key : ∀ x, 2 ≤ x → x < N M →
      rd (logTable M POLY w) x = some (dlog M POLY w x) ∧
      rd (expTable M POLY w) ((2 * dlog M POLY w x) % N M) = some (fmul M POLY w x x) := by
    intro x h2 hx
    refine ⟨rd_logTable (by omega), ?_⟩
    rw [rd_expTable (Nat.mod_lt _ (N_pos hp)), alphaPow_two_mul_dlog h (by omega)]
  refine ⟨_, generate_eq h htop, ?_⟩
  intro x h2 hx hev
  have hx' : x < 2 ^ M := by omega
  have hy1 := asMap_ne_zero h hx' h2
  have hy2 := asMap_lt h hx'
  have hy3 := htop x hx'
  refine ⟨_, _, (key x h2 hx).1, (key x h2 hx).2, ?_, ?_, ?_, ?_⟩
  · exact Nat.pos_of_ne_zero hy1
  · rw [← asMap_def]; omega
  · rw [← asMap_def]
    obtain ⟨t, rfl⟩ : ∃ t, x = 2 * t + 2 := ⟨(x - 2) / 2, by omega⟩
    show rd (asTable M POLY w) _ = _
    unfold asTable
    rw [rd_map_range _ (by omega)]
    congr 1
    exact asCell_of_visited h (by omega) (by omega)
  · intro x' l' e' h2' hx2 hev' hl' he' hsame
    rw [(key x' h2' hx2).1] at hl'
    have hl'' := Option.some.inj hl'
    subst hl''
    rw [(key x' h2' hx2).2] at he'
    have he'' := Option.some.inj he'
    subst he''
    exact asMap_inj_even h (by omega) hx' hev' hev hsame

theorem rs15_walk2 : walk2 4 0b10011 8 14 2 4 = some (1, 1) := by decide

theorem rs255_walk2 : walk2 8 0b100011101 8 254 2 4 = some (1, 1) := by decide!

/-- C9 for the two fields of `main` with `TYPE = uint8_t`, `M = 4` with `POLY = 0b10011` and
`M = 8` with `POLY = 0b100011101`: `generate` returns (no assertion fires, every access is in
bounds), and for every even `x` in `[2, N)` the index `y = exp[(2*log[x]) mod N] XOR x` is in
`[1, N)`, the finished table holds `Artin_Schreier_imap[y] = x`, and distinct even `x` have
distinct `y`. -/
theorem artin_schreier_uint8 (M POLY : Nat)
    (hM : (M = 4 ∧ POLY = 0b10011) ∨ (M = 8 ∧ POLY = 0b100011101)) :
    ∃ T, generate M POLY 8 = some T ∧
      ∀ x, 2 ≤ x → x < N M → x % 2 = 0 →
        ∃ l e, rd T.log x = some l ∧ rd T.exp ((2 * l) % N M) = some e ∧
          1 ≤ e ^^^ x ∧ e ^^^ x < N M ∧ rd T.Artin_Schreier_imap (e ^^^ x) = some x ∧
          ∀ x' l' e', 2 ≤ x' → x' < N M → x' % 2 = 0 → rd T.log x' = some l' →
            rd T.exp ((2 * l') % N M) = some e' → e' ^^^ x' = e ^^^ x → x' = x := by
  rcases hM with ⟨rfl, rfl⟩ | ⟨rfl, rfl⟩
  · have hp : Params 4 0b10011 8 := ⟨by decide, by decide, by decide⟩
    have h := fieldOK_of_walk2 hp (b := 1) rs15_walk2
    exact artin_schreier_filled h.1 h.2
  · have hp : Params 8 0b100011101 8 := ⟨by decide, by decide, by decide⟩
    have h := fieldOK_of_walk2 hp (b := 1) rs255_walk2
    exact artin_schreier_filled h.1 h.2

end TablesGenerator

namespace GF

open TablesGenerator

variable {M POLY w : Nat} {T : Tables}

/-- `rcp(1)` computes the index `N - log[1] = N`, the sentinel, and the assertion of `value`
fails. -/
theorem rcp_one_eq_none (h : TablesOK M POLY w T) : rcp M w T 1 = none := by
  have h1 : (1 : Nat) < 2 ^ M := one_lt_Q h.field.params
  unfold rcp
  rw [if_neg (by decide), index_eq h h1, dlog_one h.field]
  simp only [Option.bind_eq_bind, Option.some_bind, Nat.sub_zero]
  have e : toTYPE w (modulus M w) = modulus M w := by
    rw [modulus_eq h]
    exact toTYPE_of_lt_Q h.field.params (N_lt M)
  rw [e]
  unfold value
  rw [if_pos rfl]

/-- For a field value other than 0 and 1, `rcp` returns the reciprocal. -/
theorem rcp_mul_of_ne_one (h : TablesOK M POLY w T) {a : Nat} (ha0 : a ≠ 0) (ha1 : a ≠ 1)
    (ha : a < 2 ^ M) :
    ∃ r, rcp M w T a = some r ∧ mulVV M w T a r = some 1 := by
  have hp := h.field.params
  have hd := dlog_spec hp h.field.prim ha0 ha
  have hd0 : dlog M POLY w a ≠ 0 := by
    intro e
    have := hd.2
    rw [e] at this
    exact ha1 this.symm
  have hlt : N M - dlog M POLY w a < N M := by omega
  refine ⟨finv M POLY w a, ?_, ?_⟩
  · unfold rcp
    rw [if_neg ha0, index_eq h ha]
    simp only [Option.bind_eq_bind, Option.some_bind]
    rw [modulus_eq h, toTYPE_of_lt_Q hp (lt_trans hlt (N_lt M)), value_eq h hlt]
    unfold finv
    rw [if_neg ha0, alphaPow_mod h.field.prim]
  · rw [mulVV_eq h ha (finv_lt h.field a), fmul_finv h.field ha0 ha]

end GF

/-- C10, the failing input `a = 1` in the field of RS(15, 11).  `rcp(1)` reads `log[1] = 0`,
forms the index `N - 0 = N`, which is `modulus()`, and `value` is called on it: its assertion
`a.i != a.modulus()` fails, so `rcp(1)` has no result.  With the assertion compiled out the
table gives `exp[N] = 0`, and `1 * 0 = 0`, not 1. -/
theorem rcp_one_assertion_fails :
    GF.index rs15Tables 1 = some 0 ∧
    toTYPE 8 (GF.modulus 4 8 - 0) = GF.modulus 4 8 ∧
    GF.value 4 8 rs15Tables (GF.modulus 4 8) = none ∧
    GF.rcp 4 8 rs15Tables 1 = none ∧
    rd rs15Tables.exp (GF.modulus 4 8) = some 0 ∧
    GF.mulVV 4 8 rs15Tables 1 0 = some 0 := by
  decide

open Polynomial

namespace GF

open TablesGenerator

variable {M POLY w : Nat} {T : Tables}

/-- The quotient of two field values, as the tables of a primitive `POLY` compute it. -/
def fdiv (M POLY w a b : Nat) : Nat :=
  if a = 0 then 0 else alphaPow M POLY w ((dlog M POLY w a + N M - dlog M POLY w b) % N M)

theorem divVV_eq (h : TablesOK M POLY w T) {a b : Nat} (ha : a < 2 ^ M) (hb0 : b ≠ 0)
    (hb : b < 2 ^ M) : divVV M w T a b = some (fdiv M POLY w a b) := by
  unfold divVV fdiv
  rw [if_neg hb0]
  by_cases ha0 : a = 0
  · rw [if_pos ha0, if_pos ha0]
  · rw [if_neg ha0, if_neg ha0]
    have da := dlog_spec h.field.params h.field.prim ha0 ha
    have db := dlog_spec h.field.params h.field.prim hb0 hb
    simp only [index_eq h ha, index_eq h hb, Option.bind_eq_bind, Option.some_bind]
    rw [divII_eq h da.1 db.1, Option.some_bind,
      value_eq h (Nat.mod_lt _ (N_pos h.field.params))]

theorem fdiv_one (h : FieldOK M POLY w) {a : Nat} (ha : a < 2 ^ M) : fdiv M POLY w a 1 = a := by
  unfold fdiv
  by_cases ha0 : a = 0
  · rw [if_pos ha0, ha0]
  · rw [if_neg ha0, dlog_one h, Nat.sub_zero, alphaPow_mod h.prim, alphaPow_add_N h.prim]
    exact (dlog_spec h.params h.prim ha0 ha).2

end GF

namespace ReedSolomon

open GF TablesGenerator

variable {M POLY w : Nat} {T : Tables}

theorem locatorSeed_no_erasures (M w : Nat) (T : Tables) (NR : Nat) (hw : 1 < 2 ^ w) :
    locatorSeed M w T NR [] 0 = some (1 :: List.replicate NR 0) := by
  have h1 : toTYPE w 1 = 1 := toTYPE_of_lt hw
  have h0 : toTYPE w 0 = 0 := by simp [toTYPE]
  unfold locatorSeed
  simp [h1, h0, forUp]

/-- In the branch `locator_degree == 2`, the locator `1 + x + N x^2` makes the index handed to
`Artin_Schreier_imap` equal to `N`, which is outside a table of `N` entries. -/
theorem locationsDegree2_overflow (h : TablesOK M POLY w T)
    (hAS : T.Artin_Schreier_imap.length = N M) (hN : 2 ≤ N M) (rest : List Nat) :
    locationsDegree2 M w T (1 :: 1 :: N M :: rest) = none := by
  have hf := h.field
  have h1 : (1 : Nat) < 2 ^ M := one_lt_Q hf.params
  have hNlt := N_lt M
  have hN0 : N M ≠ 0 := by omega
  unfold locationsDegree2
  simp only [GF.Artin_Schreier_imap, rd, List.getElem?_cons_zero, List.getElem?_cons_succ, Option.bind_eq_bind,
    Option.some_bind]
  rw [if_neg (by decide)]
  rw [divVV_eq h h1 hN0 hNlt, mulVV_eq h hNlt h1, mulVV_eq h h1 h1]
  simp only [Option.some_bind]
  rw [fmul_one hf hNlt, fmul_one hf h1, divVV_eq h hNlt (by decide) h1, Option.some_bind,
    fdiv_one hf hNlt, List.getElem?_eq_none (by omega)]
  rfl

/-- With no erasures, when Berlekamp–Massey returns the locator `1 + x + N x^2` with degree 2,
`correct` reads `Artin_Schreier_imap[N]`, outside the table. -/
theorem correct_overflow (h : TablesOK M POLY w T)
    (hAS : T.Artin_Schreier_imap.length = N M) {NR : Nat} (hNR : 2 ≤ NR) (hN : 2 ≤ N M)
    (BerlekampMassey : List Nat → List Nat → Int → Option (List Nat × Int))
    (Chien : List Nat → Nat → Option (List Nat × Int))
    (Forney : List Nat → List Nat → List Nat → Int → Option (List Nat × List Nat × Int))
    (code syn rest : List Nat)
    (hBM : BerlekampMassey syn (1 :: List.replicate NR 0) 0
      = some (1 :: 1 :: N M :: rest, 2)) :
    correct M w T NR BerlekampMassey Chien Forney code syn [] 0 = none := by
  have hw : 1 < 2 ^ w := lt_of_lt_of_le (one_lt_Q h.field.params) (pow_le_w h.field.params)
  have h1 : toTYPE w 1 = 1 := toTYPE_of_lt hw
  have hN0 : N M ≠ 0 := by omega
  unfold correct
  rw [if_neg (by simp)]
  simp only [Int.toNat_zero, locatorSeed_no_erasures M w T NR hw, hBM, Option.bind_eq_bind,
    Option.some_bind]
  rw [if_neg (by decide), if_neg (by simp; omega)]
  simp only [rd, List.getElem?_cons_zero, Option.some_bind, h1]
  rw [if_neg (by simp), if_neg (by decide)]
  have ht : trimDegree (1 :: 1 :: N M :: rest) (2 : Int).toNat = some (some 2) := by
    show trimDegree (1 :: 1 :: N M :: rest) 2 = some (some 2)
    simp [trimDegree, rd, hN0]
  rw [ht]
  simp only [Option.some_bind]
  rw [if_neg (by decide), if_pos trivial, locationsDegree2_overflow h hAS hN]
  rfl

end ReedSolomon

open Polynomial

namespace TablesGenerator

open GF

theorem rs65535_to_x1 : walk1 16 0b10001000000001011 16 3121 39412 = some 52727 := by decide!

/-- The odd field value 52727 is `α^60466`. -/
theorem rs65535_alphaPow_x1 : alphaPow 16 0b10001000000001011 16 60466 = 52727 := by
  have h := walk1_append 57344 3121 (walk1_append 53248 4096 rs65535_walk_b rs65535_chunk13)
    rs65535_to_x1
  rw [← rs65535_alphaPow_one] at h
  exact (walk1_spec _ h).1.symm

end TablesGenerator

instance rs65535_fact : Fact (GF.FieldOK 16 0b10001000000001011 16) :=
  ⟨TablesGenerator.rs65535_fieldOK⟩

/-- The all-zero codeword of RS(65535, 65471) with the symbols at the positions 5068 and 37440
changed to 1: a word with two errors. -/
def rs65535Word : List Nat :=
  (List.range (GF.N 16)).map (fun j => if j = 5068 ∨ j = 37440 then 1 else 0)

namespace ReedSolomon

open GF TablesGenerator

theorem rs65535Word_getD (j : Nat) :
    rs65535Word.getD j 0 = if j = 5068 ∨ j = 37440 then 1 else 0 := by
  unfold rs65535Word
  rw [List.getD_eq_getElem?_getD]
  by_cases hj : j < N 16
  · simp [hj]
  · rw [List.getElem?_eq_none (by simpa using hj)]
    have hN := rs65535_N
    have : ¬ (j = 5068 ∨ j = 37440) := by omega
    simp [this]

/-- The syndrome of a word with exactly two symbols 1, at the positions `p` and `q`. -/
theorem synVal_two {M POLY w : Nat} [Fact (FieldOK M POLY w)] (FCR i n p q : Nat)
    (c : Nat → Nat) (hpq : p ≠ q) (hp : p < n) (hq : q < n) (hcp : c p = 1) (hcq : c q = 1)
    (hc : ∀ j, j ≠ p → j ≠ q → c j = 0) :
    synVal M POLY w FCR c n i
      = alphaPow M POLY w ((FCR + i) * (n - 1 - p))
        ^^^ alphaPow M POLY w ((FCR + i) * (n - 1 - q)) := by
  unfold synVal
  rw [eval_wordPoly, Finset.sum_eq_add p q hpq]
  · rw [hcp, hcq, toElt_one, one_mul, one_mul, ← pow_mul, ← pow_mul, Elt.val_add,
      val_alpha_pow, val_alpha_pow]
  · intro j _ hj
    rw [hc j hj.1 hj.2, toElt_zero, zero_mul]
  · intro h
    exact absurd (Finset.mem_range.2 hp) h
  · intro h
    exact absurd (Finset.mem_range.2 hq) h

/-- The first syndrome of the word with two errors is `α^60466 + α^28094 = 1`. -/
theorem rs65535_first_syndrome :
    synVal 16 0b10001000000001011 16 1 (fun j => rs65535Word.getD j 0) (N 16) 0 = 1 := by
  have hN := rs65535_N
  have h1 : (5068 : Nat) ≠ 37440 := by decide
  have l1 : 5068 < N 16 := by rw [hN]; decide
  have l2 : 37440 < N 16 := by rw [hN]; decide
  have e1 : (1 + 0) * (N 16 - 1 - 5068) = 60466 := by rw [hN]
  have e2 : (1 + 0) * (N 16 - 1 - 37440) = 28094 := by rw [hN]
  have hx : (52727 : Nat) ^^^ 52726 = 1 := by decide
  have h := @synVal_two 16 0b10001000000001011 16 _ 1 0 (N 16) 5068 37440
    (fun j => rs65535Word.getD j 0) h1 l1 l2
    (by beta_reduce; rw [rs65535Word_getD, if_pos (Or.inl rfl)])
    (by beta_reduce; rw [rs65535Word_getD, if_pos (Or.inr rfl)])
    (by
      intro j hj1 hj2
      beta_reduce
      rw [rs65535Word_getD, if_neg (fun h => h.elim hj1 hj2)])
  rw [e1, e2, rs65535_alphaPow_x, rs65535_alphaPow_x1, hx] at h
  exact h

variable {T : Tables}

/-- When `compute_syndromes` returns a nonzero count, `decode` returns what `correct` returns
on the syndromes. -/
theorem decode_of_syndromes_nonzero {M w NR FCR : Nat}
    (correct : List Nat → List Nat → List Nat → Int → Option (List Nat × Int))
    {code code' syn : List Nat} {nz : Nat} (erasures : List Nat) {erasures_count : Int}
    (hcount : 0 ≤ erasures_count ∧ erasures_count ≤ (NR : Int))
    (h : compute_syndromes M w T NR FCR code = some (code', syn, nz)) (hnz : nz ≠ 0) :
    decode M w T NR FCR correct code erasures erasures_count
      = correct code' syn erasures erasures_count := by
  unfold decode
  rw [if_neg (not_not.2 hcount), h]
  simp [hnz]

/-- C2, a failing input in RS(65535, 65471) (`M = 16`, `POLY = 0b10001000000001011`,
`uint16_t`, `NR = 64`, `FCR = 1`): the all-zero codeword with errors at the positions 5068 and
37440 and no erasure.  The locator numbers of the two positions are
`exp[N-1-37440] = 52726` and `exp[N-1-5068] = 52727`, with sum 1 and product 65535, so the
error locator is `1 + x + 65535 x^2`.  `compute_syndromes` returns a nonzero count, so `decode`
calls `correct`; when Berlekamp–Massey returns that locator with degree 2, the branch
`locator_degree == 2` calls `Artin_Schreier_imap(65535)`, an index outside the table of
`N = 65535` entries, and `decode` has no result: the word is not restored. -/
theorem rs65535_decode_two_errors (log exp imap : List Nat)
    (BerlekampMassey : List Nat → List Nat → Int → Option (List Nat × Int))
    (Chien : List Nat → Nat → Option (List Nat × Int))
    (Forney : List Nat → List Nat → List Nat → Int → Option (List Nat × List Nat × Int))
    (hgen : generateLogExp 16 0b10001000000001011 16 = some (log, exp))
    (hAS : imap.length = N 16)
    (hBM : ∀ syn, BerlekampMassey syn (1 :: List.replicate 64 0) 0
      = some (1 :: 1 :: 65535 :: List.replicate 62 0, 2)) :
    rd exp (N 16 - 1 - 37440) = some 52726 ∧ rd exp (N 16 - 1 - 5068) = some 52727 ∧
    add 52726 52727 = 1 ∧ mulVV 16 16 ⟨log, exp, imap⟩ 52726 52727 = some 65535 ∧
    (∃ syn nz, compute_syndromes 16 16 ⟨log, exp, imap⟩ 64 1 rs65535Word = some (rs65535Word, syn, nz) ∧
      nz ≠ 0) ∧
    decode 16 16 ⟨log, exp, imap⟩ 64 1 (correct 16 16 ⟨log, exp, imap⟩ 64 BerlekampMassey Chien Forney) rs65535Word [] 0
      = none := by
  have hN := rs65535_N
  have hOK : TablesOK 16 0b10001000000001011 16 ⟨log, exp, imap⟩ :=
    tablesOK_of_generateLogExp (by decide) rs65535_primitive hgen
  have hF := hOK.field
  have hlen : rs65535Word.length = N 16 := by
    unfold rs65535Word
    rw [List.length_map, List.length_range]
  have hval : ∀ j, j < N 16 → rs65535Word.getD j 0 < 2 ^ 16 := by
    intro j _
    rw [rs65535Word_getD]
    split <;> decide
  have hsyn : compute_syndromes 16 16 ⟨log, exp, imap⟩ 64 1 rs65535Word
      = some (rs65535Word,
          (List.range 64).map
            (synVal 16 0b10001000000001011 16 1 (fun j => rs65535Word.getD j 0) (N 16)),
          nonzeroCount ((List.range 64).map
            (synVal 16 0b10001000000001011 16 1 (fun j => rs65535Word.getD j 0) (N 16)))) :=
    compute_syndromes_eq hOK (by rw [hN]; decide) hlen hval
  have hnz : nonzeroCount ((List.range 64).map
      (synVal 16 0b10001000000001011 16 1 (fun j => rs65535Word.getD j 0) (N 16))) ≠ 0 := by
    intro hz
    rw [nonzeroCount_eq_zero_iff] at hz
    have := hz _ (List.mem_map.2 ⟨0, List.mem_range.2 (by decide), rfl⟩)
    rw [rs65535_first_syndrome] at this
    exact absurd this (by decide)
  have e1 : N 16 - 1 - 37440 = 28094 := by rw [hN]
  have e2 : N 16 - 1 - 5068 = 60466 := by rw [hN]
  have hxor : (12809 : Nat) ^^^ 52726 = 65535 := by decide
  have hx1 : (52727 : Nat) = 52726 ^^^ 1 := by decide
  have hd : dlog 16 0b10001000000001011 16 52726 = 28094 := by
    rw [← rs65535_alphaPow_x]
    exact dlog_alphaPow hF.params hF.prim (by rw [hN]; decide)
  have he : (2 * 28094) % 65535 = 56188 := by decide
  have hsq : fmul 16 0b10001000000001011 16 52726 52726 = 12809 := by
    rw [← alphaPow_two_mul_dlog hF (by decide), hd, hN, he]
    exact rs65535_alphaPow_xx
  have hprod : fmul 16 0b10001000000001011 16 52726 52727 = 65535 := by
    rw [hx1, fmul_comm, fmul_xor_left hF (by decide) (by decide),
      fmul_comm (M := 16) 1, fmul_one hF (by decide), hsq]
    exact hxor
  refine ⟨?_, ?_, by decide, ?_, ⟨_, _, hsyn, hnz⟩, ?_⟩
  · rw [e1, show exp = _ from hOK.exp, rd_expTable (by rw [hN]; decide), rs65535_alphaPow_x]
  · rw [e2, show exp = _ from hOK.exp, rd_expTable (by rw [hN]; decide), rs65535_alphaPow_x1]
  · rw [mulVV_eq hOK (by decide) (by decide), hprod]
  · rw [decode_of_syndromes_nonzero _ [] ⟨le_refl _, Int.ofNat_nonneg _⟩ hsyn hnz]
    have hb := hBM ((List.range 64).map
      (synVal 16 0b10001000000001011 16 1 (fun j => rs65535Word.getD j 0) (N 16)))
    rw [← hN] at hb
    exact correct_overflow hOK hAS (by decide) (by rw [hN]; decide) BerlekampMassey Chien Forney
      _ _ _ hb

/-- The hypotheses of `rs65535_decode_two_errors` hold for the `log` and `exp` tables of the
field, any table `Artin_Schreier_imap` of `N` entries, and a Berlekamp–Massey that returns the
locator `1 + x + 65535 x^2`. -/
theorem rs65535_decode_two_errors_witness :
    generateLogExp 16 0b10001000000001011 16
      = some (logTable 16 0b10001000000001011 16, expTable 16 0b10001000000001011 16) ∧
    (List.replicate (N 16) 0).length = N 16 ∧
    decode 16 16
        ⟨logTable 16 0b10001000000001011 16, expTable 16 0b10001000000001011 16,
          List.replicate (N 16) 0⟩ 64 1
        (correct 16 16
          ⟨logTable 16 0b10001000000001011 16, expTable 16 0b10001000000001011 16,
            List.replicate (N 16) 0⟩ 64
          (fun _ _ _ => some (1 :: 1 :: 65535 :: List.replicate 62 0, 2))
          (fun _ _ => none) (fun _ _ _ _ => none))
        rs65535Word [] 0
      = none :=
  ⟨generateLogExp_eq rs65535_fieldOK.params rs65535_primitive, List.length_replicate _ _,
    (rs65535_decode_two_errors (logTable 16 0b10001000000001011 16)
      (expTable 16 0b10001000000001011 16) (List.replicate (N 16) 0)
      (fun _ _ _ => some (1 :: 1 :: 65535 :: List.replicate 62 0, 2))
      (fun _ _ => none) (fun _ _ _ _ => none)
      (generateLogExp_eq rs65535_fieldOK.params rs65535_primitive)
      (List.length_replicate _ _) (fun _ => rfl)).2.2.2.2.2⟩

end ReedSolomon

open Polynomial

/-! ## Field laws of the table operations -/

namespace GF

open TablesGenerator

variable {M POLY w : Nat} {T : Tables}

/-- `operator * (Index, Index)` on two valid log-indices, under the `static_assert` `M ≤ w`
alone: the sum reduced modulo `N`. -/
theorem mulII_eq_of_le (hMw : M ≤ w) {a b : Nat} (ha : a < N M) (hb : b < N M) :
    mulII M w a b = some ((a + b) % N M) := by
  have hw : 2 ^ M ≤ 2 ^ w := Nat.pow_le_pow_right (by decide) hMw
  have hN := N_lt M
  have hm : modulus M w = N M := toTYPE_of_lt (by omega)
  unfold mulII
  rw [hm, if_neg (by omega), if_neg (by omega)]
  simp only [Option.some.injEq]
  by_cases hc : N M - a ≤ b
  · rw [if_pos hc]
    unfold toTYPE
    have e1 : (a + b) % 2 ^ w + 2 ^ w - N M = (a + b) % 2 ^ w + (2 ^ w - N M) := by omega
    have e2 : a + b + (2 ^ w - N M) = (a + b - N M) + 2 ^ w := by omega
    rw [e1, Nat.mod_add_mod, e2, Nat.add_mod_right, Nat.mod_eq_of_lt (by omega)]
    have e3 : a + b = (a + b - N M) + N M := by omega
    conv_rhs => rw [e3, Nat.add_mod_right, Nat.mod_eq_of_lt (by omega)]
  · rw [if_neg hc]
    rw [toTYPE_of_lt (by omega), Nat.mod_eq_of_lt (by omega)]

/-- C11.  With the tables generated for a primitive `POLY`, `operator * (Value, Value)`
distributes over `operator + (Value, Value)`: for all field values `a`, `b`, `c` in `[0, Q)`
the three products are computed (no assertion fails) and `a * (b + c) = (a * b) + (a * c)`. -/
theorem mulVV_distrib (hgen : generateLogExp M POLY w = some (T.log, T.exp))
    (hprim : Primitive M POLY w) (hM : 1 ≤ M) {a b c : Nat}
    (ha : a < Q M) (hb : b < Q M) (hc : c < Q M) :
    ∃ x y z, mulVV M w T a (add b c) = some x ∧ mulVV M w T a b = some y ∧
      mulVV M w T a c = some z ∧ x = add y z := by
  have hOK := tablesOK_of_generateLogExp hM hprim hgen
  rw [Q_eq] at ha hb hc
  refine ⟨_, _, _, mulVV_eq hOK ha (xor_lt hb hc), mulVV_eq hOK ha hb, mulVV_eq hOK ha hc, ?_⟩
  unfold add
  rw [fmul_comm, fmul_xor_left hOK.field hb hc, fmul_comm b a, fmul_comm c a]

end GF

/-- The hypotheses of `mulVV_distrib` hold in the field of RS(15, 11), where
`7 * (9 + 12) = 7 * 5 = 8` and `(7 * 9) + (7 * 12) = 10 + 2 = 8`. -/
theorem mulVV_distrib_witness :
    TablesGenerator.generateLogExp 4 0b10011 8 = some (rs15Tables.log, rs15Tables.exp) ∧
    TablesGenerator.Primitive 4 0b10011 8 ∧
    GF.mulVV 4 8 rs15Tables 7 (GF.add 9 12) = some 8 ∧
    GF.mulVV 4 8 rs15Tables 7 9 = some 10 ∧ GF.mulVV 4 8 rs15Tables 7 12 = some 2 ∧
    ∃ x y z, GF.mulVV 4 8 rs15Tables 7 (GF.add 9 12) = some x ∧
      GF.mulVV 4 8 rs15Tables 7 9 = some y ∧ GF.mulVV 4 8 rs15Tables 7 12 = some z ∧
      x = GF.add y z :=
  ⟨rs15_generateLogExp, rs15_primitive, by decide, by decide, by decide,
    GF.mulVV_distrib rs15_generateLogExp rs15_primitive (by decide)
      (show 7 < GF.Q 4 by decide) (show 9 < GF.Q 4 by decide) (show 12 < GF.Q 4 by decide)⟩

namespace GF

variable {M w : Nat}

/-- C12.  For `M` in `2..16`, `TYPE` of `w = 8` or `w = 16` bits and `M ≤ w`, and log-indices
`i`, `j` in `[0, N)`: `operator * (Index, Index)` passes its assertions and returns
`(i + j) mod N`, a value in `[0, N)`, whether or not the sum `i + j` was truncated when it
was stored in `TYPE tmp`. -/
theorem mulII_mod (hM2 : 2 ≤ M) (hM16 : M ≤ 16) (hw : w = 8 ∨ w = 16) (hMw : M ≤ w)
    {i j : Nat} (hi : i < N M) (hj : j < N M) :
    mulII M w i j = some ((i + j) % N M) ∧ (i + j) % N M < N M :=
  ⟨mulII_eq_of_le hMw hi hj, Nat.mod_lt _ (by omega)⟩

end GF

/-- The hypotheses of `mulII_mod` hold for `M = 8` with `uint8_t` and the log-indices 200 and
100, whose sum 300 is truncated to 44 in `TYPE tmp`; the result is `300 mod 255 = 45`. -/
theorem mulII_mod_witness :
    toTYPE 8 (200 + 100) = 44 ∧ GF.mulII 8 8 200 100 = some 45 ∧
    GF.mulII 8 8 200 100 = some ((200 + 100) % GF.N 8) ∧ (200 + 100) % GF.N 8 < GF.N 8 :=
  ⟨by decide, by decide,
    GF.mulII_mod (by decide) (by decide) (Or.inl rfl) (by decide)
      (show 200 < GF.N 8 by decide) (show 100 < GF.N 8 by decide)⟩

open Polynomial

namespace ReedSolomon

open GF TablesGenerator

variable {M POLY w : Nat} {T : Tables}

/-- C13.  For `1 ≤ NR < N` and `FCR` in `[0, N)` the constructor returns an array `generator`
of `NR + 1` log-indices; each `generator[k]` is below `N`, so it is not the sentinel
`modulus()`, and `exp[generator[k]]` is the coefficient of `x^k` of
`∏_{t < NR} (x - α^(FCR + t))`, a nonzero field value.  The index preconditions that `encode`
reaches hold for every feedback index `fb` in `[0, N)`: `fma(fb, generator[NR-j], c)` returns
for `1 ≤ j < NR`, `generator[0] * fb` returns an index that `value` accepts, and `encode`
returns on every buffer of `N` symbols whose message part holds field values. -/
theorem generator_nonzero {NR FCR : Nat} [Fact (FieldOK M POLY w)]
    (hgen : generateLogExp M POLY w = some (T.log, T.exp))
    (hNR : 1 ≤ NR) (hN : NR < N M) (hFCR : FCR < N M) :
    ∃ gen, generator M w T NR FCR = some gen ∧ gen.length = NR + 1 ∧
      (∀ k, k ≤ NR → ∃ i v, rd gen k = some i ∧ i < N M ∧ i ≠ modulus M w ∧
        rd T.exp i = some v ∧ v ≠ 0 ∧
        v = ((∏ t in Finset.range NR,
              (X - C ((alpha M POLY w) ^ (FCR + t)) : (Elt M POLY w)[X])).coeff k).val) ∧
      (∀ fb j c, fb < N M → 1 ≤ j → j < NR →
        ∃ g v, rd gen (NR - j) = some g ∧ fmaIIV M w T fb g c = some v) ∧
      (∀ fb, fb < N M →
        ∃ g i v, rd gen 0 = some g ∧ mulII M w g fb = some i ∧ value M w T i = some v) ∧
      (∀ code : List Nat, code.length = N M → (∀ i, i < K M NR → code.getD i 0 < Q M) →
        ∃ c, encode M w T NR gen code = some c) := by
  have hF : Fact (FieldOK M POLY w) := inferInstance
  have hOK := tablesOK_of_generateLogExp (one_le_of_lt_N hN) hF.out.prim hgen
  have hpos := N_pos hOK.field.params
  have hmod := modulus_eq hOK
  have hrd : ∀ k, k ≤ NR → rd (genTable M POLY w NR FCR) k
      = some (dlog M POLY w ((genPoly M POLY w NR FCR).coeff k).val) := by
    intro k hk
    simp [rd, genTable, Nat.lt_succ_of_le hk]
  have hlt : ∀ k, k ≤ NR → dlog M POLY w ((genPoly M POLY w NR FCR).coeff k).val < N M :=
    fun k hk => dlog_val_lt (genPoly_coeff_ne_zero hN hk)
  refine ⟨_, generator_eq hOK hN hFCR, by simp [genTable], ?_, ?_, ?_, ?_⟩
  · intro k hk
    have hne : (genPoly M POLY w NR FCR).coeff k ≠ 0 := genPoly_coeff_ne_zero hN hk
    refine ⟨_, ((genPoly M POLY w NR FCR).coeff k).val, hrd k hk, hlt k hk, ?_, ?_, ?_, rfl⟩
    · rw [hmod]
      exact Nat.ne_of_lt (hlt k hk)
    · rw [hOK.exp, rd_expTable (hlt k hk), alphaPow_dlog_val hne]
    · exact fun h0 => hne ((val_eq_zero_iff _).1 h0)
  · intro fb j c hfb _ _
    exact ⟨_, _, hrd (NR - j) (Nat.sub_le _ _), fmaIIV_eq hOK c hfb (hlt _ (Nat.sub_le _ _))⟩
  · intro fb hfb
    refine ⟨_, _, _, hrd 0 (Nat.zero_le _), mulII_eq hOK (hlt 0 (Nat.zero_le _)) hfb,
      value_eq hOK (Nat.mod_lt _ hpos)⟩
  · intro code hlen hmsg
    exact ⟨_, encode_eq hOK hNR hN hlen (lt_pow_of_lt_Q hmsg)⟩

/-- The hypotheses of `generator_nonzero` hold for RS(15, 11) with `FCR = 1`, whose array
`generator` holds the log-indices 10, 3, 6, 13, 0, all below `N = 15`. -/
theorem generator_nonzero_witness :
    generateLogExp 4 0b10011 8 = some (rs15Tables.log, rs15Tables.exp) ∧
    generator 4 8 rs15Tables 4 1 = some [10, 3, 6, 13, 0] ∧
    ∃ gen, generator 4 8 rs15Tables 4 1 = some gen ∧ gen.length = 4 + 1 ∧
      (∀ k, k ≤ 4 → ∃ i v, rd gen k = some i ∧ i < N 4 ∧ i ≠ modulus 4 8 ∧
        rd rs15Tables.exp i = some v ∧ v ≠ 0 ∧
        v = ((∏ t in Finset.range 4,
              (X - C ((alpha 4 0b10011 8) ^ (1 + t)) : (Elt 4 0b10011 8)[X])).coeff k).val) :=
  ⟨rs15_generateLogExp, rs15_generator,
    (generator_nonzero rs15_generateLogExp (show 1 ≤ 4 by decide) (show 4 < N 4 by decide)
      (show 1 < N 4 by decide)).elim (fun gen h => ⟨gen, h.1, h.2.1, h.2.2.1⟩)⟩

end ReedSolomon

open Polynomial

/-! ## The locator seeded from the erasures -/

theorem forDownTo_zero {σ : Type} (body : Nat → σ → Option σ) (s : σ) :
    forDownTo 0 0 body s = body 0 s := by
  simp [forDownTo]

theorem forDownTo_succ {σ : Type} (hi : Nat) (body : Nat → σ → Option σ) (s : σ) :
    forDownTo (hi + 1) 0 body s = (body (hi + 1) s).bind (forDownTo hi 0 body) := by
  unfold forDownTo
  have e : hi + 1 + 1 - 0 = (hi + 1 - 0) + 1 := by omega
  rw [e, List.range'_concat, List.reverse_append]
  simp

/-- Invariant rule for a descending loop that ends with the loop variable 0: `P (j + 1) s` is
the invariant before the iteration with loop variable `j`, and `P 0 s` holds on exit. -/
theorem forDownTo_inv {σ : Type} (hi : Nat) (body : Nat → σ → Option σ)
    (P : Nat → σ → Prop) (s : σ) (h0 : P (hi + 1) s)
    (hstep : ∀ j s, j ≤ hi → P (j + 1) s → ∃ s', body j s = some s' ∧ P j s') :
    ∃ s', forDownTo hi 0 body s = some s' ∧ P 0 s' := by
  induction hi generalizing s with
  | zero =>
    obtain ⟨s1, hs1, hP1⟩ := hstep 0 s (le_refl _) h0
    exact ⟨s1, by rw [forDownTo_zero, hs1], hP1⟩
  | succ n ih =>
    obtain ⟨s1, hs1, hP1⟩ := hstep (n + 1) s (le_refl _) h0
    obtain ⟨s2, hs2, hP2⟩ := ih s1 hP1 (fun j s hj hp => hstep j s (by omega) hp)
    exact ⟨s2, by rw [forDownTo_succ, hs1]; exact hs2, hP2⟩

namespace GF

open TablesGenerator

variable {M POLY w : Nat} {T : Tables}

theorem mulIV_eq (h : TablesOK M POLY w T) {r b : Nat} (hr : r < N M) (hb : b < 2 ^ M) :
    mulIV M w T r b = some (fmul M POLY w (alphaPow M POLY w r) b) := by
  unfold mulIV
  rw [modulus_eq h, if_neg (by omega)]
  by_cases h0 : b = 0
  · rw [if_pos h0, h0, fmul_zero_right]
  · rw [if_neg h0]
    have db := dlog_spec h.field.params h.field.prim h0 hb
    simp only [index_eq h hb, Option.bind_eq_bind, Option.some_bind]
    have := value_mulII h hr db.1
    rw [db.2] at this
    exact this

/-- The index `IndexType(N-1) / erasures[i]` of an erased position below `N`. -/
theorem erasure_index (h : TablesOK M POLY w T) {e : Nat} (he : e < N M) :
    divII M w (toTYPE w (N M - 1)) e = some ((N M - 1 - e) % N M) := by
  have hN := N_lt M
  have hp := h.field.params
  rw [toTYPE_of_lt_Q hp (by omega), divII_eq h (by omega) he]
  congr 1
  have e1 : N M - 1 + N M - e = (N M - 1 - e) + N M := by omega
  rw [e1, Nat.add_mod_right]

end GF

namespace ReedSolomon

open GF TablesGenerator

variable {M POLY w : Nat} [hF : Fact (FieldOK M POLY w)] {T : Tables}

/-- The locator number of the erased position `e`: `α^((N - 1 - e) mod N)`. -/
noncomputable def erasureNumber (M POLY w : Nat) [Fact (FieldOK M POLY w)] (e : Nat) :
    Elt M POLY w :=
  (alpha M POLY w) ^ ((N M - 1 - e) % N M)

/-- The erasure locator of the first `c` erasures: `∏_{k < c} (1 + x α^((N-1-e_k) mod N))`. -/
noncomputable def erasureLocator (M POLY w : Nat) [Fact (FieldOK M POLY w)]
    (erasures : List Nat) (c : Nat) : (Elt M POLY w)[X] :=
  ∏ k in Finset.range c, (1 + C (erasureNumber M POLY w (erasures.getD k 0)) * X)

theorem erasureNumber_ne_zero (e : Nat) : erasureNumber M POLY w e ≠ 0 :=
  alpha_pow_ne_zero _

theorem erasureLocator_zero (es : List Nat) : erasureLocator M POLY w es 0 = 1 := by
  simp [erasureLocator]

theorem erasureLocator_succ (es : List Nat) (c : Nat) :
    erasureLocator M POLY w es (c + 1)
      = erasureLocator M POLY w es c * (1 + C (erasureNumber M POLY w (es.getD c 0)) * X) := by
  unfold erasureLocator
  rw [Finset.prod_range_succ]

theorem erasureLocator_coeff_zero (es : List Nat) (c : Nat) :
    (erasureLocator M POLY w es c).coeff 0 = 1 := by
  induction c with
  | zero => rw [erasureLocator_zero, coeff_one_zero]
  | succ c ih =>
    rw [erasureLocator_succ, mul_add, mul_one, coeff_add, ← mul_assoc, coeff_mul_X_zero,
      add_zero, ih]

theorem erasureLocator_coeff_succ (es : List Nat) (c k : Nat) :
    (erasureLocator M POLY w es (c + 1)).coeff (k + 1)
      = erasureNumber M POLY w (es.getD c 0) * (erasureLocator M POLY w es c).coeff k
        + (erasureLocator M POLY w es c).coeff (k + 1) := by
  rw [erasureLocator_succ, mul_add, mul_one, coeff_add, ← mul_assoc, coeff_mul_X, coeff_mul_C,
    add_comm, mul_comm]

theorem erasureLocator_coeff_above (es : List Nat) (c : Nat) :
    ∀ k, c < k → (erasureLocator M POLY w es c).coeff k = 0 := by
  induction c with
  | zero =>
    intro k hk
    rw [erasureLocator_zero, coeff_one, if_neg (by omega)]
  | succ c ih =>
    intro k hk
    obtain ⟨k', rfl⟩ : ∃ k', k = k' + 1 := ⟨k - 1, by omega⟩
    rw [erasureLocator_coeff_succ, ih k' (by omega), ih (k' + 1) (by omega), mul_zero, add_zero]

theorem erasureLocator_coeff_top (es : List Nat) (c : Nat) :
    (erasureLocator M POLY w es c).coeff c ≠ 0 := by
  induction c with
  | zero => rw [erasureLocator_coeff_zero]; exact one_ne_zero
  | succ c ih =>
    rw [erasureLocator_coeff_succ, erasureLocator_coeff_above es c (c + 1) (by omega), add_zero]
    exact mul_ne_zero (erasureNumber_ne_zero _) ih

/-- The array `locator` when it holds the coefficients of the erasure locator of the first `i`
erasures. -/
noncomputable def locCells (M POLY w : Nat) [Fact (FieldOK M POLY w)] (NR : Nat)
    (es : List Nat) (i : Nat) : List Nat :=
  (List.range (NR + 1)).map (fun k => ((erasureLocator M POLY w es i).coeff k).val)

/-- The array `locator` in the inner loop for the erasure `i`, before the step that writes the
cell `j`: the cells above `j` are updated. -/
noncomputable def locInner (M POLY w : Nat) [Fact (FieldOK M POLY w)] (NR : Nat)
    (es : List Nat) (i j : Nat) : List Nat :=
  (List.range (NR + 1)).map
    (fun k => if j < k then ((erasureLocator M POLY w es (i + 1)).coeff k).val
      else ((erasureLocator M POLY w es i).coeff k).val)

theorem locInner_top (NR : Nat) (es : List Nat) (i : Nat) :
    locInner M POLY w NR es i (i + 1) = locCells M POLY w NR es i := by
  unfold locInner locCells
  apply map_range_congr
  intro k _
  by_cases hk : i + 1 < k
  · rw [if_pos hk, erasureLocator_coeff_above es (i + 1) k hk,
      erasureLocator_coeff_above es i k (by omega)]
  · rw [if_neg hk]

theorem locInner_bottom (NR : Nat) (es : List Nat) (i : Nat) :
    locInner M POLY w NR es i 0 = locCells M POLY w NR es (i + 1) := by
  unfold locInner locCells
  apply map_range_congr
  intro k _
  by_cases hk : 0 < k
  · rw [if_pos hk]
  · have : k = 0 := by omega
    subst this
    rw [if_neg hk, erasureLocator_coeff_zero, erasureLocator_coeff_zero]

theorem locatorSeedInner_eq (h : TablesOK M POLY w T) {NR : Nat} (es : List Nat) {i j : Nat}
    (hi : i < NR) (hj : j ≤ i) :
    locatorSeedInner M w T ((N M - 1 - es.getD i 0) % N M) j (locInner M POLY w NR es i (j + 1))
      = some (locInner M POLY w NR es i j) := by
  have hN := N_pos h.field.params
  unfold locatorSeedInner locInner
  rw [rd_map_range _ (by omega), rd_map_range _ (by omega)]
  simp only [Nat.lt_irrefl, if_false, Nat.not_lt.2 (Nat.le_succ j), Option.bind_eq_bind,
    Option.some_bind]
  rw [mulIV_eq h (Nat.mod_lt _ hN) (Elt.lt _), Option.some_bind,
    store_map_range _ _ (by omega)]
  congr 1
  apply map_range_congr
  intro m _
  by_cases hm : m = j + 1
  · subst hm
    rw [if_pos rfl, if_pos (Nat.lt_succ_self j), erasureLocator_coeff_succ, Elt.val_add,
      Elt.val_mul]
    unfold add erasureNumber
    rw [val_alpha_pow, Nat.xor_comm]
  · rw [if_neg hm]
    by_cases hk : j + 1 < m
    · rw [if_pos hk, if_pos (by omega)]
    · rw [if_neg hk, if_neg (by omega)]

theorem locatorSeedOuter_eq (h : TablesOK M POLY w T) {NR : Nat} (es : List Nat) {i : Nat}
    (hi : i < NR) (hlen : i < es.length) (he : es.getD i 0 < N M) :
    locatorSeedOuter M w T es i (locCells M POLY w NR es i)
      = some (locCells M POLY w NR es (i + 1)) := by
  unfold locatorSeedOuter
  have hrd : rd es i = some (es.getD i 0) := by
    simp [rd, List.getD_eq_getElem?_getD, List.getElem?_eq_getElem hlen]
  rw [hrd]
  simp only [Option.bind_eq_bind, Option.some_bind]
  rw [erasure_index h he, Option.some_bind]
  obtain ⟨s1, hs1, hP⟩ := forDownTo_inv i
    (locatorSeedInner M w T ((N M - 1 - es.getD i 0) % N M))
    (fun j t => t = locInner M POLY w NR es i j) (locCells M POLY w NR es i)
    (locInner_top NR es i).symm
    (by
      intro j s hj hs
      subst hs
      exact ⟨_, locatorSeedInner_eq h es hi hj, rfl⟩)
  rw [hs1, hP, locInner_bottom]

/-- The locator that `correct` seeds from `c` erasures below `N`: the coefficients of the
erasure locator. -/
theorem locatorSeed_eq (h : TablesOK M POLY w T) {NR : Nat} (es : List Nat) {c : Nat}
    (hc : c ≤ NR) (hlen : c ≤ es.length) (he : ∀ k, k < c → es.getD k 0 < N M) :
    locatorSeed M w T NR es c = some (locCells M POLY w NR es c) := by
  have hp := h.field.params
  have hN := N_pos hp
  have h1 : toTYPE w 1 = 1 := toTYPE_of_lt_Q hp (one_lt_Q hp)
  have h0 : toTYPE w 0 = 0 := by simp [toTYPE]
  have hinit : (1 :: List.replicate NR 0 : List Nat) = locCells M POLY w NR es 0 := by
    unfold locCells
    rw [List.range_succ_eq_map, List.map_cons, List.map_map, erasureLocator_zero]
    congr 1
    · rw [coeff_one_zero]; rfl
    · rw [replicate_eq_map_range]
      apply map_range_congr
      intro j _
      simp [coeff_one]
  unfold locatorSeed
  rw [h1, h0, hinit]
  by_cases hc0 : c = 0
  · subst hc0
    simp [forUp]
  · rw [if_pos hc0]
    have hrd : rd es 0 = some (es.getD 0 0) := by
      have : 0 < es.length := by omega
      simp [rd, List.getD_eq_getElem?_getD, List.getElem?_eq_getElem this]
    have hfirst : store (locCells M POLY w NR es 0) 1
          (alphaPow M POLY w ((N M - 1 - es.getD 0 0) % N M))
        = some (locCells M POLY w NR es 1) := by
      unfold locCells
      rw [store_map_range _ _ (by omega)]
      congr 1
      apply map_range_congr
      intro k _
      by_cases hk : k = 1
      · subst hk
        rw [if_pos rfl, erasureLocator_coeff_succ, erasureLocator_zero, coeff_one_zero,
          coeff_one, if_neg (by decide), mul_one, add_zero]
        unfold erasureNumber
        rw [val_alpha_pow]
      · rw [if_neg hk]
        by_cases hk0 : k = 0
        · subst hk0
          rw [erasureLocator_coeff_zero, erasureLocator_coeff_zero]
        · rw [erasureLocator_coeff_above es 0 k (by omega),
            erasureLocator_coeff_above es 1 k (by omega)]
    simp only [Option.bind_eq_bind, hrd, Option.some_bind]
    rw [erasure_index h (he 0 (by omega)), Option.some_bind,
      value_eq h (Nat.mod_lt _ hN), Option.some_bind, hfirst, Option.some_bind]
    obtain ⟨s1, hs1, hP⟩ := forUp_inv (show 1 ≤ c by omega) (locatorSeedOuter M w T es)
      (fun i t => t = locCells M POLY w NR es i) (locCells M POLY w NR es 1) rfl
      (by
        intro i s _ hi hs
        subst hs
        exact ⟨_, locatorSeedOuter_eq h es (by omega) (by omega) (he i hi), rfl⟩)
    rw [hs1, hP]

end ReedSolomon

open Polynomial

namespace ReedSolomon

open GF TablesGenerator

variable {M POLY w : Nat} {T : Tables}

/-- C14.  For an erasure list with `c ≤ NR` entries, each a position below `N`: the array
`locator` that `correct` builds before it calls Berlekamp–Massey has `NR + 1` cells, its cell
`k` is the coefficient of `x^k` of `∏_{t < c} (1 + x α^((N-1-e_t) mod N))`, `locator[0] = 1`,
`locator[c] ≠ 0` and `locator[k] = 0` for `c < k ≤ NR`; and this array is what `correct` hands
to Berlekamp–Massey: the result of `correct` depends on `BerlekampMassey` only through what it
returns on `(syndromes, locator, c)`. -/
theorem locator_seed {NR c : Nat} {erasures : List Nat} [Fact (FieldOK M POLY w)]
    (hgen : generateLogExp M POLY w = some (T.log, T.exp))
    (hc : c ≤ NR) (hlen : c ≤ erasures.length) (he : ∀ k, k < c → erasures.getD k 0 < N M) :
    ∃ locator, locatorSeed M w T NR erasures c = some locator ∧ locator.length = NR + 1 ∧
      (∀ k, k ≤ NR → locator.getD k 0
        = ((∏ t in Finset.range c,
            (1 + C ((alpha M POLY w) ^ ((N M - 1 - erasures.getD t 0) % N M)) * X
              : (Elt M POLY w)[X])).coeff k).val) ∧
      locator.getD 0 0 = 1 ∧ locator.getD c 0 ≠ 0 ∧
      (∀ k, c < k → k ≤ NR → locator.getD k 0 = 0) ∧
      ∀ (BM BM' : List Nat → List Nat → Int → Option (List Nat × Int))
        (Chien : List Nat → Nat → Option (List Nat × Int))
        (Forney : List Nat → List Nat → List Nat → Int → Option (List Nat × List Nat × Int))
        (code syndromes : List Nat),
        BM syndromes locator (c : Int) = BM' syndromes locator (c : Int) →
        correct M w T NR BM Chien Forney code syndromes erasures (c : Int)
          = correct M w T NR BM' Chien Forney code syndromes erasures (c : Int) := by
  have hF : Fact (FieldOK M POLY w) := inferInstance
  have hOK := tablesOK_of_generateLogExp hF.out.params.one_le hF.out.prim hgen
  have hseed := locatorSeed_eq hOK erasures hc hlen he
  have hget : ∀ k, k ≤ NR → (locCells M POLY w NR erasures c).getD k 0
      = ((erasureLocator M POLY w erasures c).coeff k).val := by
    intro k hk
    simp [locCells, List.getD_eq_getElem?_getD, Nat.lt_succ_of_le hk]
  refine ⟨_, hseed, by simp [locCells], hget, ?_, ?_, ?_, ?_⟩
  · rw [hget 0 (Nat.zero_le _), erasureLocator_coeff_zero]
    rfl
  · rw [hget c hc]
    exact fun h0 => erasureLocator_coeff_top erasures c ((val_eq_zero_iff _).1 h0)
  · intro k hk hkN
    rw [hget k hkN, erasureLocator_coeff_above erasures c k hk]
    rfl
  · intro BM BM' Chien Forney code syndromes hsame
    unfold correct
    simp only [Int.toNat_ofNat, hseed, Option.bind_eq_bind, Option.some_bind, hsame]

/-- The hypotheses of `locator_seed` hold for RS(15, 11) and the erasure list `3, 7`: the
seeded locator is `1 + 5 x + 8 x^2`. -/
theorem locator_seed_witness :
    generateLogExp 4 0b10011 8 = some (rs15Tables.log, rs15Tables.exp) ∧
    locatorSeed 4 8 rs15Tables 4 [3, 7] 2 = some [1, 5, 8, 0, 0] ∧
    ∃ locator, locatorSeed 4 8 rs15Tables 4 [3, 7] 2 = some locator ∧ locator.length = 4 + 1 ∧
      (∀ k, k ≤ 4 → locator.getD k 0
        = ((∏ t in Finset.range 2,
            (1 + C ((alpha 4 0b10011 8) ^ ((N 4 - 1 - [3, 7].getD t 0) % N 4)) * X
              : (Elt 4 0b10011 8)[X])).coeff k).val) ∧
      locator.getD 0 0 = 1 ∧ locator.getD 2 0 ≠ 0 ∧
      (∀ k, 2 < k → k ≤ 4 → locator.getD k 0 = 0) :=
  ⟨rs15_generateLogExp, by decide,
    (locator_seed rs15_generateLogExp (show 2 ≤ 4 by decide)
      (show 2 ≤ [3, 7].length by decide) (by decide)).elim
      (fun l h => ⟨l, h.1, h.2.1, h.2.2.1, h.2.2.2.1, h.2.2.2.2.1, h.2.2.2.2.2.1⟩)⟩

end ReedSolomon

open Polynomial

/-! ## The branch `locator_degree == 1` of `correct` -/

namespace ReedSolomon

open GF TablesGenerator

variable {M POLY w : Nat} {T : Tables}

/-- The location that the branch `locator_degree == 1` computes from a locator `1 + l1 x`:
the logarithm of `1 / l1`, less one, modulo `N`. -/
theorem locationsDegree1_eq (h : TablesOK M POLY w T) (hM : 2 ≤ M) {l1 : Nat} (rest : List Nat)
    (h0 : l1 ≠ 0) (hl : l1 < 2 ^ M) :
    locationsDegree1 M w T (1 :: l1 :: rest)
      = some [((0 + N M - dlog M POLY w l1) % N M + N M - 1) % N M] := by
  have hp := h.field.params
  have hN := N_pos hp
  have h4 : 2 ^ 2 ≤ 2 ^ M := Nat.pow_le_pow_right (by decide) hM
  have hNs : N M + 1 = 2 ^ M := by rw [N_succ, Q_eq]
  have h1N : 1 < N M := by omega
  have ht1 : toTYPE w 1 = 1 := toTYPE_of_lt_Q hp (one_lt_Q hp)
  have hd := (dlog_spec hp h.field.prim h0 hl).1
  unfold locationsDegree1
  simp only [rd, List.getElem?_cons_zero, List.getElem?_cons_succ, Option.bind_eq_bind,
    Option.some_bind]
  rw [index_eq h (one_lt_Q hp), index_eq h hl, dlog_one h.field]
  simp only [Option.some_bind]
  rw [divII_eq h hN hd, Option.some_bind, ht1, divII_eq h (Nat.mod_lt _ hN) h1N]
  rfl

/-- C15.  For every position `p` in `[0, N)` (with `2 ≤ M`, `1 ≤ NR`): the locator that
`correct` seeds from the single erasure `p` is `1 + α^((N-1-p) mod N) x`, the branch
`locator_degree == 1` applied to it yields `locations[0] = p`, and the loop
`code[(int)locations[i]] += magnitudes[i]` then changes the cell `code[p]` and no other. -/
theorem erasure_is_position {NR p : Nat}
    (hgen : generateLogExp M POLY w = some (T.log, T.exp)) (hprim : Primitive M POLY w)
    (hM : 2 ≤ M) (hNR : 1 ≤ NR) (hp : p < N M) :
    ∃ v, rd T.exp ((N M - 1 - p) % N M) = some v ∧
      v = alphaPow M POLY w ((N M - 1 - p) % N M) ∧
      locatorSeed M w T NR [p] 1 = some (1 :: v :: List.replicate (NR - 1) 0) ∧
      locationsDegree1 M w T (1 :: v :: List.replicate (NR - 1) 0) = some [p] ∧
      ∀ (code : List Nat) (m : Nat), p < code.length →
        applyMagnitude [p] [m] 0 code = some (code.set p (add (code.getD p 0) m)) := by
  have hOK := tablesOK_of_generateLogExp (by omega) hprim hgen
  have hpar := hOK.field.params
  have hN := N_pos hpar
  have ht1 : toTYPE w 1 = 1 := toTYPE_of_lt_Q hpar (one_lt_Q hpar)
  have ht0 : toTYPE w 0 = 0 := by simp [toTYPE]
  have hidx : (N M - 1 - p) % N M < N M := Nat.mod_lt _ hN
  have hidx' : (N M - 1 - p) % N M = N M - 1 - p := Nat.mod_eq_of_lt (by omega)
  have hv0 : alphaPow M POLY w ((N M - 1 - p) % N M) ≠ 0 := alphaPow_ne_zero hpar hprim _
  refine ⟨_, ?_, rfl, ?_, ?_, ?_⟩
  · rw [hOK.exp, rd_expTable hidx]
  · obtain ⟨n, rfl⟩ : ∃ n, NR = n + 1 := ⟨NR - 1, by omega⟩
    unfold locatorSeed
    rw [ht1, ht0, if_pos (by decide)]
    simp only [rd, List.getElem?_cons_zero, Option.bind_eq_bind, Option.some_bind]
    rw [erasure_index hOK hp, Option.some_bind, value_eq hOK hidx, Option.some_bind]
    simp [store, forUp, List.replicate_succ]
  · rw [locationsDegree1_eq hOK hM _ hv0 (alphaPow_lt hpar _),
      dlog_alphaPow hpar hprim hidx, hidx']
    congr 2
    by_cases hpN : p + 1 = N M
    · have e : 0 + N M - (N M - 1 - p) = N M := by omega
      have e2 : 0 + N M - 1 = p := by omega
      rw [e, Nat.mod_self, e2]
      exact Nat.mod_eq_of_lt hp
    · have e : 0 + N M - (N M - 1 - p) = p + 1 := by omega
      have e2 : p + 1 + N M - 1 = p + N M := by omega
      rw [e, Nat.mod_eq_of_lt (show p + 1 < N M by omega), e2, Nat.add_mod_right]
      exact Nat.mod_eq_of_lt hp
  · intro code m hlen
    unfold applyMagnitude
    simp only [rd, List.getElem?_cons_zero, Option.bind_eq_bind, Option.some_bind]
    rw [List.getElem?_eq_getElem hlen, Option.some_bind, store_eq_some _ hlen,
      List.getD_eq_getElem?_getD, List.getElem?_eq_getElem hlen]
    rfl

/-- The hypotheses of `erasure_is_position` hold for RS(15, 11) and the erased position 3:
the seeded locator is `1 + 14 x` and the location found is 3. -/
theorem erasure_is_position_witness :
    generateLogExp 4 0b10011 8 = some (rs15Tables.log, rs15Tables.exp) ∧
    Primitive 4 0b10011 8 ∧
    locatorSeed 4 8 rs15Tables 4 [3] 1 = some [1, 14, 0, 0, 0] ∧
    locationsDegree1 4 8 rs15Tables [1, 14, 0, 0, 0] = some [3] ∧
    ∃ v, rd rs15Tables.exp ((N 4 - 1 - 3) % N 4) = some v ∧
      v = alphaPow 4 0b10011 8 ((N 4 - 1 - 3) % N 4) ∧
      locatorSeed 4 8 rs15Tables 4 [3] 1 = some (1 :: v :: List.replicate (4 - 1) 0) ∧
      locationsDegree1 4 8 rs15Tables (1 :: v :: List.replicate (4 - 1) 0) = some [3] :=
  ⟨rs15_generateLogExp, rs15_primitive, by decide, by decide,
    (erasure_is_position rs15_generateLogExp rs15_primitive (show 2 ≤ 4 by decide)
      (show 1 ≤ 4 by decide) (show 3 < N 4 by decide)).elim
      (fun v h => ⟨v, h.1, h.2.1, h.2.2.1, h.2.2.2.1⟩)⟩

/-- C16, amended.  In the branch `locator_degree == 1` of `correct`, for every locator with
`locator[0] = 1` and `locator[1] ≠ 0` (with `2 ≤ M`): the root of `1 + locator[1] x` is
`x = 1 / locator[1]`, and the location stored in `locations[0]` is `(log[x] - 1) mod N`, the
logarithm of `x / α`: the code divides by `IndexType(1)` after it has taken the logarithm of
the root.  The location is below `N` and `(locations[0] + 1) mod N = log[x]`. -/
theorem degree1_location {l1 : Nat} {rest : List Nat}
    (hgen : generateLogExp M POLY w = some (T.log, T.exp)) (hprim : Primitive M POLY w)
    (hM : 2 ≤ M) (h0 : l1 ≠ 0) (hl : l1 < Q M) :
    ∃ x lx loc, divVV M w T 1 l1 = some x ∧ mulVV M w T l1 x = some 1 ∧
      index T x = some lx ∧
      locationsDegree1 M w T (1 :: l1 :: rest) = some [loc] ∧
      loc = (lx + N M - 1) % N M ∧ loc < N M ∧ (loc + 1) % N M = lx ∧ loc ≠ lx := by
  have hOK := tablesOK_of_generateLogExp (by omega) hprim hgen
  have hpar := hOK.field.params
  have hN := N_pos hpar
  rw [Q_eq] at hl
  have h4 : 2 ^ 2 ≤ 2 ^ M := Nat.pow_le_pow_right (by decide) hM
  have hNs : N M + 1 = 2 ^ M := by rw [N_succ, Q_eq]
  have hd := dlog_spec hpar hprim h0 hl
  have hq : (0 + N M - dlog M POLY w l1) % N M < N M := Nat.mod_lt _ hN
  have hx : fdiv M POLY w 1 l1 = alphaPow M POLY w ((0 + N M - dlog M POLY w l1) % N M) := by
    unfold fdiv
    rw [if_neg (by decide), dlog_one hOK.field]
  have hxlt : fdiv M POLY w 1 l1 < 2 ^ M := by
    rw [hx]; exact alphaPow_lt hpar _
  have hmul : fmul M POLY w l1 (fdiv M POLY w 1 l1) = 1 := by
    have e : (dlog M POLY w l1 + (0 + N M - dlog M POLY w l1) % N M) % N M = 0 := by
      rw [Nat.add_mod_mod]
      have : dlog M POLY w l1 + (0 + N M - dlog M POLY w l1) = N M := by omega
      rw [this, Nat.mod_self]
    have e1 : fmul M POLY w l1 (fdiv M POLY w 1 l1)
        = fmul M POLY w (alphaPow M POLY w (dlog M POLY w l1))
            (alphaPow M POLY w ((0 + N M - dlog M POLY w l1) % N M)) := by
      rw [hx, hd.2]
    rw [e1, fmul_alphaPow hOK.field, ← alphaPow_mod hprim, e]
    rfl
  refine ⟨_, _, _, divVV_eq hOK (one_lt_Q hpar) h0 hl, ?_, index_eq hOK hxlt,
    locationsDegree1_eq hOK hM rest h0 hl, ?_, Nat.mod_lt _ hN, ?_, ?_⟩
  · rw [mulVV_eq hOK hl hxlt, hmul]
  · rw [hx, dlog_alphaPow hpar hprim hq]
  · rw [hx, dlog_alphaPow hpar hprim hq, Nat.mod_add_mod]
    have e : (0 + N M - dlog M POLY w l1) % N M + N M - 1 + 1
        = (0 + N M - dlog M POLY w l1) % N M + N M := by omega
    rw [e, Nat.add_mod_right, Nat.mod_mod]
  · rw [hx, dlog_alphaPow hpar hprim hq]
    set q := (0 + N M - dlog M POLY w l1) % N M with hqd
    by_cases hq0 : q = 0
    · rw [hq0, Nat.zero_add, Nat.mod_eq_of_lt (by omega)]
      omega
    · have e : q + N M - 1 = (q - 1) + N M := by omega
      rw [e, Nat.add_mod_right, Nat.mod_eq_of_lt (by omega)]
      omega

/-- The hypotheses of `degree1_location` hold for RS(15, 11) and the locator `1 + 8 x`. -/
theorem degree1_location_witness :
    generateLogExp 4 0b10011 8 = some (rs15Tables.log, rs15Tables.exp) ∧
    Primitive 4 0b10011 8 ∧
    ∃ x lx loc, divVV 4 8 rs15Tables 1 8 = some x ∧ mulVV 4 8 rs15Tables 8 x = some 1 ∧
      index rs15Tables x = some lx ∧
      locationsDegree1 4 8 rs15Tables (1 :: 8 :: [0, 0, 0]) = some [loc] ∧
      loc = (lx + N 4 - 1) % N 4 ∧ loc < N 4 ∧ (loc + 1) % N 4 = lx ∧ loc ≠ lx :=
  ⟨rs15_generateLogExp, rs15_primitive,
    degree1_location rs15_generateLogExp rs15_primitive (show 2 ≤ 4 by decide)
      (show 8 ≠ 0 by decide) (show 8 < Q 4 by decide)⟩

/-- C16, counterexample in RS(15, 11): for the locator `1 + 8 x` the root is
`x = 1 / 8 = 15` (`8 * 15 = 1`, so `1 + 8 * 15 = 0`) and `log[x] = 12`, but the branch
`locator_degree == 1` stores the location 11. -/
theorem degree1_location_counterexample :
    rd [1, 8, 0, 0, 0] 0 = some 1 ∧ rd [1, 8, 0, 0, 0] 1 = some 8 ∧
    divVV 4 8 rs15Tables 1 8 = some 15 ∧ mulVV 4 8 rs15Tables 8 15 = some 1 ∧
    add 1 1 = 0 ∧ index rs15Tables 15 = some 12 ∧
    locationsDegree1 4 8 rs15Tables [1, 8, 0, 0, 0] = some [11] ∧
    locationsDegree1 4 8 rs15Tables [1, 8, 0, 0, 0] ≠ some [12] := by
  decide

end ReedSolomon

open Polynomial

/-! ## The branch `locator_degree == 2` of `correct` -/

namespace GF

open TablesGenerator

variable {M POLY w : Nat} {T : Tables}

theorem fdiv_lt (h : FieldOK M POLY w) (a b : Nat) : fdiv M POLY w a b < 2 ^ M := by
  unfold fdiv
  split
  · exact Nat.two_pow_pos M
  · exact alphaPow_lt h.params _

theorem fdiv_ne_zero (h : FieldOK M POLY w) {a : Nat} (b : Nat) (ha : a ≠ 0) :
    fdiv M POLY w a b ≠ 0 := by
  unfold fdiv
  rw [if_neg ha]
  exact alphaPow_ne_zero h.params h.prim _

end GF

namespace TablesGenerator

open GF

variable {M POLY w : Nat} {T : Tables}

theorem fillArtinSchreier_of_generate (h : generate M POLY w = some T) :
    fillArtinSchreier M w T.log T.exp = some T.Artin_Schreier_imap := by
  unfold generate at h
  cases hle : generateLogExp M POLY w with
  | none => rw [hle] at h; simp at h
  | some le =>
    rw [hle] at h
    simp only [Option.bind_eq_bind, Option.some_bind] at h
    cases him : fillArtinSchreier M w le.1 le.2 with
    | none => rw [him] at h; simp at h
    | some imap =>
      rw [him] at h
      simp only [Option.some_bind, Option.pure_def, Option.some.injEq] at h
      rw [← h]
      exact him

end TablesGenerator

open Polynomial

namespace ReedSolomon

open GF TablesGenerator

variable {M POLY w : Nat} {T : Tables}

/-- The field value `K = a * c / (b * b)` that the branch `locator_degree == 2` hands to
`Artin_Schreier_imap`, for `c = 1`. -/
theorem degree2_K (h : TablesOK M POLY w T) {a b : Nat} (ha0 : a ≠ 0) (ha : a < 2 ^ M)
    (hb0 : b ≠ 0) (hb : b < 2 ^ M) :
    mulVV M w T a 1 = some a ∧ mulVV M w T b b = some (fmul M POLY w b b) ∧
      divVV M w T a (fmul M POLY w b b) = some (fdiv M POLY w a (fmul M POLY w b b)) ∧
      fdiv M POLY w a (fmul M POLY w b b) ≠ 0 ∧
      fdiv M POLY w a (fmul M POLY w b b) < 2 ^ M := by
  have hF := h.field
  refine ⟨?_, mulVV_eq h hb hb,
    divVV_eq h ha (fmul_ne_zero hF hb0 hb0) (fmul_lt hF b b),
    fdiv_ne_zero hF _ ha0, fdiv_lt hF _ _⟩
  rw [mulVV_eq h ha (one_lt_Q hF.params), fmul_one hF ha]

/-- The branch `locator_degree == 2` up to the table lookup: the result is decided by what
`Artin_Schreier_imap` returns on `K = a / (b * b)`. -/
theorem locationsDegree2_lookup (h : TablesOK M POLY w T) {a b : Nat} (rest : List Nat)
    (ha0 : a ≠ 0) (ha : a < 2 ^ M) (hb0 : b ≠ 0) (hb : b < 2 ^ M) :
    locationsDegree2 M w T (1 :: b :: a :: rest)
      = (Artin_Schreier_imap T (fdiv M POLY w a (fmul M POLY w b b))).bind (fun R =>
          if R = 0 then some none else do
            let baR ← mulVV M w T (fdiv M POLY w b a) R
            let i1 ← index T baR
            let loc0 ← divII M w i1 (toTYPE w 1)
            let i2 ← index T (add baR (fdiv M POLY w b a))
            let loc1 ← divII M w i2 (toTYPE w 1)
            pure (some [loc0, loc1])) := by
  obtain ⟨k1, k2, k3, _, _⟩ := degree2_K h ha0 ha hb0 hb
  unfold locationsDegree2
  simp only [rd, List.getElem?_cons_zero, List.getElem?_cons_succ, Option.bind_eq_bind,
    Option.some_bind]
  rw [if_neg (by simp [hb0]), divVV_eq h hb ha0 ha, Option.some_bind, k1, Option.some_bind,
    k2, Option.some_bind, k3, Option.some_bind]
  rfl

/-- The lookup of the index `N` in a table of `N` entries fails, and with it the branch. -/
theorem locationsDegree2_past (h : TablesOK M POLY w T) (hlen : T.Artin_Schreier_imap.length = N M)
    {a b : Nat} (rest : List Nat) (ha0 : a ≠ 0) (ha : a < 2 ^ M) (hb0 : b ≠ 0)
    (hb : b < 2 ^ M) (hK : fdiv M POLY w a (fmul M POLY w b b) = N M) :
    Artin_Schreier_imap T (fdiv M POLY w a (fmul M POLY w b b)) = none ∧
      locationsDegree2 M w T (1 :: b :: a :: rest) = none := by
  have hnone : Artin_Schreier_imap T (fdiv M POLY w a (fmul M POLY w b b)) = none := by
    unfold Artin_Schreier_imap rd
    rw [hK, List.getElem?_eq_none (by omega)]
  refine ⟨hnone, ?_⟩
  rw [locationsDegree2_lookup h rest ha0 ha hb0 hb, hnone]
  rfl

end ReedSolomon

open Polynomial

namespace ReedSolomon

open GF TablesGenerator

variable {M POLY w : Nat} {T : Tables}

end ReedSolomon

open Polynomial

namespace ReedSolomon

open GF TablesGenerator

variable {M POLY w : Nat} {T : Tables}

/-- C20.  The field value `K = a * c / (b * b)` of the branch `locator_degree == 2` need not
be below `N`: in every field it takes each nonzero value, `N` among them.  For the locator
`1 + x + N x^2` (`a = N`, `b = c = 1`, all nonzero) `K = N`, and `Artin_Schreier_imap(N)` reads
one entry past the table of `N` entries that `generate` emits. -/
theorem degree2_index_past_table (rest : List Nat)
    (hgen : generateLogExp M POLY w = some (T.log, T.exp)) (hprim : Primitive M POLY w)
    (hM : 1 ≤ M) (hlen : T.Artin_Schreier_imap.length = N M) :
    N M ≠ 0 ∧ N M < Q M ∧
    ∃ ac bb K, mulVV M w T (N M) 1 = some ac ∧ mulVV M w T 1 1 = some bb ∧
      divVV M w T ac bb = some K ∧ K = N M ∧ ¬ K < T.Artin_Schreier_imap.length ∧
      Artin_Schreier_imap T K = none ∧
      locationsDegree2 M w T (1 :: 1 :: N M :: rest) = none := by
  have hOK := tablesOK_of_generateLogExp hM hprim hgen
  have hF := hOK.field
  have hp := hF.params
  have hN := N_pos hp
  have hNlt := N_lt M
  have h1 := one_lt_Q hp
  obtain ⟨k1, k2, k3, _, _⟩ := degree2_K hOK (Nat.ne_of_gt hN) hNlt (by decide) h1
  have hK : fdiv M POLY w (N M) (fmul M POLY w 1 1) = N M := by
    rw [fmul_one hF h1, fdiv_one hF hNlt]
  obtain ⟨p1, p2⟩ := locationsDegree2_past hOK hlen rest (Nat.ne_of_gt hN) hNlt
    (by decide) h1 hK
  refine ⟨Nat.ne_of_gt hN, N_lt_Q M, _, _, _, k1, k2, k3, hK, ?_, p1, p2⟩
  rw [hK, hlen]
  exact Nat.lt_irrefl _

/-- The hypotheses of `degree2_index_past_table` hold for RS(15, 11): `K = 15` for the
locator `1 + x + 15 x^2`, and the table has the 15 entries 0..14. -/
theorem degree2_index_past_table_witness :
    generateLogExp 4 0b10011 8 = some (rs15Tables.log, rs15Tables.exp) ∧
    Primitive 4 0b10011 8 ∧ rs15Tables.Artin_Schreier_imap.length = N 4 ∧
    divVV 4 8 rs15Tables 15 1 = some 15 ∧
    locationsDegree2 4 8 rs15Tables (1 :: 1 :: N 4 :: [0, 0]) = none :=
  ⟨rs15_generateLogExp, rs15_primitive, by decide, by decide,
    (degree2_index_past_table [0, 0] rs15_generateLogExp rs15_primitive (by decide)
      (show rs15Tables.Artin_Schreier_imap.length = N 4 by decide)).2.2.elim
      (fun _ h1 => h1.elim (fun _ h2 => h2.elim (fun _ h => h.2.2.2.2.2.2)))⟩

end ReedSolomon

/-! ## `correct` on a locator of trimmed degree 0 -/

namespace ReedSolomon

open GF TablesGenerator

/-- The `while` loop of `correct` on the constant locator 1 stops at degree 0: the cell
`locator[0]` is not zero, so the loop never reaches `return -1`. -/
theorem trimDegree_constant (NR : Nat) : ∀ d, d ≤ NR →
    trimDegree (1 :: List.replicate NR 0) d = some (some 0) := by
  intro d
  induction d with
  | zero => intro _; simp [trimDegree, rd]
  | succ d ih =>
    intro hd
    have hrd : rd (1 :: List.replicate NR 0) (d + 1) = some 0 := by
      simp [rd, List.getElem?_replicate, Nat.lt_of_succ_le hd]
    unfold trimDegree
    rw [hrd]
    simp only [Option.bind_eq_bind, Option.some_bind, ne_eq, not_true_eq_false, if_false]
    exact ih (by omega)

/-- When Berlekamp–Massey returns the constant locator 1, `correct` goes on to the Chien search
with degree 0, and its result is decided by what the search and Forney return. -/
theorem correct_constant_eq (M w : Nat) (T : Tables) {NR : Nat} (hw : 1 ≤ w)
    (BerlekampMassey : List Nat → List Nat → Int → Option (List Nat × Int))
    (Chien : List Nat → Nat → Option (List Nat × Int))
    (Forney : List Nat → List Nat → List Nat → Int → Option (List Nat × List Nat × Int))
    (code syndromes erasures locator0 : List Nat) {erasures_count d : Int}
    (hcount : 0 ≤ erasures_count ∧ erasures_count ≤ (NR : Int))
    (hseed : locatorSeed M w T NR erasures erasures_count.toNat = some locator0)
    (hBM : BerlekampMassey syndromes locator0 erasures_count
      = some (1 :: List.replicate NR 0, d))
    (hd1 : 1 ≤ d) (hd : d ≤ (NR : Int)) :
    correct M w T NR BerlekampMassey Chien Forney code syndromes erasures erasures_count
      = (Chien (1 :: List.replicate NR 0) 0).bind (fun r =>
          if r.2 < 0 then some (code, -1) else
            (Forney syndromes (1 :: List.replicate NR 0) r.1 r.2).bind (fun fy =>
              (forUp 0 r.2.toNat (applyMagnitude r.1 fy.2.1) code).bind (fun code1 =>
                (forUp 0 r.2.toNat (magnitudeCount fy.2.1) 0).bind (fun corrections =>
                  some (code1, (corrections : Int)))))) := by
  have h1 : toTYPE w 1 = 1 :=
    toTYPE_of_lt (Nat.one_lt_two_pow (by omega))
  have hdn : d.toNat ≤ NR := by omega
  unfold correct
  rw [if_neg (not_not.2 hcount)]
  simp only [hseed, hBM, Option.bind_eq_bind, Option.some_bind]
  rw [if_neg (by omega), if_neg (not_not.2 hd)]
  simp only [rd, List.getElem?_cons_zero, Option.some_bind, h1]
  rw [if_neg (by simp), if_neg (by omega), trimDegree_constant NR _ hdn]
  simp only [Option.some_bind]
  rw [if_neg (by decide), if_neg (by decide)]
  cases hC : Chien (1 :: List.replicate NR 0) 0 with
  | none => rfl
  | some r =>
    obtain ⟨locs, cnt⟩ := r
    simp only [Option.some_bind, Nat.cast_zero, Option.pure_def]
    by_cases hr : cnt < 0
    · rw [if_pos hr, if_pos hr]
      rfl
    · rw [if_neg hr, if_neg hr]
      rfl

end ReedSolomon

namespace ReedSolomon

open GF TablesGenerator

/-- C18.  When Berlekamp–Massey returns the constant locator 1 (`locator[0] = 1`,
`locator[k] = 0` for `k` in `[1, NR]`) with a degree `d` in `[1, NR]`, the `while` loop of
`correct` trims the degree to 0 and stops there without `return -1`; `correct` calls the Chien
search with degree 0 and its result is decided by what the search returns: -1 when the count
is negative and only then; when the search returns the count 0 and Forney returns, `correct`
returns 0 and leaves the buffer as it was. -/
theorem correct_trimmed_degree_zero (M w : Nat) (T : Tables) {NR : Nat} (hw : 1 ≤ w)
    (BerlekampMassey : List Nat → List Nat → Int → Option (List Nat × Int))
    (Chien : List Nat → Nat → Option (List Nat × Int))
    (Forney : List Nat → List Nat → List Nat → Int → Option (List Nat × List Nat × Int))
    (code syndromes erasures locator0 : List Nat) {erasures_count d : Int}
    (hcount : 0 ≤ erasures_count ∧ erasures_count ≤ (NR : Int))
    (hseed : locatorSeed M w T NR erasures erasures_count.toNat = some locator0)
    (hBM : BerlekampMassey syndromes locator0 erasures_count
      = some (1 :: List.replicate NR 0, d))
    (hd1 : 1 ≤ d) (hd : d ≤ (NR : Int)) :
    trimDegree (1 :: List.replicate NR 0) d.toNat = some (some 0) ∧
    (∀ locations fy, Chien (1 :: List.replicate NR 0) 0 = some (locations, 0) →
      Forney syndromes (1 :: List.replicate NR 0) locations 0 = some fy →
      correct M w T NR BerlekampMassey Chien Forney code syndromes erasures erasures_count
        = some (code, 0)) ∧
    (∀ r, Chien (1 :: List.replicate NR 0) 0 = some r → r.2 < 0 →
      correct M w T NR BerlekampMassey Chien Forney code syndromes erasures erasures_count
        = some (code, -1)) ∧
    (∀ c, correct M w T NR BerlekampMassey Chien Forney code syndromes erasures erasures_count
        = some (c, -1) →
      ∃ r, Chien (1 :: List.replicate NR 0) 0 = some r ∧ r.2 < 0) := by
  have heq := correct_constant_eq M w T hw BerlekampMassey Chien Forney code syndromes erasures
    locator0 hcount hseed hBM hd1 hd
  refine ⟨trimDegree_constant NR _ (by omega), ?_, ?_, ?_⟩
  · intro locations fy hC hFy
    rw [heq, hC, Option.some_bind, if_neg (show ¬ (0 : Int) < 0 by decide)]
    simp only [hFy, Option.some_bind, Int.toNat_zero, forUp_self]
    rfl
  · intro r hC hr
    rw [heq, hC, Option.some_bind, if_pos hr]
  · intro c hc
    rw [heq] at hc
    cases hC : Chien (1 :: List.replicate NR 0) 0 with
    | none =>
      rw [hC] at hc
      exact absurd hc (by simp)
    | some r =>
      refine ⟨r, rfl, ?_⟩
      by_contra hr
      rw [hC, Option.some_bind, if_neg hr] at hc
      simp only [Option.bind_eq_some] at hc
      obtain ⟨fy, _, code1, _, k, _, hk⟩ := hc
      have := congrArg Prod.snd (Option.some.inj hk)
      simp only at this
      omega

/-- The hypotheses of `correct_trimmed_degree_zero` hold for RS(15, 11) with `FCR = 1`, the
word `x^3 + 15 x^2 + x + 10` (four errors on the zero codeword; syndromes 9, 0, 0, 0), a
Berlekamp–Massey that returns the locator 1 with degree 1 and a Chien search that finds no
root: `decode` returns 0 and leaves the word as it was. -/
theorem correct_trimmed_degree_zero_witness :
    compute_syndromes 4 8 rs15Tables 4 1 [0, 0, 0, 0, 0, 0, 0, 0, 0, 0, 0, 1, 15, 1, 10]
      = some ([0, 0, 0, 0, 0, 0, 0, 0, 0, 0, 0, 1, 15, 1, 10], [9, 0, 0, 0], 1) ∧
    locatorSeed 4 8 rs15Tables 4 [] (0 : Int).toNat = some [1, 0, 0, 0, 0] ∧
    correct 4 8 rs15Tables 4 (fun _ _ _ => some (1 :: List.replicate 4 0, 1))
        (fun _ _ => some ([], 0)) (fun _ _ _ _ => some ([], [], 0))
        [0, 0, 0, 0, 0, 0, 0, 0, 0, 0, 0, 1, 15, 1, 10] [9, 0, 0, 0] [] 0
      = some ([0, 0, 0, 0, 0, 0, 0, 0, 0, 0, 0, 1, 15, 1, 10], 0) :=
  ⟨by decide, by decide,
    (correct_trimmed_degree_zero 4 8 rs15Tables (show 1 ≤ 8 by decide)
      (fun _ _ _ => some (1 :: List.replicate 4 0, 1))
      (fun _ _ => some ([], 0)) (fun _ _ _ _ => some ([], [], 0))
      [0, 0, 0, 0, 0, 0, 0, 0, 0, 0, 0, 1, 15, 1, 10] [9, 0, 0, 0] [] [1, 0, 0, 0, 0]
      (show (0 : Int) ≤ 0 ∧ (0 : Int) ≤ ((4 : Nat) : Int) by decide)
      (show locatorSeed 4 8 rs15Tables 4 [] (0 : Int).toNat = some [1, 0, 0, 0, 0] by decide)
      rfl (show (1 : Int) ≤ 1 by decide)
      (show (1 : Int) ≤ ((4 : Nat) : Int) by decide)).2.1 [] ([], [], 0) rfl rfl⟩

end ReedSolomon

/-! ## What `assert(1 == a)` in `generate` detects -/

namespace TablesGenerator

open GF

variable {M POLY w : Nat}

/-- The first loop of `generate` completes for every `POLY` of degree `M`, primitive or not,
and leaves in `a` the value of the walk after `N` steps. -/
theorem fillLogExp_walk (hp : Params M POLY w) :
    ∃ s, fillLogExp M POLY w = some s ∧ s.2.2 = alphaPow M POLY w (N M) := by
  have hNQ := N_lt_Q M
  have hQ := Q_eq M
  have h0 : toTYPE w 0 = 0 := by simp [toTYPE]
  have h1 : toTYPE w 1 = 1 := toTYPE_of_lt_Q hp (one_lt_Q hp)
  have e1 : store (List.replicate (Q M) (none : Option Nat)) (N M) (some 0)
      = some ((List.replicate (Q M) (none : Option Nat)).set (N M) (some 0)) :=
    store_eq_some _ (by simpa using hNQ)
  have e2 : store (List.replicate (Q M) (none : Option Nat)) 0 (some (toTYPE w (N M)))
      = some ((List.replicate (Q M) (none : Option Nat)).set 0 (some (toTYPE w (N M)))) :=
    store_eq_some _ (by simpa using Q_pos M)
  unfold fillLogExp
  rw [h0, h1]
  simp only [e1, e2, Option.bind_eq_bind, Option.some_bind]
  obtain ⟨s', hs', hP⟩ := forUp_inv (Nat.zero_le (N M)) (logExpStep M POLY w)
    (fun i s => s.1.length = Q M ∧ s.2.1.length = Q M ∧ s.2.2 = alphaPow M POLY w i)
    ((List.replicate (Q M) (none : Option Nat)).set 0 (some (toTYPE w (N M))),
      (List.replicate (Q M) (none : Option Nat)).set (N M) (some 0), 1)
    ⟨by simp, by simp, rfl⟩
    (by
      intro i s _ hi hs
      obtain ⟨l1, l2, ha⟩ := hs
      have hlt : s.2.2 < s.1.length := by
        rw [l1, ha, hQ]
        exact alphaPow_lt hp i
      unfold logExpStep
      rw [store_eq_some _ (by omega), store_eq_some _ hlt]
      refine ⟨_, rfl, ?_, ?_, ?_⟩
      · simp [l1]
      · simp [l2]
      · show next M POLY w s.2.2 = _
        rw [ha, alphaPow_succ])
  exact ⟨s', hs', hP.2.2⟩

/-- When the walk is back at 1 after `d` steps, it has period `d`. -/
theorem alphaPow_add_period {d : Nat} (hd : alphaPow M POLY w d = 1) (i : Nat) :
    alphaPow M POLY w (d + i) = alphaPow M POLY w i := by
  rw [alphaPow_add, hd]
  rfl

theorem alphaPow_mod_period {d : Nat} (hd : alphaPow M POLY w d = 1) (n : Nat) :
    alphaPow M POLY w n = alphaPow M POLY w (n % d) := by
  induction n using Nat.strong_induction_on with
  | _ n ih =>
    by_cases hn : n < d
    · rw [Nat.mod_eq_of_lt hn]
    · have e : n = d + (n - d) := by omega
      by_cases hd0 : d = 0
      · subst hd0
        simp
      · rw [e, alphaPow_add_period hd, Nat.add_mod_left]
        exact ih (n - d) (by omega)

/-- C19, amended.  For `1 ≤ M ≤ w` and `POLY >> M == 1`: the first part of the table builder
(the walk loop and `assert(1 == a)`) does not fail when `POLY` is primitive; the loop always
completes with `a` the value of the walk after `N` steps, and `assert(1 == a)` fails exactly
when that value is not 1.  A walk that hits 0 is detected.  A walk whose first return to 1 is
after `d` steps is detected exactly when `d` does not divide `N`: a non-primitive `POLY` whose
period is a proper divisor of `N` passes the assertion. -/
theorem generate_detects (hM : 1 ≤ M) (hw : M ≤ w) (hP : POLY >>> M = 1) :
    (Primitive M POLY w → ∃ r, generateLogExp M POLY w = some r) ∧
    (∃ s, fillLogExp M POLY w = some s ∧ s.2.2 = alphaPow M POLY w (N M)) ∧
    (alphaPow M POLY w (N M) ≠ 1 → generateLogExp M POLY w = none) ∧
    (∀ k, k ≤ N M → alphaPow M POLY w k = 0 → alphaPow M POLY w (N M) ≠ 1) ∧
    (∀ d, 0 < d → alphaPow M POLY w d = 1 →
      (∀ e, e < d → 0 < e → alphaPow M POLY w e ≠ 1) →
      (alphaPow M POLY w (N M) = 1 ↔ d ∣ N M)) := by
  have hp : Params M POLY w := ⟨hM, hw, hP⟩
  obtain ⟨s, hs, ha⟩ := fillLogExp_walk hp
  refine ⟨fun hq => ⟨_, generateLogExp_eq hp hq⟩, ⟨s, hs, ha⟩, ?_, ?_, ?_⟩
  · intro hne
    unfold generateLogExp
    split
    · rfl
    · rw [hs]
      simp only [Option.bind_eq_bind, Option.some_bind]
      rw [if_pos (by rw [ha]; exact hne)]
  · intro k hk h0
    have e : N M = k + (N M - k) := by omega
    rw [e, alphaPow_add, h0, iter_zero hp]
    decide
  · intro d hd0 hd hmin
    rw [alphaPow_mod_period hd (N M)]
    constructor
    · intro h1
      by_contra hnd
      have hpos : 0 < N M % d := Nat.pos_of_ne_zero (fun e => hnd (Nat.dvd_of_mod_eq_zero e))
      exact hmin _ (Nat.mod_lt _ hd0) hpos h1
    · intro hdvd
      rw [Nat.mod_eq_zero_of_dvd hdvd]
      rfl

/-- The hypotheses of `generate_detects` hold for `M = 4`, `POLY = 0b11111`, `uint8_t`: the
walk is back at 1 after 5 steps, 5 divides `N = 15`, and the value of the walk after `N` steps
is 1. -/
theorem generate_detects_witness :
    0b11111 >>> 4 = 1 ∧ alphaPow 4 0b11111 8 5 = 1 ∧
    (∀ e, e < 5 → 0 < e → alphaPow 4 0b11111 8 e ≠ 1) ∧
    (alphaPow 4 0b11111 8 (N 4) = 1 ↔ 5 ∣ N 4) :=
  ⟨by decide, by decide, by decide,
    (generate_detects (show 1 ≤ 4 by decide) (show 4 ≤ 8 by decide)
      (show 0b11111 >>> 4 = 1 by decide)).2.2.2.2 5 (by decide)
      (show alphaPow 4 0b11111 8 5 = 1 by decide) (by decide)⟩

/-- C19, counterexample: `M = 4`, `POLY = 0b11111` (`x^4 + x^3 + x^2 + x + 1`), `uint8_t`.
The `static_assert`s hold and `POLY >> M == 1`; the walk from 1 is back at 1 after 5 steps,
before `N = 15` steps, so `POLY` is not primitive; the first loop completes with `a = 1`, so
`assert(1 == a)` does not fail.  The loop leaves cells of `log` unwritten, `log[3]` among
them, so the first part of `generate` has no table to print. -/
theorem generate_detects_counterexample :
    staticAsserts 4 0b11111 8 = true ∧ 0b11111 >>> 4 = 1 ∧
    alphaPow 4 0b11111 8 5 = 1 ∧ 5 < N 4 ∧ ¬ Primitive 4 0b11111 8 ∧
    (fillLogExp 4 0b11111 8).map (fun s => s.2.2) = some 1 ∧
    (fillLogExp 4 0b11111 8).map (fun s => decide (s.2.2 ≠ 1)) = some false ∧
    (fillLogExp 4 0b11111 8).map (fun s => load s.1 3) = some none ∧
    generateLogExp 4 0b11111 8 = none := by
  decide

end TablesGenerator
